import Mathlib

/-!
# Monthly bill ledger: parser and aggregator of `analyse.go`

Shallow embedding of `main` and `readDateData`.  Go strings are modelled as
lists of Unicode code points (valid UTF-8 text), Go maps as association lists
with unique keys, `float64` as IEEE-754 binary64 with round to nearest even, and
a runtime panic as an error value.  The input is the list of lines that the
scanner delivers; the report printed at the end of `main` is not modelled.
-/

namespace Bill

/-! ## Strings -/

/-- Go string holding valid UTF-8 text. -/
abbrev Str := List Char

/-- Go `unicode.IsSpace`. -/
def isSpace (c : Char) : Bool :=
  (9 ≤ c.toNat && c.toNat ≤ 13) || c.toNat = 32 || c.toNat = 0x85 || c.toNat = 0xA0 ||
  c.toNat = 0x1680 || (0x2000 ≤ c.toNat && c.toNat ≤ 0x200A) || c.toNat = 0x2028 ||
  c.toNat = 0x2029 || c.toNat = 0x202F || c.toNat = 0x205F || c.toNat = 0x3000

/-- Go `strings.TrimSpace`: leading and trailing white space removed. -/
def TrimSpace (s : Str) : Str :=
  List.rdropWhile isSpace (List.dropWhile isSpace s)

/-- Go `strings.Index`, the offset counted in code points: the position of the
first occurrence of `sub` in `s`, or `-1` when there is none. -/
def Index (s sub : Str) : Int :=
  match s with
  | [] => if sub = [] then 0 else -1
  | c :: t =>
    if sub.isPrefixOf (c :: t) then 0
    else if Index t sub = -1 then -1 else Index t sub + 1

/-- Worker of `Split`: `skip` counts the characters of a matched separator that
are still to be passed over, `cur` is the segment read so far. -/
def splitAux (sep : Str) : Nat → Str → Str → List Str
  | _, cur, [] => [cur]
  | k + 1, cur, _ :: t => splitAux sep k cur t
  | 0, cur, c :: t =>
    if sep.isPrefixOf (c :: t) then cur :: splitAux sep (sep.length - 1) [] t
    else splitAux sep 0 (cur ++ [c]) t

/-- Go `strings.Split` for a non-empty separator (both call sites pass one). -/
def Split (s sep : Str) : List Str := splitAux sep 0 [] s

/-- Text before and after the first occurrence of `sep`, as Go `strings.Cut`. -/
def cut (sep : Str) : Str → Option (Str × Str)
  | [] => if sep = [] then some ([], []) else none
  | c :: t =>
    if sep.isPrefixOf (c :: t) then some ([], (c :: t).drop sep.length)
    else (cut sep t).map (fun p => (c :: p.1, p.2))

/-- Go `strings.Replace` for a non-empty `old` and a count `n ≥ 0`: the first
`n` occurrences of `old` are replaced by `new`. -/
def Replace : Str → Str → Str → Nat → Str
  | s, _, _, 0 => s
  | s, old, new, n + 1 =>
    match cut old s with
    | none => s
    | some (a, b) => a ++ new ++ Replace b old new n

/-! ## Maps -/

/-- Go `map[string]V` as an association list with unique keys. -/
abbrev GoMap (V : Type) := List (Str × V)

/-- Map read `m[k]` with the comma-ok result. -/
def mapGet {V : Type} : GoMap V → Str → Option V
  | [], _ => none
  | (k', v) :: t, k => if k' = k then some v else mapGet t k

/-- Map write `m[k] = v`: the value of an existing key is replaced, a new key is added. -/
def mapSet {V : Type} : GoMap V → Str → V → GoMap V
  | [], k, v => [(k, v)]
  | (k', v') :: t, k, v => if k' = k then (k, v) :: t else (k', v') :: mapSet t k v

/-! ## Floating point -/

/-- IEEE-754 binary64 value, as Go `float64`.  A finite value is
`(-1)^neg * m * 2^e` with `m < 2^53` and `-1074 ≤ e ≤ 971`, where `2^52 ≤ m`
unless `e = -1074` (zero and the subnormal numbers).  All NaNs are one value. -/
inductive F64 where
  | nan : F64
  | inf (neg : Bool) : F64
  | fin (neg : Bool) (m : Nat) (e : Int) : F64
  deriving DecidableEq, Repr

namespace F64

/-- Worker of `bitLen`; the first argument bounds the number of steps. -/
def bitLenAux : Nat → Nat → Nat
  | 0, _ => 0
  | fuel + 1, n => if n = 0 then 0 else bitLenAux fuel (n / 2) + 1

/-- Number of binary digits of `n`, which is `0` for `n = 0`. -/
def bitLen (n : Nat) : Nat := bitLenAux n n

/-- Integer part of the binary logarithm of `num / den`, for `0 < num` and `0 < den`. -/
def floorLog2 (num den : Nat) : Int :=
  if den ≤ num then (bitLen (num / den) : Int) - 1
  else -(bitLen ((den - 1) / num) : Int)

/-- The binary64 value nearest to `(-1)^neg * num / den` (`0 < den`), ties to the
even mantissa; a magnitude that rounds beyond the largest finite value gives
infinity. -/
def roundRatio (neg : Bool) (num den : Nat) : F64 :=
  if num = 0 then fin neg 0 (-1074)
  else
    let e : Int := max (floorLog2 num den - 52) (-1074)
    let n := if 0 ≤ e then num else num * 2 ^ (-e).toNat
    let d := if 0 ≤ e then den * 2 ^ e.toNat else den
    let q := n / d
    let r := n % d
    let q' := if d < 2 * r ∨ (2 * r = d ∧ q % 2 = 1) then q + 1 else q
    let m := if q' = 2 ^ 53 then 2 ^ 52 else q'
    let e' := if q' = 2 ^ 53 then e + 1 else e
    if 971 < e' then inf neg else fin neg m e'

/-- The binary64 value nearest to `(-1)^neg * x * b^k`. -/
def roundScaled (neg : Bool) (x b : Nat) (k : Int) : F64 :=
  if 0 ≤ k then roundRatio neg (x * b ^ k.toNat) 1 else roundRatio neg x (b ^ (-k).toNat)

/-- The value `+0`, the initial value of a Go `float64` variable set to `0.0`. -/
def zero : F64 := fin false 0 (-1074)

/-- Float64 addition `x + y` (round to nearest, ties to even). -/
def add : F64 → F64 → F64
  | nan, _ => nan
  | _, nan => nan
  | inf a, inf b => if a = b then inf a else nan
  | inf a, fin _ _ _ => inf a
  | fin _ _ _, inf b => inf b
  | fin s1 m1 e1, fin s2 m2 e2 =>
    let e := min e1 e2
    let x1 : Int := (if s1 then -1 else 1) * ((m1 * 2 ^ (e1 - e).toNat : Nat) : Int)
    let x2 : Int := (if s2 then -1 else 1) * ((m2 * 2 ^ (e2 - e).toNat : Nat) : Int)
    let x := x1 + x2
    if x = 0 then fin (s1 && s2) 0 (-1074)
    else roundScaled (decide (x < 0)) x.natAbs 2 e

/-- Float64 subtraction `x - y`. -/
def sub (x : F64) : F64 → F64
  | nan => add x nan
  | inf b => add x (inf (!b))
  | fin s m e => add x (fin (!s) m e)

/-- The float64 nearest to the natural number `n`. -/
def ofNat (n : Nat) : F64 := roundRatio false n 1

/-- The float64 of a natural number up to `2^53`, written out. -/
def natFloat (n : Nat) : F64 :=
  if bitLen n ≤ 53 then fin false (n * 2 ^ (53 - bitLen n)) ((bitLen n : Int) - 53)
  else fin false (2 ^ 52) 1

/-- The rational number `(-1)^neg * m * 2^e` that a finite value stands for;
`0` for NaN and the infinities, which stand for no number. -/
def toRat : F64 → ℚ
  | fin s m e => (if s then -1 else 1) * (m : ℚ) * (2 : ℚ) ^ e
  | _ => 0

/-- Whether the value is a number: neither NaN nor an infinity. -/
def isFinite : F64 → Bool
  | fin _ _ _ => true
  | _ => false

/-- The addition `x + y` does not round: both operands and the float64 result
are numbers, and the result stands for the sum of the two operands. -/
def ExactAdd (x y : F64) : Prop :=
  x.isFinite = true ∧ y.isFinite = true ∧ (add x y).isFinite = true ∧
    (add x y).toRat = x.toRat + y.toRat

instance (x y : F64) : Decidable (ExactAdd x y) := by
  unfold ExactAdd; infer_instance

/-- Whether the value is a zero with the sign bit set. -/
def isNegZero : F64 → Bool
  | fin s m _ => s && decide (m = 0)
  | _ => false

/-- The invariant of the representation of finite values stated with `F64`. -/
def Canonical : F64 → Prop
  | fin _ m e => m < 2 ^ 53 ∧ -1074 ≤ e ∧ (2 ^ 52 ≤ m ∨ e = -1074)
  | _ => True

end F64

/-! ## Number parsing -/

/-- Value of a decimal digit. -/
def digitVal (c : Char) : Option Nat :=
  if 48 ≤ c.toNat ∧ c.toNat ≤ 57 then some (c.toNat - 48) else none

/-- Value of a hexadecimal digit that is a letter, of either case. -/
def hexLetterVal (c : Char) : Option Nat :=
  if 97 ≤ c.toNat ∧ c.toNat ≤ 102 then some (c.toNat - 87)
  else if 65 ≤ c.toNat ∧ c.toNat ≤ 70 then some (c.toNat - 55) else none

/-- ASCII upper-case letters to lower case. -/
def lowerAscii (c : Char) : Char :=
  if 65 ≤ c.toNat ∧ c.toNat ≤ 90 then Char.ofNat (c.toNat + 32) else c

/-- The variables of the mantissa loop of `readFloat` in package `strconv`; the
mantissa is kept in full (the library keeps 19 digits and a truncation flag, and
rounds as for the full digit string). -/
structure Scan where
  sawdot : Bool
  sawdigits : Bool
  nd : Nat
  dp : Int
  mantissa : Nat
  underscores : Bool
  deriving DecidableEq, Repr

/-- Mantissa loop of `readFloat`: the digits, with at most one point and with
underscores passed over; returns the text from the first other character on. -/
def scanMantissa (hex : Bool) : Scan → Str → Scan × Str
  | st, [] => (st, [])
  | st, c :: t =>
    if c = '_' then scanMantissa hex { st with underscores := true } t
    else if c = '.' then
      if st.sawdot then (st, c :: t)
      else scanMantissa hex { st with sawdot := true, dp := st.nd } t
    else
      match digitVal c with
      | some v =>
        if v = 0 ∧ st.nd = 0 then
          scanMantissa hex { st with sawdigits := true, dp := st.dp - 1 } t
        else
          scanMantissa hex { st with sawdigits := true, nd := st.nd + 1,
                                     mantissa := st.mantissa * (if hex then 16 else 10) + v } t
      | none =>
        match (if hex then hexLetterVal c else none) with
        | some v =>
          scanMantissa hex { st with sawdigits := true, nd := st.nd + 1,
                                     mantissa := st.mantissa * 16 + v } t
        | none => (st, c :: t)

/-- Exponent digit loop of `readFloat`, which has to reach the end of the text:
the exponent (it stops growing from 10000 on) and whether an underscore was seen. -/
def scanExponent : Nat → Bool → Str → Option (Nat × Bool)
  | e, u, [] => some (e, u)
  | e, u, c :: t =>
    if c = '_' then scanExponent e true t
    else
      match digitVal c with
      | some v => scanExponent (if e < 10000 then e * 10 + v else e) u t
      | none => none

/-- Number loop of `underscoreOK` in package `strconv`; `saw` is the kind of
the last character: `'0'` digit, `'_'` underscore, `'!'` other, `'^'` start. -/
def underscoreLoop (hex : Bool) : Char → Str → Bool
  | saw, [] => saw ≠ '_'
  | saw, c :: t =>
    if (digitVal c).isSome ∨ (hex ∧ (hexLetterVal c).isSome) then underscoreLoop hex '0' t
    else if c = '_' then (if saw ≠ '0' then false else underscoreLoop hex '_' t)
    else if saw = '_' then false
    else underscoreLoop hex '!' t

/-- Function `underscoreOK` of package `strconv`: underscores only between
digits, or between a base mark and a digit. -/
def underscoreOK (s : Str) : Bool :=
  let s1 := match s with
    | c :: t => if c = '-' ∨ c = '+' then t else s
    | [] => s
  match s1 with
  | c0 :: c1 :: t =>
    if c0 = '0' ∧ (lowerAscii c1 = 'b' ∨ lowerAscii c1 = 'o' ∨ lowerAscii c1 = 'x') then
      underscoreLoop (lowerAscii c1 = 'x') '0' t
    else underscoreLoop false '^' s1
  | _ => underscoreLoop false '^' s1

/-- Function `readFloat` of package `strconv` for a text that has to be read to
its end: sign, base, mantissa and exponent of the base (10, or 2 for a
hexadecimal text), so that the value is `mantissa * base ^ exponent`. -/
def readFloat (s : Str) : Option (Bool × Bool × Nat × Int) :=
  match s with
  | [] => none
  | c :: t =>
    let neg := decide (c = '-')
    let s1 := if c = '+' ∨ c = '-' then t else s
    let hex := match s1 with
      | c0 :: c1 :: _ :: _ => decide (c0 = '0' ∧ lowerAscii c1 = 'x')
      | _ => false
    let s2 := if hex then s1.drop 2 else s1
    let (st, rest) := scanMantissa hex
      { sawdot := false, sawdigits := false, nd := 0, dp := 0, mantissa := 0,
        underscores := false } s2
    if ¬ st.sawdigits then none
    else
      let dp0 : Int := if st.sawdot then st.dp else st.nd
      let dp1 : Int := if hex then dp0 * 4 else dp0
      let nd1 : Int := if hex then (st.nd : Int) * 4 else st.nd
      let finish := fun (dp : Int) (underscores : Bool) =>
        if underscores ∧ ¬ underscoreOK s then none
        else some (neg, hex, st.mantissa, if st.mantissa = 0 then (0 : Int) else dp - nd1)
      match rest with
      | [] => if hex then none else finish dp1 st.underscores
      | x :: r =>
        if lowerAscii x = (if hex then 'p' else 'e') then
          let esign : Int := match r with
            | y :: _ => if y = '-' then -1 else 1
            | [] => 1
          let r1 := match r with
            | y :: r' => if y = '+' ∨ y = '-' then r' else r
            | [] => r
          match r1 with
          | [] => none
          | y :: _ =>
            if (digitVal y).isNone then none
            else
              match scanExponent 0 st.underscores r1 with
              | none => none
              | some (e, u) => finish (dp1 + e * esign) u
        else none

/-- Function `special` of package `strconv` for a text that has to be read to its
end: the infinities, with an optional sign, and NaN, without one, in any case. -/
def special (s : Str) : Option F64 :=
  match s with
  | [] => none
  | c :: t =>
    if c = '+' ∨ c = '-' then
      if t.map lowerAscii = "inf".toList ∨ t.map lowerAscii = "infinity".toList then
        some (F64.inf (decide (c = '-')))
      else none
    else if s.map lowerAscii = "inf".toList ∨ s.map lowerAscii = "infinity".toList then
      some (F64.inf false)
    else if s.map lowerAscii = "nan".toList then some F64.nan
    else none

/-- Go `strconv.ParseFloat(s, 64)`: `none` stands for a returned error, which is a
syntax error or, when the text denotes a magnitude that rounds to infinity, a
range error. -/
def ParseFloat (s : Str) : Option F64 :=
  match special s with
  | some v => some v
  | none =>
    match readFloat s with
    | none => none
    | some (neg, hex, mantissa, exp) =>
      match F64.roundScaled neg mantissa (if hex then 2 else 10) exp with
      | F64.inf _ => none
      | v => some v

/-! ## Ledger parser -/

/-- One ledger entry. -/
structure BillRecord where
  Category1 : Str
  Category2 : Str
  Tags : List Str
  Number : Str
  Description : Str
  deriving DecidableEq, Repr

/-- The two ways the program stops with a panic. -/
inductive RunError where
  /-- Runtime error "index out of range" in `readDateData` (the spec's MalformedRowError). -/
  | indexOutOfRange : RunError
  /-- Value `panic(err)` after `strconv.ParseFloat` failed (the spec's InvalidAmountError). -/
  | invalidAmount : RunError
  deriving DecidableEq, Repr

instance instDecidableEqExcept {ε α : Type} [DecidableEq ε] [DecidableEq α] :
    DecidableEq (Except ε α)
  | .ok a, .ok b => if h : a = b then isTrue (by rw [h]) else isFalse (fun h' => h (by cases h'; rfl))
  | .error a, .error b =>
    if h : a = b then isTrue (by rw [h]) else isFalse (fun h' => h (by cases h'; rfl))
  | .ok _, .error _ => isFalse (fun h' => by cases h')
  | .error _, .ok _ => isFalse (fun h' => by cases h')

/-- Heading that opens the region of the ledger that is read. -/
def startMarker : Str := "## 1. 日常收支".toList
/-- Heading that ends the reading. -/
def endMarker : Str := "## 2. 收支汇总".toList
/-- Mark of a date header line, the local `dateSectionTag` of `main`. -/
def dateSectionTag : Str := "### ".toList
/-- Column label of the table header, the first skip token of `readDateData`. -/
def headerLabel : Str := "分类 1".toList
/-- Cell of the table separator row, the second skip token of `readDateData`. -/
def separatorToken : Str := ":----:".toList
/-- Separator of the fields of a row. -/
def fieldSep : Str := "|".toList
/-- Separator of the tags of a row. -/
def tagSep : Str := "、".toList
/-- Primary category of an expense. -/
def expenseLabel : Str := "支出".toList
/-- Primary category of an income. -/
def incomeLabel : Str := "收入".toList

/-- Slice read `xs[i]`, which panics when `i` is out of range. -/
def elemAt (xs : List Str) (i : Nat) : Except RunError Str :=
  match xs.get? i with
  | some x => .ok x
  | none => .error .indexOutOfRange

/-- Function `readDateData` of the source; its third parameter, the date label
`dataStr`, is not used by the body. -/
def readDateData (recordList : List BillRecord) (lineStr _dataStr : Str) :
    Except RunError (List BillRecord) :=
  if Index lineStr headerLabel ≠ -1 ∨ Index lineStr separatorToken ≠ -1 then
    .ok recordList
  else
    let dataParams := Split lineStr fieldSep
    match elemAt dataParams 1, elemAt dataParams 2, elemAt dataParams 3,
        elemAt dataParams 4, elemAt dataParams 5 with
    | .ok c1, .ok c2, .ok tg, .ok nb, .ok ds =>
      .ok (recordList ++ [{ Category1 := c1, Category2 := c2, Tags := Split tg tagSep,
                            Number := nb, Description := ds }])
    | _, _, _, _, _ => .error .indexOutOfRange

/-- Variables of the scan loop of `main` that live across iterations. -/
structure ParseState where
  readDataStatus : Nat
  dateMap : GoMap (List BillRecord)
  dateStr : Str
  deriving DecidableEq, Repr

/-- How one iteration of the scan loop ends: with the next line, or with `break`. -/
inductive Step where
  | next (st : ParseState) : Step
  | stop (st : ParseState) : Step
  deriving DecidableEq, Repr

/-- State before the first line is read. -/
def initState : ParseState := { readDataStatus := 0, dateMap := [], dateStr := [] }

/-- Body of the scan loop of `main` for one line. -/
def processLine (st : ParseState) (raw : Str) : Except RunError Step :=
  let lineStr := TrimSpace raw
  if lineStr.length = 0 then .ok (.next st)
  else if Index lineStr startMarker = 0 then .ok (.next { st with readDataStatus := 1 })
  else if Index lineStr endMarker = 0 then .ok (.stop { st with readDataStatus := 0 })
  else if st.readDataStatus = 1 then
    if Index lineStr dateSectionTag = 0 then
      let dateStr := Replace lineStr dateSectionTag [] 1
      .ok (.next { st with dateStr := dateStr, dateMap := mapSet st.dateMap dateStr [] })
    else
      let dateRecordList := (mapGet st.dateMap st.dateStr).getD []
      match readDateData dateRecordList lineStr st.dateStr with
      | .error e => .error e
      | .ok l => .ok (.next { st with dateMap := mapSet st.dateMap st.dateStr l })
  else .ok (.next st)

/-- The scan loop of `main` over the lines of the file. -/
def parseLoop : ParseState → List Str → Except RunError ParseState
  | st, [] => .ok st
  | st, l :: ls =>
    match processLine st l with
    | .error e => .error e
    | .ok (.stop st') => .ok st'
    | .ok (.next st') => parseLoop st' ls

/-- First phase of `main`: the lines of the file to the date map. -/
def parse (lines : List Str) : Except RunError (GoMap (List BillRecord)) :=
  match parseLoop initState lines with
  | .error e => .error e
  | .ok st => .ok st.dateMap

/-! ## Aggregator -/

/-- Variables of the second phase of `main`. -/
structure Summary where
  totalOut : F64
  totalIn : F64
  outMap : GoMap F64
  inMap : GoMap F64
  deriving DecidableEq, Repr

/-- Totals and buckets before the first record is read. -/
def initSummary : Summary :=
  { totalOut := F64.zero, totalIn := F64.zero, outMap := [], inMap := [] }

/-- The bucket update of both `switch` cases: a first amount is stored, a later
one is added to the stored sum. -/
def addToBucket (m : GoMap F64) (category2 : Str) (v : F64) : GoMap F64 :=
  match mapGet m category2 with
  | none => mapSet m category2 v
  | some prev => mapSet m category2 (F64.add prev v)

/-- Body of the inner aggregation loop of `main` for one record. -/
def addRecord (acc : Summary) (recordItem : BillRecord) : Except RunError Summary :=
  match ParseFloat (TrimSpace recordItem.Number) with
  | none => .error .invalidAmount
  | some v =>
    let category1 := TrimSpace recordItem.Category1
    let category2 := TrimSpace recordItem.Category2
    if category1 = expenseLabel then
      .ok { acc with totalOut := F64.add acc.totalOut v,
                     outMap := addToBucket acc.outMap category2 v }
    else if category1 = incomeLabel then
      .ok { acc with totalIn := F64.add acc.totalIn v,
                     inMap := addToBucket acc.inMap category2 v }
    else .ok acc

/-- Inner aggregation loop of `main`: the records of one date. -/
def addRecords : Summary → List BillRecord → Except RunError Summary
  | acc, [] => .ok acc
  | acc, r :: rs =>
    match addRecord acc r with
    | .error e => .error e
    | .ok acc' => addRecords acc' rs

/-- Outer aggregation loop of `main`; the order of the list is the order in
which `range` visits the keys of the map, which Go leaves open. -/
def aggregateLoop : Summary → GoMap (List BillRecord) → Except RunError Summary
  | acc, [] => .ok acc
  | acc, (_, recordList) :: rest =>
    match addRecords acc recordList with
    | .error e => .error e
    | .ok acc' => aggregateLoop acc' rest

/-- Second phase of `main`: the date map to the totals and buckets. -/
def aggregate (dateMap : GoMap (List BillRecord)) : Except RunError Summary :=
  aggregateLoop initSummary dateMap

/-! ## Notions used to state the properties -/

/-- Records of a date map in the order in which the aggregation visits them. -/
def allRecords (dateMap : GoMap (List BillRecord)) : List BillRecord :=
  (dateMap.map Prod.snd).flatten

/-- Amount of a record as the aggregation reads it. -/
def amountOf (r : BillRecord) : Option F64 := ParseFloat (TrimSpace r.Number)

/-- Amounts, in visiting order, of the records of primary category `label`. -/
def amountsOfLabel (label : Str) (rs : List BillRecord) : List F64 :=
  (rs.filter (fun r => TrimSpace r.Category1 = label)).filterMap amountOf

/-- Amounts, in visiting order, of the records of primary category `label` and
secondary category `key`. -/
def amountsOfBucket (label key : Str) (rs : List BillRecord) : List F64 :=
  (rs.filter (fun r => TrimSpace r.Category1 = label ∧ TrimSpace r.Category2 = key)).filterMap
    amountOf

/-- Float64 sum of a list from left to right, starting from `init`. -/
def sumFrom (init : F64) (vs : List F64) : F64 := vs.foldl F64.add init

/-- Float64 sum of a non-empty list from left to right; no value for the empty list. -/
def bucketSum : List F64 → Option F64
  | [] => none
  | v :: vs => some (sumFrom v vs)

/-- Whether `readDateData` passes over the row: it holds the header label or
the separator token. -/
def skipRow (lineStr : Str) : Bool :=
  decide (Index lineStr headerLabel ≠ -1 ∨ Index lineStr separatorToken ≠ -1)

/-- The record that `readDateData` builds from segments 1 to 5 of a row with
at least six segments. -/
def rowRecord (lineStr : Str) : BillRecord :=
  { Category1 := (Split lineStr fieldSep).getD 1 [],
    Category2 := (Split lineStr fieldSep).getD 2 [],
    Tags := Split ((Split lineStr fieldSep).getD 3 []) tagSep,
    Number := (Split lineStr fieldSep).getD 4 [],
    Description := (Split lineStr fieldSep).getD 5 [] }

/-- One amount entering a bucket that holds `o`. -/
def bucketStep (o : Option F64) (v : F64) : Option F64 :=
  match o with
  | none => some v
  | some prev => some (F64.add prev v)

/-- What the inner loop has computed from the accumulator `acc` and the records `rs`. -/
structure Accumulated (acc res : Summary) (rs : List BillRecord) : Prop where
  totalOut : res.totalOut = sumFrom acc.totalOut (amountsOfLabel expenseLabel rs)
  totalIn : res.totalIn = sumFrom acc.totalIn (amountsOfLabel incomeLabel rs)
  outMap : ∀ k, mapGet res.outMap k =
    (amountsOfBucket expenseLabel k rs).foldl bucketStep (mapGet acc.outMap k)
  inMap : ∀ k, mapGet res.inMap k =
    (amountsOfBucket incomeLabel k rs).foldl bucketStep (mapGet acc.inMap k)
  outKeys : (acc.outMap.map Prod.fst).Nodup → (res.outMap.map Prod.fst).Nodup
  inKeys : (acc.inMap.map Prod.fst).Nodup → (res.inMap.map Prod.fst).Nodup

/-- No addition of the left-to-right float64 sum of `vs` from `init` rounds. -/
def ExactSum : F64 → List F64 → Prop
  | _, [] => True
  | acc, v :: vs => F64.ExactAdd acc v ∧ ExactSum (F64.add acc v) vs

instance decidableExactSum : (init : F64) → (vs : List F64) → Decidable (ExactSum init vs)
  | _, [] => isTrue trivial
  | acc, v :: vs => @instDecidableAnd _ _ _ (decidableExactSum (F64.add acc v) vs)

/-- No addition rounds when the bucket of the amounts `vs` is built: the first
amount is stored and each later one is added to the stored sum. -/
def ExactBucket : List F64 → Prop
  | [] => True
  | v :: vs => ExactSum v vs

instance decidableExactBucket : (vs : List F64) → Decidable (ExactBucket vs)
  | [] => isTrue trivial
  | v :: vs => decidableExactSum v vs

/-- No addition that the aggregation of the records `rs` performs for the
primary category `label` rounds: none of the additions to the total, which is
`sumFrom F64.zero (amountsOfLabel label rs)`, and none of the additions to the
bucket of a record of `rs`. -/
def NoRounding (label : Str) (rs : List BillRecord) : Prop :=
  ExactSum F64.zero (amountsOfLabel label rs) ∧
  ∀ r ∈ rs, ExactBucket (amountsOfBucket label (TrimSpace r.Category2) rs)

instance decidableNoRounding (label : Str) (rs : List BillRecord) :
    Decidable (NoRounding label rs) :=
  @instDecidableAnd _ _ _ (List.decidableBAll _ rs)

/-- The number that the amount of a record stands for; `0` when the amount does
not parse. -/
def amountRat (r : BillRecord) : ℚ :=
  match amountOf r with
  | some v => v.toRat
  | none => 0

/-! ## Sample ledgers -/

def sampleLabel : Str := "2023-03-01".toList
def sampleHeader : Str := "### 2023-03-01".toList
def sampleExpenseRow : Str := "| 支出 | food | snack | 15.50 | lunch |".toList
def sampleIncomeRow : Str := "| 收入 | salary |  | 3000 | pay |".toList
def tableHeaderRow : Str := "| 分类 1 | 分类 2 | 标签 | 金额 | 说明 |".toList
def tableSeparatorRow : Str := "| :----: | :----: | :----: | :----: | :----: |".toList
def shortRow : Str := "| 支出 | 餐饮 | 零食 |".toList
def fourFieldRow : Str := "| 支出 | 餐饮 | 零食 | 12 |".toList

/-- The ledger of the end-to-end scenario. -/
def sampleDoc : List Str :=
  [startMarker, sampleHeader, sampleExpenseRow, sampleIncomeRow, endMarker]

def sampleExpense : BillRecord :=
  { Category1 := " 支出 ".toList, Category2 := " food ".toList, Tags := [" snack ".toList],
    Number := " 15.50 ".toList, Description := " lunch ".toList }

def sampleIncome : BillRecord :=
  { Category1 := " 收入 ".toList, Category2 := " salary ".toList, Tags := ["  ".toList],
    Number := " 3000 ".toList, Description := " pay ".toList }

/-- The date map of `sampleDoc`. -/
def sampleMap : GoMap (List BillRecord) := [(sampleLabel, [sampleExpense, sampleIncome])]

/-- State of the scan loop after the start marker and the header of `sampleDoc`. -/
def sampleState : ParseState :=
  { readDataStatus := 1, dateMap := [(sampleLabel, [])], dateStr := sampleLabel }

/-- Three expenses whose float64 sums depend on the order of addition. -/
def roundingMap : GoMap (List BillRecord) :=
  [(sampleLabel,
    [{ Category1 := "支出".toList, Category2 := "food".toList, Tags := [], Number := "0.1".toList,
       Description := [] },
     { Category1 := "支出".toList, Category2 := "bus".toList, Tags := [], Number := "0.2".toList,
       Description := [] },
     { Category1 := "支出".toList, Category2 := "food".toList, Tags := [], Number := "0.4".toList,
       Description := [] }])]

/-- The totals and buckets that the program computes for `roundingMap`: the
total is 0.7000000000000001, the buckets are 0.5 and 0.2. -/
def roundingSummary : Summary :=
  { totalOut := F64.fin false 6305039478318695 (-53),
    totalIn := F64.zero,
    outMap := [("food".toList, F64.fin false 4503599627370496 (-53)),
               ("bus".toList, F64.fin false 7205759403792794 (-55))],
    inMap := [] }

/-- Label of a date header line: its trimmed text without the mark. -/
def dateLabelOf (l : Str) : Str := (TrimSpace l).drop dateSectionTag.length

/-- The lines `pre` leave the scan inside the active region: one of them is a
start-marker line and none is an end-marker line. -/
def InActiveRegion (pre : List Str) : Prop :=
  (∃ l ∈ pre, startMarker <+: TrimSpace l) ∧ ∀ l ∈ pre, ¬ endMarker <+: TrimSpace l

/-- The text `k` is the label of a date header line of the active region of `lines`. -/
def IsRegionLabel (lines : List Str) (k : Str) : Prop :=
  ∃ pre l post, lines = pre ++ l :: post ∧ InActiveRegion pre ∧
    dateSectionTag <+: TrimSpace l ∧ k = dateLabelOf l

/-- A ledger with a data row before the first date header. -/
def headlessDoc : List Str :=
  [startMarker, sampleExpenseRow, sampleHeader, sampleIncomeRow, endMarker]

/-- The date map of `headlessDoc`. -/
def headlessMap : GoMap (List BillRecord) :=
  [([], [sampleExpense]), (sampleLabel, [sampleIncome])]

/-- The trimmed rows of the section that a date header opens, given the lines
after the header: the lines up to the next date header or end marker, without
the blank lines and the start-marker lines. -/
def sectionRows (post : List Str) : List Str :=
  ((post.takeWhile
      (fun l => decide (¬ dateSectionTag <+: TrimSpace l ∧ ¬ endMarker <+: TrimSpace l))).map
    TrimSpace).filter (fun t => decide (t ≠ [] ∧ ¬ startMarker <+: t))

/-- The records of the section that a date header opens: those of its rows
without skip token. -/
def sectionRecords (post : List Str) : List BillRecord :=
  ((sectionRows post).filter (fun t => !skipRow t)).map rowRecord

/-- State of the scan loop after the start marker and one data row. -/
def headlessState : ParseState :=
  { readDataStatus := 1, dateMap := [([], [sampleExpense])], dateStr := [] }

/-- State of the scan loop after the start marker, the header and one data row of `sampleDoc`. -/
def filledState : ParseState :=
  { readDataStatus := 1, dateMap := [(sampleLabel, [sampleExpense])], dateStr := sampleLabel }

/-- A date header line with blanks around it and a second mark in its label. -/
def nestedHeader : Str := "  ### 周一 ### 2023-03-01  ".toList

/-- A record of a primary category that is neither expense nor income. -/
def transferRecord : BillRecord :=
  { Category1 := " transfer ".toList, Category2 := "bank".toList, Tags := [],
    Number := "200".toList, Description := [] }

/-- A date with the expenses 0.1 (food) and 0.2 (bus). -/
def firstDate : Str × List BillRecord :=
  ("2023-03-01".toList,
    [{ Category1 := "支出".toList, Category2 := "food".toList, Tags := [], Number := "0.1".toList,
       Description := [] },
     { Category1 := "支出".toList, Category2 := "bus".toList, Tags := [], Number := "0.2".toList,
       Description := [] }])

/-- A date with the expense 0.4 (food). -/
def secondDate : Str × List BillRecord :=
  ("2023-03-02".toList,
    [{ Category1 := "支出".toList, Category2 := "food".toList, Tags := [], Number := "0.4".toList,
       Description := [] }])

/-- A Go map with two dates, the first date visited first. -/
def twoDatesMap : GoMap (List BillRecord) := [firstDate, secondDate]

/-- The Go map of `twoDatesMap`, the second date visited first. -/
def twoDatesMapSwapped : GoMap (List BillRecord) := [secondDate, firstDate]

/-- The totals and buckets that the program computes for `twoDatesMapSwapped`:
the total is 0.7, the buckets are 0.5 and 0.2. -/
def swappedSummary : Summary :=
  { totalOut := F64.fin false 6305039478318694 (-53),
    totalIn := F64.zero,
    outMap := [("food".toList, F64.fin false 4503599627370496 (-53)),
               ("bus".toList, F64.fin false 7205759403792794 (-55))],
    inMap := [] }

/-- Whether a line is empty or holds white space only. -/
def isBlankLine (l : Str) : Bool := l.all isSpace

/-- The sample ledger with blank lines before, inside and after the active region. -/
def paddedDoc : List Str :=
  ["".toList, startMarker, " \t".toList, sampleHeader, "　 ".toList, "".toList,
   sampleExpenseRow, "  ".toList, sampleIncomeRow, "\t".toList, endMarker, " ".toList]

/-- The totals and buckets of the end-to-end scenario: the expense total and
the bucket "food" are 15.5, which is `8725724278030336 * 2^(-49)`, the income
total and the bucket "salary" are 3000, which is `6597069766656000 * 2^(-41)`. -/
def sampleSummary : Summary :=
  { totalOut := F64.fin false 8725724278030336 (-49),
    totalIn := F64.fin false 6597069766656000 (-41),
    outMap := [("food".toList, F64.fin false 8725724278030336 (-49))],
    inMap := [("salary".toList, F64.fin false 6597069766656000 (-41))] }

/-- Two records whose amount, primary category and secondary category are the
same up to white space around them. -/
def SameTrimmed (r1 r2 : BillRecord) : Prop :=
  TrimSpace r1.Number = TrimSpace r2.Number ∧
  TrimSpace r1.Category1 = TrimSpace r2.Category1 ∧
  TrimSpace r1.Category2 = TrimSpace r2.Category2

/-- The records of `sampleMap` with the white space around their fields removed
or changed. -/
def trimmedSampleMap : GoMap (List BillRecord) :=
  [(sampleLabel,
    [{ Category1 := "支出".toList, Category2 := "\tfood".toList, Tags := [],
       Number := "15.50".toList, Description := [] },
     { Category1 := "　收入".toList, Category2 := "salary  ".toList, Tags := [],
       Number := "3000\t".toList, Description := [] }])]

/-- A row with eight segments: text before the first bar and two cells after
the description. -/
def longRow : Str := "x| 支出 | food | a、b | 15.50 | lunch | more | rest".toList

/-- Function `strings.Join` of the Go library: the elements with `sep` between
neighbours. -/
def Join (elems : List Str) (sep : Str) : Str := List.intercalate sep elems

/-- Expenses and an income with a fraction and a negative amount, under two dates. -/
def exactMap : GoMap (List BillRecord) :=
  [("2023-03-01".toList,
    [{ Category1 := "支出".toList, Category2 := "food".toList, Tags := [], Number := "15.50".toList,
       Description := [] },
     { Category1 := "支出".toList, Category2 := "bus".toList, Tags := [], Number := "-5".toList,
       Description := [] },
     { Category1 := "收入".toList, Category2 := "salary".toList, Tags := [],
       Number := "3000.00".toList, Description := [] }]),
   ("2023-03-02".toList,
    [{ Category1 := "支出".toList, Category2 := "food".toList, Tags := [], Number := "3".toList,
       Description := [] },
     { Category1 := "支出".toList, Category2 := "bus".toList, Tags := [], Number := "0.25".toList,
       Description := [] }])]

/-- The records of `exactMap` under one date and in another order. -/
def exactMapRegrouped : GoMap (List BillRecord) :=
  [("2023-03-05".toList,
    [{ Category1 := "支出".toList, Category2 := "bus".toList, Tags := [], Number := "0.25".toList,
       Description := [] },
     { Category1 := "支出".toList, Category2 := "food".toList, Tags := [], Number := "3".toList,
       Description := [] },
     { Category1 := "收入".toList, Category2 := "salary".toList, Tags := [],
       Number := "3000.00".toList, Description := [] },
     { Category1 := "支出".toList, Category2 := "bus".toList, Tags := [], Number := "-5".toList,
       Description := [] },
     { Category1 := "支出".toList, Category2 := "food".toList, Tags := [], Number := "15.50".toList,
       Description := [] }])]

/-- The totals and buckets that the program computes for `exactMap`: the
expense total is 13.75, the buckets are 18.5 (food) and -4.75 (bus), the income
total and the bucket "salary" are 3000. -/
def exactSummary : Summary :=
  { totalOut := F64.fin false 7740561859543040 (-49),
    totalIn := F64.fin false 6597069766656000 (-41),
    outMap := [("food".toList, F64.fin false 5207287069147136 (-48)),
               ("bus".toList, F64.fin true 5348024557502464 (-50))],
    inMap := [("salary".toList, F64.fin false 6597069766656000 (-41))] }

/-- The totals and buckets that the program computes for `exactMapRegrouped`. -/
def exactSummaryRegrouped : Summary :=
  { totalOut := F64.fin false 7740561859543040 (-49),
    totalIn := F64.fin false 6597069766656000 (-41),
    outMap := [("bus".toList, F64.fin true 5348024557502464 (-50)),
               ("food".toList, F64.fin false 5207287069147136 (-48))],
    inMap := [("salary".toList, F64.fin false 6597069766656000 (-41))] }

/-! ## Float64 arithmetic on whole numbers -/

namespace F64

theorem bitLenAux_zero (fuel : Nat) : bitLenAux fuel 0 = 0 := by
  cases fuel <;> simp [bitLenAux]

theorem bitLenAux_spec (fuel n : Nat) (h : n ≤ fuel) :
    n < 2 ^ bitLenAux fuel n ∧ (0 < n → 2 ^ (bitLenAux fuel n - 1) ≤ n) := by
  induction fuel generalizing n with
  | zero =>
    have : n = 0 := by omega
    subst this
    simp [bitLenAux]
  | succ fuel ih =>
    by_cases hn : n = 0
    · subst hn; simp [bitLenAux]
    · have h2 : n / 2 ≤ fuel := by omega
      obtain ⟨ih1, ih2⟩ := ih (n / 2) h2
      simp only [bitLenAux, hn, if_false, Nat.add_sub_cancel]
      constructor
      · rw [Nat.pow_succ]; omega
      · intro _
        by_cases hz : n / 2 = 0
        · rw [hz, bitLenAux_zero]; simp; omega
        · have hpos : 0 < n / 2 := Nat.pos_of_ne_zero hz
          have h3 := ih2 hpos
          have hk : bitLenAux fuel (n / 2) ≠ 0 := by
            intro hk0
            rw [hk0] at ih1
            simp at ih1
            omega
          have : 2 ^ bitLenAux fuel (n / 2) = 2 * 2 ^ (bitLenAux fuel (n / 2) - 1) := by
            rw [← Nat.pow_succ']
            congr 1
            omega
          omega

theorem lt_two_pow_bitLen (n : Nat) : n < 2 ^ bitLen n := (bitLenAux_spec n n le_rfl).1

theorem two_pow_bitLen_le (n : Nat) (h : 0 < n) : 2 ^ (bitLen n - 1) ≤ n :=
  (bitLenAux_spec n n le_rfl).2 h

theorem bitLen_pos (n : Nat) (h : 0 < n) : 0 < bitLen n := by
  by_contra h0
  have h1 : bitLen n = 0 := by omega
  have := lt_two_pow_bitLen n
  rw [h1] at this
  simp at this
  omega

theorem bitLen_le_iff (n k : Nat) : bitLen n ≤ k ↔ n < 2 ^ k := by
  constructor
  · intro h
    exact lt_of_lt_of_le (lt_two_pow_bitLen n) (Nat.pow_le_pow_right (by decide) h)
  · intro h
    by_contra hk
    have hn : 0 < n := by
      by_contra h0
      have : n = 0 := by omega
      subst this
      have : bitLen 0 = 0 := bitLenAux_zero 0
      omega
    have h1 := two_pow_bitLen_le n hn
    have h2 : 2 ^ k ≤ 2 ^ (bitLen n - 1) := Nat.pow_le_pow_right (by decide) (by omega)
    omega

theorem floorLog2_scaled (n k : Nat) (h0 : 0 < n) :
    floorLog2 (n * 2 ^ k) (2 ^ k) = (bitLen n : Int) - 1 := by
  have hpos : 0 < 2 ^ k := Nat.pow_pos (by decide)
  have hle : 2 ^ k ≤ n * 2 ^ k := Nat.le_mul_of_pos_left _ h0
  unfold floorLog2
  rw [if_pos hle, Nat.mul_div_cancel _ hpos]

theorem roundRatio_nat_scaled (n k : Nat) (h0 : 0 < n) (h : n ≤ 2 ^ 53) :
    roundRatio false (n * 2 ^ k) (2 ^ k) = natFloat n := by
  have hpos : 0 < 2 ^ k := Nat.pow_pos (by decide)
  have hne : ¬ n * 2 ^ k = 0 := Nat.ne_of_gt (Nat.mul_pos h0 hpos)
  have hL1 := bitLen_pos n h0
  have hL2 : bitLen n ≤ 54 := (bitLen_le_iff n 54).mpr (lt_of_le_of_lt h (by decide))
  have he : max ((bitLen n : Int) - 1 - 52) (-1074) = (bitLen n : Int) - 53 := by omega
  unfold roundRatio natFloat
  rw [if_neg hne]
  simp only [floorLog2_scaled n k h0, he]
  by_cases hL : bitLen n ≤ 53
  · rw [if_pos hL]
    have hlt : n < 2 ^ bitLen n := lt_two_pow_bitLen n
    have hm : n * 2 ^ (53 - bitLen n) < 2 ^ 53 := by
      have : 2 ^ bitLen n * 2 ^ (53 - bitLen n) = 2 ^ 53 := by
        rw [← Nat.pow_add]; congr 1; omega
      calc n * 2 ^ (53 - bitLen n) < 2 ^ bitLen n * 2 ^ (53 - bitLen n) :=
            Nat.mul_lt_mul_of_pos_right hlt (Nat.pow_pos (by decide))
        _ = 2 ^ 53 := this
    by_cases h53 : bitLen n = 53
    · have h1 : (0 : Int) ≤ (bitLen n : Int) - 53 := by omega
      have h2 : ((bitLen n : Int) - 53).toNat = 0 := by omega
      have h3 : 53 - bitLen n = 0 := by omega
      rw [h3] at hm
      simp only [h1, if_true, h2, h3, pow_zero, mul_one, Nat.mul_div_cancel _ hpos,
        Nat.mul_mod_left, Nat.mul_zero] at hm ⊢
      have hq : ¬ (2 ^ k < 0 ∨ 0 = 2 ^ k ∧ n % 2 = 1) := by omega
      have hn53 : ¬ n = 2 ^ 53 := by omega
      simp only [hq, if_false, hn53]
      rw [if_neg (by omega)]
    · have h1 : ¬ (0 : Int) ≤ (bitLen n : Int) - 53 := by omega
      have h2 : (-((bitLen n : Int) - 53)).toNat = 53 - bitLen n := by omega
      have hmul : n * 2 ^ k * 2 ^ (53 - bitLen n) = n * 2 ^ (53 - bitLen n) * 2 ^ k := by ring
      simp only [h1, if_false, h2, hmul, Nat.mul_div_cancel _ hpos, Nat.mul_mod_left, Nat.mul_zero]
      have hq : ¬ (2 ^ k < 0 ∨ 0 = 2 ^ k ∧ n * 2 ^ (53 - bitLen n) % 2 = 1) := by omega
      have hn53 : ¬ n * 2 ^ (53 - bitLen n) = 2 ^ 53 := by omega
      simp only [hq, if_false, hn53]
      rw [if_neg (by omega)]
  · rw [if_neg hL]
    have hL54 : bitLen n = 54 := by omega
    have hn : n = 2 ^ 53 := by
      have : ¬ n < 2 ^ 53 := fun hlt => hL ((bitLen_le_iff n 53).mpr hlt)
      omega
    have h1 : (0 : Int) ≤ (bitLen n : Int) - 53 := by omega
    have h2 : ((bitLen n : Int) - 53).toNat = 1 := by omega
    have hdiv : 2 ^ 53 * 2 ^ k / (2 ^ k * 2 ^ 1) = 2 ^ 52 := by
      have : 2 ^ 53 * 2 ^ k = 2 ^ 52 * (2 ^ k * 2 ^ 1) := by ring
      rw [this, Nat.mul_div_cancel _ (Nat.mul_pos hpos (by decide))]
    have hmod : 2 ^ 53 * 2 ^ k % (2 ^ k * 2 ^ 1) = 0 := by
      have : 2 ^ 53 * 2 ^ k = 2 ^ 52 * (2 ^ k * 2 ^ 1) := by ring
      rw [this, Nat.mul_mod_left]
    simp only [h1, if_true, h2]
    subst hn
    simp only [hdiv, hmod, Nat.mul_zero]
    have hq : ¬ (2 ^ k * 2 ^ 1 < 0 ∨ 0 = 2 ^ k * 2 ^ 1 ∧ 2 ^ 52 % 2 = 1) := by omega
    simp only [hq, if_false]
    rw [hL54]
    norm_num


theorem ofNat_zero : ofNat 0 = fin false 0 (-1074) := rfl

theorem ofNat_eq_natFloat (n : Nat) (h0 : 0 < n) (h : n ≤ 2 ^ 53) : ofNat n = natFloat n := by
  have := roundRatio_nat_scaled n 0 h0 h
  simpa [ofNat] using this

/-- Mantissa and exponent of the float64 of a natural number up to `2^53`. -/
theorem ofNat_canonical (n : Nat) (h : n ≤ 2 ^ 53) :
    ∃ (m : Nat) (e : Int), ofNat n = fin false m e ∧ (e ≤ 0 ∨ n = 2 ^ 53) ∧
      ∀ f : Int, f ≤ e → f ≤ 0 → m * 2 ^ (e - f).toNat = n * 2 ^ (-f).toNat := by
  by_cases h0 : n = 0
  · subst h0
    exact ⟨0, -1074, rfl, Or.inl (by decide), fun f _ _ => by simp⟩
  · have hpos : 0 < n := Nat.pos_of_ne_zero h0
    rw [ofNat_eq_natFloat n hpos h]
    unfold natFloat
    by_cases hL : bitLen n ≤ 53
    · rw [if_pos hL]
      refine ⟨_, _, rfl, Or.inl (by omega), ?_⟩
      intro f hf1 hf2
      have : (-f).toNat = (53 - bitLen n) + ((bitLen n : Int) - 53 - f).toNat := by omega
      rw [this, Nat.pow_add, Nat.mul_assoc]
    · rw [if_neg hL]
      have hn : n = 2 ^ 53 := by
        have : ¬ n < 2 ^ 53 := fun hlt => hL ((bitLen_le_iff n 53).mpr hlt)
        omega
      refine ⟨_, _, rfl, Or.inr hn, ?_⟩
      intro f hf1 hf2
      have : (1 - f).toNat = (-f).toNat + 1 := by omega
      rw [this, hn, Nat.pow_succ]
      ring

theorem add_fin_pos (m1 m2 : Nat) (e1 e2 : Int) :
    add (fin false m1 e1) (fin false m2 e2) =
      if m1 * 2 ^ (e1 - min e1 e2).toNat + m2 * 2 ^ (e2 - min e1 e2).toNat = 0 then
        fin false 0 (-1074)
      else roundScaled false
        (m1 * 2 ^ (e1 - min e1 e2).toNat + m2 * 2 ^ (e2 - min e1 e2).toNat) 2 (min e1 e2) := by
  unfold add
  simp only [Bool.false_eq_true, if_false, one_mul, Bool.and_self]
  have hcast : ((m1 * 2 ^ (e1 - min e1 e2).toNat : Nat) : Int) +
      ((m2 * 2 ^ (e2 - min e1 e2).toNat : Nat) : Int) =
      ((m1 * 2 ^ (e1 - min e1 e2).toNat + m2 * 2 ^ (e2 - min e1 e2).toNat : Nat) : Int) := by
    push_cast; ring
  rw [hcast]
  by_cases hx : m1 * 2 ^ (e1 - min e1 e2).toNat + m2 * 2 ^ (e2 - min e1 e2).toNat = 0
  · rw [if_pos hx, if_pos (by exact_mod_cast hx)]
  · rw [if_neg hx, if_neg (by exact_mod_cast hx)]
    have hneg : decide (((m1 * 2 ^ (e1 - min e1 e2).toNat +
        m2 * 2 ^ (e2 - min e1 e2).toNat : Nat) : Int) < 0) = false := by
      simp only [decide_eq_false_iff_not, not_lt]
      exact Int.ofNat_nonneg _
    rw [hneg, Int.natAbs_ofNat]

theorem ofNat_add (a b : Nat) (h : a + b ≤ 2 ^ 53) :
    add (ofNat a) (ofNat b) = ofNat (a + b) := by
  obtain ⟨m1, e1, h1, hz1, hv1⟩ := ofNat_canonical a (by omega)
  obtain ⟨m2, e2, h2, hz2, hv2⟩ := ofNat_canonical b (by omega)
  have he : min e1 e2 ≤ 0 := by
    rcases hz1 with h | h
    · omega
    · rcases hz2 with h' | h'
      · omega
      · omega
  rw [h1, h2, add_fin_pos, hv1 _ (min_le_left _ _) he, hv2 _ (min_le_right _ _) he, ← Nat.add_mul]
  by_cases hab : a + b = 0
  · rw [hab]; simp [ofNat_zero]
  · have hpos : 0 < a + b := Nat.pos_of_ne_zero hab
    have hx : ¬ (a + b) * 2 ^ (-min e1 e2).toNat = 0 :=
      Nat.ne_of_gt (Nat.mul_pos hpos (Nat.pow_pos (by decide)))
    rw [if_neg hx, ofNat_eq_natFloat _ hpos h]
    unfold roundScaled
    by_cases h0 : 0 ≤ min e1 e2
    · have hmin : min e1 e2 = 0 := le_antisymm he h0
      rw [if_pos h0, hmin]
      have := roundRatio_nat_scaled (a + b) 0 hpos h
      simpa using this
    · rw [if_neg h0]
      exact roundRatio_nat_scaled (a + b) _ hpos h

end F64

theorem sumFrom_ofNat (ns : List Nat) (a : Nat) (h : a + ns.sum ≤ 2 ^ 53) :
    sumFrom (F64.ofNat a) (ns.map F64.ofNat) = F64.ofNat (a + ns.sum) := by
  induction ns generalizing a with
  | nil => simp [sumFrom]
  | cons n ns ih =>
    simp only [List.sum_cons] at h
    simp only [sumFrom, List.map_cons, List.foldl_cons, List.sum_cons]
    rw [F64.ofNat_add a n (by omega)]
    have := ih (a + n) (by omega)
    simp only [sumFrom] at this
    rw [this, Nat.add_assoc]


/-! ## The aggregation loops -/

theorem mapGet_mapSet {V : Type} (m : GoMap V) (k k' : Str) (v : V) :
    mapGet (mapSet m k v) k' = if k = k' then some v else mapGet m k' := by
  induction m with
  | nil => simp [mapSet, mapGet]
  | cons p t ih =>
    obtain ⟨a, b⟩ := p
    by_cases h : a = k
    · subst h; by_cases h2 : a = k' <;> simp [mapSet, mapGet, h2]
    · by_cases h2 : a = k'
      · subst h2
        have h3 : ¬ k = a := fun e => h e.symm
        simp [mapSet, mapGet, h, h3]
      · simp [mapSet, mapGet, h, h2, ih]

theorem mapGet_eq_none_iff {V : Type} (m : GoMap V) (k : Str) :
    mapGet m k = none ↔ k ∉ m.map Prod.fst := by
  induction m with
  | nil => simp [mapGet]
  | cons p t ih =>
    obtain ⟨a, b⟩ := p
    simp only [mapGet, List.map_cons, List.mem_cons]
    by_cases h : a = k
    · simp only [h, if_true, true_or, not_true_eq_false, iff_false]
      exact fun e => by cases e
    · have h3 : ¬ k = a := fun e => h e.symm
      simp only [h, if_false, h3, false_or, ih]

theorem mapSet_keys_nodup {V : Type} (m : GoMap V) (k : Str) (v : V)
    (h : (m.map Prod.fst).Nodup) : ((mapSet m k v).map Prod.fst).Nodup := by
  induction m with
  | nil => simp [mapSet]
  | cons p t ih =>
    obtain ⟨a, b⟩ := p
    simp only [List.map_cons, List.nodup_cons] at h
    by_cases hk : a = k
    · subst hk
      simp only [mapSet, if_true, List.map_cons, List.nodup_cons]
      exact h
    · simp only [mapSet, hk, if_false, List.map_cons, List.nodup_cons]
      refine ⟨?_, ih h.2⟩
      rw [← mapGet_eq_none_iff, mapGet_mapSet]
      have h3 : ¬ k = a := fun e => hk e.symm
      simp only [h3, if_false, mapGet_eq_none_iff]
      exact h.1


theorem mapGet_addToBucket (m : GoMap F64) (k k' : Str) (v : F64) :
    mapGet (addToBucket m k v) k' = if k = k' then bucketStep (mapGet m k) v else mapGet m k' := by
  unfold addToBucket
  cases h : mapGet m k <;> simp [mapGet_mapSet, bucketStep]

theorem addToBucket_keys_nodup (m : GoMap F64) (k : Str) (v : F64)
    (h : (m.map Prod.fst).Nodup) : ((addToBucket m k v).map Prod.fst).Nodup := by
  unfold addToBucket
  cases mapGet m k <;> exact mapSet_keys_nodup _ _ _ h

theorem foldl_bucketStep_none (vs : List F64) : vs.foldl bucketStep none = bucketSum vs := by
  cases vs with
  | nil => rfl
  | cons v vs =>
    simp only [List.foldl_cons, bucketStep, bucketSum, sumFrom]
    generalize v = a
    induction vs generalizing a with
    | nil => rfl
    | cons w ws ih => simp only [List.foldl_cons, bucketStep]; exact ih _


theorem expenseLabel_ne_incomeLabel : expenseLabel ≠ incomeLabel := by decide

theorem amountsOfLabel_cons (label : Str) (r : BillRecord) (rs : List BillRecord) (v : F64)
    (hv : amountOf r = some v) :
    amountsOfLabel label (r :: rs) =
      if TrimSpace r.Category1 = label then v :: amountsOfLabel label rs
      else amountsOfLabel label rs := by
  unfold amountsOfLabel
  by_cases h : TrimSpace r.Category1 = label <;> simp [List.filter_cons, h, hv]

theorem amountsOfBucket_cons (label key : Str) (r : BillRecord) (rs : List BillRecord) (v : F64)
    (hv : amountOf r = some v) :
    amountsOfBucket label key (r :: rs) =
      if TrimSpace r.Category1 = label ∧ TrimSpace r.Category2 = key then
        v :: amountsOfBucket label key rs
      else amountsOfBucket label key rs := by
  unfold amountsOfBucket
  by_cases h : TrimSpace r.Category1 = label ∧ TrimSpace r.Category2 = key
  · simp [List.filter_cons, h, hv]
  · simp only [List.filter_cons, h, decide_False, if_false]
    simp

theorem addRecords_ok (rs : List BillRecord) (acc : Summary)
    (h : ∀ r ∈ rs, (amountOf r).isSome) :
    ∃ res, addRecords acc rs = .ok res ∧ Accumulated acc res rs := by
  induction rs generalizing acc with
  | nil =>
    exact ⟨acc, rfl, ⟨rfl, rfl, fun _ => rfl, fun _ => rfl, id, id⟩⟩
  | cons r rs ih =>
    have hr := h r (List.mem_cons_self _ _)
    obtain ⟨v, hv⟩ := Option.isSome_iff_exists.mp hr
    have hv' : ParseFloat (TrimSpace r.Number) = some v := hv
    have hrs : ∀ r' ∈ rs, (amountOf r').isSome := fun r' hr' => h r' (List.mem_cons_of_mem _ hr')
    by_cases h1 : TrimSpace r.Category1 = expenseLabel
    · have h2 : ¬ TrimSpace r.Category1 = incomeLabel := fun e =>
        expenseLabel_ne_incomeLabel (h1.symm.trans e)
      obtain ⟨res, hres, hacc⟩ := ih
        { acc with totalOut := F64.add acc.totalOut v,
                   outMap := addToBucket acc.outMap (TrimSpace r.Category2) v } hrs
      refine ⟨res, ?_, ?_⟩
      · simp only [addRecords, addRecord, hv', h1, if_true]
        exact hres
      · refine ⟨?_, ?_, ?_, ?_, ?_, ?_⟩
        · rw [hacc.totalOut, amountsOfLabel_cons _ _ _ v hv]; simp [h1, sumFrom]
        · rw [hacc.totalIn, amountsOfLabel_cons _ _ _ v hv]; simp [h2]
        · intro k
          rw [hacc.outMap, amountsOfBucket_cons _ _ _ _ v hv]
          simp only [mapGet_addToBucket, h1, true_and]
          by_cases hk : TrimSpace r.Category2 = k <;> simp [hk]
        · intro k
          rw [hacc.inMap, amountsOfBucket_cons _ _ _ _ v hv]
          simp [h2]
        · intro hn
          exact hacc.outKeys (addToBucket_keys_nodup _ _ _ hn)
        · exact hacc.inKeys
    · by_cases h2 : TrimSpace r.Category1 = incomeLabel
      · obtain ⟨res, hres, hacc⟩ := ih
          { acc with totalIn := F64.add acc.totalIn v,
                     inMap := addToBucket acc.inMap (TrimSpace r.Category2) v } hrs
        refine ⟨res, ?_, ?_⟩
        · simp only [addRecords, addRecord, hv', h1, h2, if_true, if_false]
          exact hres
        · refine ⟨?_, ?_, ?_, ?_, ?_, ?_⟩
          · rw [hacc.totalOut, amountsOfLabel_cons _ _ _ v hv]; simp [h1]
          · rw [hacc.totalIn, amountsOfLabel_cons _ _ _ v hv]; simp [h2, sumFrom]
          · intro k
            rw [hacc.outMap, amountsOfBucket_cons _ _ _ _ v hv]
            simp [h1]
          · intro k
            rw [hacc.inMap, amountsOfBucket_cons _ _ _ _ v hv]
            simp only [mapGet_addToBucket, h2, true_and]
            by_cases hk : TrimSpace r.Category2 = k <;> simp [hk]
          · exact hacc.outKeys
          · intro hn
            exact hacc.inKeys (addToBucket_keys_nodup _ _ _ hn)
      · obtain ⟨res, hres, hacc⟩ := ih acc hrs
        refine ⟨res, ?_, ?_⟩
        · simp only [addRecords, addRecord, hv', h1, h2, if_false]
          exact hres
        · refine ⟨?_, ?_, ?_, ?_, hacc.outKeys, hacc.inKeys⟩
          · rw [hacc.totalOut, amountsOfLabel_cons _ _ _ v hv]; simp [h1]
          · rw [hacc.totalIn, amountsOfLabel_cons _ _ _ v hv]; simp [h2]
          · intro k
            rw [hacc.outMap, amountsOfBucket_cons _ _ _ _ v hv]
            simp [h1]
          · intro k
            rw [hacc.inMap, amountsOfBucket_cons _ _ _ _ v hv]
            simp [h2]

theorem addRecords_append (a b : List BillRecord) (acc : Summary) :
    addRecords acc (a ++ b) =
      match addRecords acc a with
      | .error e => .error e
      | .ok acc' => addRecords acc' b := by
  induction a generalizing acc with
  | nil => rfl
  | cons r rs ih =>
    simp only [List.cons_append, addRecords]
    cases addRecord acc r with
    | error e => rfl
    | ok acc' => exact ih acc'

theorem aggregateLoop_eq (dateMap : GoMap (List BillRecord)) (acc : Summary) :
    aggregateLoop acc dateMap = addRecords acc (allRecords dateMap) := by
  induction dateMap generalizing acc with
  | nil => rfl
  | cons p rest ih =>
    obtain ⟨k, l⟩ := p
    simp only [aggregateLoop, allRecords, List.map_cons, List.flatten_cons, addRecords_append]
    cases addRecords acc l with
    | error e => rfl
    | ok acc' => exact ih acc'

theorem addRecords_error (rs : List BillRecord) (acc : Summary) (e : RunError)
    (h : addRecords acc rs = .error e) :
    e = .invalidAmount ∧ ∃ r ∈ rs, amountOf r = none := by
  induction rs generalizing acc with
  | nil => simp [addRecords] at h
  | cons r rs ih =>
    cases hv : amountOf r with
    | none =>
      have hv' : ParseFloat (TrimSpace r.Number) = none := hv
      simp only [addRecords, addRecord, hv'] at h
      refine ⟨?_, r, List.mem_cons_self _ _, hv⟩
      cases h; rfl
    | some v =>
      have hv' : ParseFloat (TrimSpace r.Number) = some v := hv
      simp only [addRecords] at h
      cases hstep : addRecord acc r with
      | error e' =>
        exfalso
        simp only [addRecord, hv'] at hstep
        split_ifs at hstep
      | ok acc' =>
        rw [hstep] at h
        obtain ⟨he, r', hr', hn⟩ := ih _ h
        exact ⟨he, r', List.mem_cons_of_mem _ hr', hn⟩

theorem addRecords_of_bad (rs : List BillRecord) (acc : Summary) (r : BillRecord)
    (hr : r ∈ rs) (hn : amountOf r = none) : ∃ e, addRecords acc rs = .error e := by
  induction rs generalizing acc with
  | nil => cases hr
  | cons r' rs ih =>
    simp only [addRecords]
    cases hstep : addRecord acc r' with
    | error e => exact ⟨e, rfl⟩
    | ok acc' =>
      rcases List.mem_cons.mp hr with h | h
      · subst h
        have hn' : ParseFloat (TrimSpace r.Number) = none := hn
        simp [addRecord, hn'] at hstep
      · exact ih acc' h

/-! ## The row parser and the scan loop -/

theorem Index_ge (s sub : Str) : -1 ≤ Index s sub := by
  induction s with
  | nil => unfold Index; split_ifs <;> omega
  | cons c t ih => unfold Index; split_ifs <;> omega

theorem Index_eq_zero_iff (s sub : Str) : Index s sub = 0 ↔ sub <+: s := by
  cases s with
  | nil => unfold Index; split_ifs with h <;> simp [h]
  | cons c t =>
    have hge := Index_ge t sub
    unfold Index
    split_ifs with h1 h2
    · simpa using h1
    · simp at h1; simp [h1]
    · simp at h1; simp only [h1, iff_false]; omega

theorem Index_eq_neg_one_iff (s sub : Str) : Index s sub = -1 ↔ ¬ sub <:+: s := by
  induction s with
  | nil => unfold Index; split_ifs with h <;> simp [h]
  | cons c t ih =>
    have hge := Index_ge t sub
    unfold Index
    rw [List.infix_cons_iff]
    split_ifs with h1 h2
    · simp at h1; simp [h1]
    · simp at h1; simp only [h1, false_or, true_iff]; exact ih.mp h2
    · simp at h1; simp only [h1, false_or]
      constructor
      · intro h; omega
      · intro h; exact absurd (ih.mpr h) h2

theorem Index_ne_neg_one_iff (s sub : Str) : Index s sub ≠ -1 ↔ sub <:+: s := by
  rw [Ne, Index_eq_neg_one_iff, not_not]

theorem splitAux_of_not_mem (c : Char) (x cur : Str) (h : c ∉ x) :
    splitAux [c] 0 cur x = [cur ++ x] := by
  induction x generalizing cur with
  | nil => simp [splitAux]
  | cons a t ih =>
    have h1 : ¬ c = a := fun e => h (by simp [e])
    have h2 : c ∉ t := fun e => h (by simp [e])
    simp [splitAux, List.isPrefixOf, h1, ih _ h2]

theorem splitAux_append_sep (c : Char) (x cur rest : Str) (h : c ∉ x) :
    splitAux [c] 0 cur (x ++ c :: rest) = (cur ++ x) :: splitAux [c] 0 [] rest := by
  induction x generalizing cur with
  | nil => simp [splitAux, List.isPrefixOf]
  | cons a t ih =>
    have h1 : ¬ c = a := fun e => h (by simp [e])
    have h2 : c ∉ t := fun e => h (by simp [e])
    simp [splitAux, List.isPrefixOf, h1, ih _ h2]

theorem Split_of_not_mem (c : Char) (x : Str) (h : c ∉ x) : Split x [c] = [x] := by
  simp [Split, splitAux_of_not_mem c x [] h]

theorem Split_append_sep (c : Char) (x rest : Str) (h : c ∉ x) :
    Split (x ++ c :: rest) [c] = x :: Split rest [c] := by
  simp [Split, splitAux_append_sep c x [] rest h]

theorem markers_disjoint (t : Str) (h1 : startMarker <+: t) (h2 : endMarker <+: t) : False := by
  have e1 := List.prefix_iff_eq_take.mp h1
  have e2 := List.prefix_iff_eq_take.mp h2
  have hlen : startMarker.length = endMarker.length := by decide
  rw [hlen, ← e2] at e1
  exact absurd e1 (by decide)

theorem processLine_blank (st : ParseState) (raw : Str) (h : TrimSpace raw = []) :
    processLine st raw = .ok (.next st) := by
  simp [processLine, h]

theorem processLine_start (st : ParseState) (raw : Str) (h : startMarker <+: TrimSpace raw) :
    processLine st raw = .ok (.next { st with readDataStatus := 1 }) := by
  have hne : (TrimSpace raw).length ≠ 0 := by
    intro h0
    rw [List.length_eq_zero] at h0
    rw [h0] at h
    exact absurd h (by decide)
  have hi := (Index_eq_zero_iff (TrimSpace raw) startMarker).mpr h
  simp only [processLine, hne, if_false, hi, if_true]

theorem processLine_end (st : ParseState) (raw : Str) (h : endMarker <+: TrimSpace raw) :
    processLine st raw = .ok (.stop { st with readDataStatus := 0 }) := by
  have hne : (TrimSpace raw).length ≠ 0 := by
    intro h0
    rw [List.length_eq_zero] at h0
    rw [h0] at h
    exact absurd h (by decide)
  have hs : ¬ Index (TrimSpace raw) startMarker = 0 := by
    rw [Index_eq_zero_iff]
    exact fun h1 => markers_disjoint _ h1 h
  have hi := (Index_eq_zero_iff (TrimSpace raw) endMarker).mpr h
  simp only [processLine, hne, if_false, hs, hi, if_true]

theorem processLine_outside (st : ParseState) (raw : Str) (h0 : st.readDataStatus = 0)
    (h1 : ¬ startMarker <+: TrimSpace raw) (h2 : ¬ endMarker <+: TrimSpace raw) :
    processLine st raw = .ok (.next st) := by
  rw [← Index_eq_zero_iff] at h1 h2
  have h3 : ¬ (0 : Nat) = 1 := by decide
  simp only [processLine, h1, h2, h0, h3, if_false]
  split_ifs <;> rfl

theorem processLine_stop_status (st st' : ParseState) (raw : Str)
    (h : processLine st raw = .ok (.stop st')) : st'.readDataStatus = 0 := by
  unfold processLine at h
  simp only at h
  split_ifs at h
  · cases h
  · cases h
  · cases h; rfl
  · cases h
  · split at h <;> cases h
  · cases h

theorem parseLoop_end_suffix (pre : List Str) (e : Str) (s1 s2 : List Str) (st : ParseState)
    (he : endMarker <+: TrimSpace e) :
    parseLoop st (pre ++ e :: s1) = parseLoop st (pre ++ e :: s2) := by
  induction pre generalizing st with
  | nil => simp only [List.nil_append, parseLoop, processLine_end st e he]
  | cons l ls ih =>
    simp only [List.cons_append, parseLoop]
    cases processLine st l with
    | error err => rfl
    | ok step =>
      cases step with
      | next st' => exact ih st'
      | stop st' => rfl

theorem parseLoop_outside (pre rest : List Str) (st : ParseState) (h0 : st.readDataStatus = 0)
    (h : ∀ l ∈ pre, ¬ startMarker <+: TrimSpace l) :
    parseLoop st (pre ++ rest) = parseLoop st rest ∨ parseLoop st (pre ++ rest) = .ok st := by
  induction pre with
  | nil => exact Or.inl rfl
  | cons l ls ih =>
    have hl := h l (List.mem_cons_self _ _)
    have hls : ∀ l' ∈ ls, ¬ startMarker <+: TrimSpace l' :=
      fun l' hl' => h l' (List.mem_cons_of_mem _ hl')
    by_cases he : endMarker <+: TrimSpace l
    · right
      simp only [List.cons_append, parseLoop, processLine_end st l he]
      cases st
      simp only at h0
      subst h0
      rfl
    · simp only [List.cons_append, parseLoop, processLine_outside st l h0 hl he]
      exact ih hls

theorem parseLoop_outside_no_end (pre rest : List Str) (st : ParseState)
    (h0 : st.readDataStatus = 0)
    (h : ∀ l ∈ pre, ¬ startMarker <+: TrimSpace l ∧ ¬ endMarker <+: TrimSpace l) :
    parseLoop st (pre ++ rest) = parseLoop st rest := by
  induction pre with
  | nil => rfl
  | cons l ls ih =>
    have hl := h l (List.mem_cons_self _ _)
    simp only [List.cons_append, parseLoop, processLine_outside st l h0 hl.1 hl.2]
    exact ih (fun l' hl' => h l' (List.mem_cons_of_mem _ hl'))

theorem parseLoop_append_running (pre rest : List Str) (st0 st : ParseState)
    (h : parseLoop st0 pre = .ok st) (h1 : st.readDataStatus = 1) :
    parseLoop st0 (pre ++ rest) = parseLoop st rest := by
  induction pre generalizing st0 with
  | nil =>
    simp only [parseLoop] at h
    cases h
    rfl
  | cons l ls ih =>
    simp only [List.cons_append, parseLoop] at h ⊢
    cases hp : processLine st0 l with
    | error err => rw [hp] at h; cases h
    | ok step =>
      rw [hp] at h
      cases step with
      | next st' => exact ih st' h
      | stop st' =>
        simp only at h
        cases h
        have := processLine_stop_status _ _ _ hp
        omega

theorem parse_no_start (lines : List Str) (h : ∀ l ∈ lines, ¬ startMarker <+: TrimSpace l) :
    parse lines = .ok [] := by
  have := parseLoop_outside lines [] initState rfl h
  rw [List.append_nil] at this
  unfold parse
  rcases this with h1 | h1 <;> rw [h1] <;> rfl


theorem readDateData_long (L : List BillRecord) (t dataStr : Str) (hskip : skipRow t = false)
    (hlen : 6 ≤ (Split t fieldSep).length) :
    readDateData L t dataStr = .ok (L ++ [rowRecord t]) := by
  have h' : ¬ (Index t headerLabel ≠ -1 ∨ Index t separatorToken ≠ -1) := by
    simpa [skipRow] using hskip
  unfold readDateData rowRecord
  rw [if_neg h']
  generalize Split t fieldSep = p at hlen
  match p, hlen with
  | x0 :: x1 :: x2 :: x3 :: x4 :: x5 :: rest, _ => rfl

theorem readDateData_short (L : List BillRecord) (t dataStr : Str) (hskip : skipRow t = false)
    (hlen : (Split t fieldSep).length < 6) :
    readDateData L t dataStr = .error .indexOutOfRange := by
  have h' : ¬ (Index t headerLabel ≠ -1 ∨ Index t separatorToken ≠ -1) := by
    simpa [skipRow] using hskip
  unfold readDateData
  rw [if_neg h']
  generalize Split t fieldSep = p at hlen
  match p, hlen with
  | [], _ => rfl
  | [_], _ => rfl
  | [_, _], _ => rfl
  | [_, _, _], _ => rfl
  | [_, _, _, _], _ => rfl
  | [_, _, _, _, _], _ => rfl
  | _ :: _ :: _ :: _ :: _ :: _ :: _, h => simp only [List.length_cons] at h; omega

theorem readDateData_skipRow (L : List BillRecord) (t dataStr : Str) (hskip : skipRow t = true) :
    readDateData L t dataStr = .ok L := by
  have h' : Index t headerLabel ≠ -1 ∨ Index t separatorToken ≠ -1 := by
    simpa [skipRow] using hskip
  unfold readDateData
  rw [if_pos h']

theorem processLine_row (st : ParseState) (raw : Str) (h1 : st.readDataStatus = 1)
    (hne : TrimSpace raw ≠ []) (hs : ¬ startMarker <+: TrimSpace raw)
    (he : ¬ endMarker <+: TrimSpace raw) (hd : ¬ dateSectionTag <+: TrimSpace raw) :
    processLine st raw =
      match readDateData ((mapGet st.dateMap st.dateStr).getD []) (TrimSpace raw) st.dateStr with
      | .error e => .error e
      | .ok l => .ok (.next { st with dateMap := mapSet st.dateMap st.dateStr l }) := by
  rw [← Index_eq_zero_iff] at hs he hd
  have hlen : ¬ (TrimSpace raw).length = 0 := by
    rw [List.length_eq_zero]; exact hne
  simp only [processLine, hlen, hs, he, hd, h1, if_false, if_true]

theorem processLine_header (st : ParseState) (raw : Str) (h1 : st.readDataStatus = 1)
    (hs : ¬ startMarker <+: TrimSpace raw)
    (he : ¬ endMarker <+: TrimSpace raw) (hd : dateSectionTag <+: TrimSpace raw) :
    processLine st raw =
      .ok (.next { st with dateStr := Replace (TrimSpace raw) dateSectionTag [] 1,
                           dateMap := mapSet st.dateMap
                             (Replace (TrimSpace raw) dateSectionTag [] 1) [] }) := by
  have hlen : ¬ (TrimSpace raw).length = 0 := by
    intro h0
    rw [List.length_eq_zero] at h0
    rw [h0] at hd
    exact absurd hd (by decide)
  rw [← Index_eq_zero_iff] at hs he hd
  simp only [processLine, hlen, hs, he, hd, h1, if_false, if_true]

theorem startMarker_not_header (L : Str) : startMarker.isPrefixOf (dateSectionTag ++ L) = false := by
  rfl
theorem endMarker_not_header (L : Str) : endMarker.isPrefixOf (dateSectionTag ++ L) = false := by
  rfl
theorem cut_header (L : Str) : cut dateSectionTag (dateSectionTag ++ L) = some ([], L) := by
  have h : dateSectionTag = ['#', '#', '#', ' '] := rfl
  rw [h]
  simp [cut, List.isPrefixOf]
theorem Replace_header (L : Str) : Replace (dateSectionTag ++ L) dateSectionTag [] 1 = L := by
  simp [Replace, cut_header]

theorem TrimSpace_header (L : Str) (hL : L ≠ []) (hsp : List.rdropWhile isSpace L = L) :
    TrimSpace (dateSectionTag ++ L) = dateSectionTag ++ L := by
  have h1 : List.dropWhile isSpace (dateSectionTag ++ L) = dateSectionTag ++ L := rfl
  unfold TrimSpace
  rw [h1, List.rdropWhile_eq_self_iff]
  intro hl
  rw [List.getLast_append_right hL]
  exact (List.rdropWhile_eq_self_iff.mp hsp) hL

theorem parseLoop_rows (rows tail : List Str) (L : Str) (recs : List BillRecord)
    (hrows : ∀ r ∈ rows, TrimSpace r ≠ [] ∧ ¬ startMarker <+: TrimSpace r ∧
      ¬ endMarker <+: TrimSpace r ∧ ¬ dateSectionTag <+: TrimSpace r ∧
      (skipRow (TrimSpace r) = true ∨ 6 ≤ (Split (TrimSpace r) fieldSep).length)) :
    parseLoop { readDataStatus := 1, dateMap := [(L, recs)], dateStr := L } (rows ++ tail) =
    parseLoop { readDataStatus := 1,
                dateMap := [(L, recs ++
                  ((rows.map TrimSpace).filter (fun t => !skipRow t)).map rowRecord)],
                dateStr := L } tail := by
  induction rows generalizing recs with
  | nil => simp
  | cons r rs ih =>
    obtain ⟨hne, hs, he, hd, hrow⟩ := hrows r (List.mem_cons_self _ _)
    have hrs := fun r' hr' => hrows r' (List.mem_cons_of_mem r hr')
    simp only [List.cons_append, parseLoop]
    rw [processLine_row _ r rfl hne hs he hd]
    have hget : (mapGet [(L, recs)] L).getD [] = recs := by simp [mapGet]
    simp only [hget]
    cases hsk : skipRow (TrimSpace r) with
    | true =>
      rw [readDateData_skipRow _ _ _ hsk]
      simp only [mapSet, if_true, List.map_cons, List.filter_cons, hsk, Bool.not_true]
      exact ih recs hrs
    | false =>
      have hlen : 6 ≤ (Split (TrimSpace r) fieldSep).length := by
        rcases hrow with h | h
        · rw [hsk] at h; cases h
        · exact h
      rw [readDateData_long _ _ _ hsk hlen]
      simp only [mapSet, if_true, List.map_cons, List.filter_cons, hsk, Bool.not_false,
        List.map_cons]
      exact (ih _ hrs).trans (by simp)

theorem skipRow_eq_false_iff (t : Str) :
    skipRow t = false ↔ ¬ headerLabel <:+: t ∧ ¬ separatorToken <:+: t := by
  simp only [skipRow, decide_eq_false_iff_not, not_or, Index_ne_neg_one_iff]

theorem parse_append_running (pre rest : List Str) (st : ParseState)
    (h : parseLoop initState pre = .ok st) (h1 : st.readDataStatus = 1) :
    parse (pre ++ rest) =
      match parseLoop st rest with
      | .error e => .error e
      | .ok st' => .ok st'.dateMap := by
  unfold parse
  rw [parseLoop_append_running pre rest initState st h h1]


theorem perm_map_exists {α β : Type} (f : α → β) (vs : List β) (ns : List α)
    (h : vs.Perm (ns.map f)) : ∃ ns' : List α, ns'.Perm ns ∧ vs = ns'.map f := by
  generalize hw : ns.map f = ws at h
  induction h generalizing ns with
  | nil => exact ⟨[], by simp at hw; rw [hw], rfl⟩
  | cons x _ ih =>
    cases ns with
    | nil => simp at hw
    | cons n ns0 =>
      simp only [List.map_cons, List.cons.injEq] at hw
      obtain ⟨ns', hp, he⟩ := ih ns0 hw.2
      exact ⟨n :: ns', hp.cons n, by rw [he, ← hw.1]; rfl⟩
  | swap x y l =>
    cases ns with
    | nil => simp at hw
    | cons a ns0 =>
      cases ns0 with
      | nil => simp at hw
      | cons b ns1 =>
        simp only [List.map_cons, List.cons.injEq] at hw
        exact ⟨b :: a :: ns1, List.Perm.swap a b ns1, by
          simp only [List.map_cons]; rw [hw.1, hw.2.1, hw.2.2]⟩
  | trans _ _ ih1 ih2 =>
    obtain ⟨ns2, hp2, he2⟩ := ih2 ns hw
    obtain ⟨ns1, hp1, he1⟩ := ih1 ns2 he2.symm
    exact ⟨ns1, hp1.trans hp2, he1⟩

theorem sum_indicator (keys : List Str) (hnd : keys.Nodup) (k0 : Str) (hk : k0 ∈ keys) (a : Nat) :
    (keys.map (fun k => if k0 = k then a else 0)).sum = a := by
  induction keys with
  | nil => cases hk
  | cons k ks ih =>
    simp only [List.nodup_cons] at hnd
    simp only [List.map_cons, List.sum_cons]
    by_cases h : k0 = k
    · subst h
      have hz : (ks.map (fun k => if k0 = k then a else 0)).sum = 0 := by
        apply List.sum_eq_zero
        intro x hx
        simp only [List.mem_map] at hx
        obtain ⟨k', hk', rfl⟩ := hx
        have : ¬ k0 = k' := fun e => hnd.1 (e ▸ hk')
        simp [this]
      simp [hz]
    · have hk' : k0 ∈ ks := by
        rcases List.mem_cons.mp hk with h' | h'
        · exact absurd h' h
        · exact h'
      simp [h, ih hnd.2 hk']

theorem sum_filter_le (rs : List BillRecord) (q : BillRecord → Bool) (amt : BillRecord → Nat) :
    ((rs.filter q).map amt).sum ≤ (rs.map amt).sum := by
  induction rs with
  | nil => simp
  | cons r rs ih =>
    by_cases h : q r = true
    · simp only [List.filter_cons, h, if_true, List.map_cons, List.sum_cons]; omega
    · simp only [List.filter_cons, h, List.map_cons, List.sum_cons]
      simp only [Bool.false_eq_true, if_false] ; omega

theorem sum_buckets (keys : List Str) (hnd : keys.Nodup) (label : Str) (rs : List BillRecord)
    (amt : BillRecord → Nat)
    (hcov : ∀ r ∈ rs, TrimSpace r.Category1 = label → TrimSpace r.Category2 ∈ keys) :
    (keys.map (fun k => ((rs.filter
      (fun r => TrimSpace r.Category1 = label ∧ TrimSpace r.Category2 = k)).map amt).sum)).sum =
    ((rs.filter (fun r => TrimSpace r.Category1 = label)).map amt).sum := by
  induction rs with
  | nil => simp
  | cons r rs ih =>
    have ih' := ih (fun r' hr' => hcov r' (List.mem_cons_of_mem _ hr'))
    by_cases hp : TrimSpace r.Category1 = label
    · have hk := hcov r (List.mem_cons_self _ _) hp
      have hfun : (fun k => ((List.filter
          (fun r => decide (TrimSpace r.Category1 = label ∧ TrimSpace r.Category2 = k))
          (r :: rs)).map amt).sum) =
          (fun k => (if TrimSpace r.Category2 = k then amt r else 0) +
            ((List.filter
              (fun r => decide (TrimSpace r.Category1 = label ∧ TrimSpace r.Category2 = k))
              rs).map amt).sum) := by
        funext k
        by_cases hk2 : TrimSpace r.Category2 = k <;> simp [List.filter_cons, hp, hk2]
      rw [hfun, List.sum_map_add, ih', sum_indicator keys hnd _ hk]
      simp [List.filter_cons, hp]
    · have hfun : (fun k => ((List.filter
          (fun r => decide (TrimSpace r.Category1 = label ∧ TrimSpace r.Category2 = k))
          (r :: rs)).map amt).sum) =
          (fun k => ((List.filter
              (fun r => decide (TrimSpace r.Category1 = label ∧ TrimSpace r.Category2 = k))
              rs).map amt).sum) := by
        funext k
        simp [List.filter_cons, hp]
      rw [hfun, ih']
      simp [List.filter_cons, hp]

theorem filterMap_amountOf (rs : List BillRecord) (amt : BillRecord → Nat)
    (h : ∀ r ∈ rs, amountOf r = some (F64.ofNat (amt r))) :
    rs.filterMap amountOf = (rs.map amt).map F64.ofNat := by
  induction rs with
  | nil => rfl
  | cons r rs ih =>
    rw [List.filterMap_cons, h r (List.mem_cons_self _ _)]
    simp only [List.map_cons]
    rw [ih (fun r' hr' => h r' (List.mem_cons_of_mem _ hr'))]

theorem mapGet_of_mem {V : Type} (m : GoMap V) (hnd : (m.map Prod.fst).Nodup) (k : Str) (v : V)
    (h : (k, v) ∈ m) : mapGet m k = some v := by
  induction m with
  | nil => cases h
  | cons p t ih =>
    obtain ⟨a, b⟩ := p
    simp only [List.map_cons, List.nodup_cons] at hnd
    rcases List.mem_cons.mp h with h' | h'
    · cases h'
      simp [mapGet]
    · have hne : ¬ a = k := by
        intro e
        subst e
        exact hnd.1 (List.mem_map.mpr ⟨(a, v), h', rfl⟩)
      simp only [mapGet, hne, if_false]
      exact ih hnd.2 h'

theorem bucketSum_ofNat (ns : List Nat) (h : ns.sum ≤ 2 ^ 53) :
    bucketSum (ns.map F64.ofNat) = if ns = [] then none else some (F64.ofNat ns.sum) := by
  cases ns with
  | nil => rfl
  | cons n ns =>
    simp only [List.map_cons, bucketSum, List.sum_cons] at h ⊢
    rw [sumFrom_ofNat ns n h]
    simp

theorem bucket_total (label : Str) (rs : List BillRecord) (amt : BillRecord → Nat)
    (m : GoMap F64) (total : F64)
    (hamt : ∀ r ∈ rs, amountOf r = some (F64.ofNat (amt r)))
    (hsum : (rs.map amt).sum ≤ 2 ^ 53)
    (hnd : (m.map Prod.fst).Nodup)
    (hget : ∀ k, mapGet m k = bucketSum (amountsOfBucket label k rs))
    (htotal : total = sumFrom F64.zero (amountsOfLabel label rs))
    (vs : List F64) (hvs : vs.Perm (m.map Prod.snd)) :
    sumFrom F64.zero vs = total := by
  -- the total is the exact sum of the amounts of the label
  have hlab : amountsOfLabel label rs =
      (((rs.filter (fun r => TrimSpace r.Category1 = label)).map amt).map F64.ofNat) :=
    filterMap_amountOf _ amt (fun r hr => hamt r (List.mem_of_mem_filter hr))
  have hle1 := sum_filter_le rs (fun r => TrimSpace r.Category1 = label) amt
  have htot : total =
      F64.ofNat ((rs.filter (fun r => TrimSpace r.Category1 = label)).map amt).sum := by
    rw [htotal, hlab]
    have := sumFrom_ofNat ((rs.filter (fun r => TrimSpace r.Category1 = label)).map amt) 0
      (by omega)
    rw [Nat.zero_add] at this
    exact this
  -- each bucket is the exact sum of its amounts
  have hbucket : ∀ k, mapGet m k =
      if (rs.filter (fun r => TrimSpace r.Category1 = label ∧ TrimSpace r.Category2 = k)).map amt
          = [] then none
      else some (F64.ofNat ((rs.filter
        (fun r => TrimSpace r.Category1 = label ∧ TrimSpace r.Category2 = k)).map amt).sum) := by
    intro k
    rw [hget k]
    have hb : amountsOfBucket label k rs = (((rs.filter
        (fun r => TrimSpace r.Category1 = label ∧ TrimSpace r.Category2 = k)).map amt).map
          F64.ofNat) :=
      filterMap_amountOf _ amt (fun r hr => hamt r (List.mem_of_mem_filter hr))
    rw [hb]
    exact bucketSum_ofNat _ (le_trans (sum_filter_le rs _ amt) hsum)
  -- the values of the map are the bucket sums of its keys
  have hvals : m.map Prod.snd = ((m.map Prod.fst).map (fun k => ((rs.filter
      (fun r => TrimSpace r.Category1 = label ∧ TrimSpace r.Category2 = k)).map amt).sum)).map
        F64.ofNat := by
    rw [List.map_map, List.map_map]
    apply List.map_congr_left
    intro p hp
    obtain ⟨k, v⟩ := p
    have h1 := mapGet_of_mem m hnd k v hp
    rw [hbucket k] at h1
    split_ifs at h1 with hem
    simp only [Option.some.injEq] at h1
    simp only [Function.comp]
    exact h1.symm
  -- every record of the label has its key in the map
  have hcov : ∀ r ∈ rs, TrimSpace r.Category1 = label → TrimSpace r.Category2 ∈ m.map Prod.fst := by
    intro r hr hl
    by_contra hno
    have h1 := (mapGet_eq_none_iff m _).mpr hno
    rw [hbucket] at h1
    split_ifs at h1 with hem
    have hmem : r ∈ rs.filter (fun r' => TrimSpace r'.Category1 = label ∧
        TrimSpace r'.Category2 = TrimSpace r.Category2) := by
      simp [List.mem_filter, hr, hl]
    rw [List.map_eq_nil_iff] at hem
    rw [hem] at hmem
    cases hmem
  have hpart := sum_buckets (m.map Prod.fst) hnd label rs amt hcov
  rw [hvals] at hvs
  obtain ⟨ns', hp', rfl⟩ := perm_map_exists F64.ofNat vs _ hvs
  have hs' : ns'.sum = ((rs.filter (fun r => TrimSpace r.Category1 = label)).map amt).sum := by
    rw [hp'.sum_eq, hpart]
  have := sumFrom_ofNat ns' 0 (by omega)
  rw [Nat.zero_add] at this
  rw [htot, ← hs']
  exact this

/-- The float64 values of `roundingSummary` in decimal: the total is the
float64 of 0.7000000000000001, the buckets are those of 0.5 and 0.2, and the
float64 sum of the buckets is that of 0.7. -/
theorem roundingSummary_decimal :
    ParseFloat "0.7000000000000001".toList = some roundingSummary.totalOut ∧
    roundingSummary.outMap.map (fun p => some p.2) =
      [ParseFloat "0.5".toList, ParseFloat "0.2".toList] ∧
    some (sumFrom F64.zero (roundingSummary.outMap.map Prod.snd)) = ParseFloat "0.7".toList := by
  decide!

theorem mem_keys_mapSet {V : Type} (m : GoMap V) (k x : Str) (v : V) :
    x ∈ (mapSet m k v).map Prod.fst ↔ x ∈ m.map Prod.fst ∨ x = k := by
  induction m with
  | nil => simp only [mapSet, List.map_cons, List.map_nil, List.mem_singleton, List.not_mem_nil,
      false_or]
  | cons p t ih =>
    obtain ⟨a, b⟩ := p
    by_cases h : a = k
    · subst h
      simp only [mapSet, if_true, List.map_cons, List.mem_cons]
      tauto
    · simp only [mapSet, h, if_false, List.map_cons, List.mem_cons, ih]
      tauto

theorem Replace_of_header (t : Str) (h : dateSectionTag <+: t) :
    Replace t dateSectionTag [] 1 = t.drop dateSectionTag.length := by
  obtain ⟨r, rfl⟩ := h
  rw [Replace_header, List.drop_left]

theorem header_not_marker (t : Str) (h : dateSectionTag <+: t) :
    ¬ startMarker <+: t ∧ ¬ endMarker <+: t := by
  obtain ⟨r, rfl⟩ := h
  constructor
  · rw [← List.isPrefixOf_iff_prefix, startMarker_not_header]; exact Bool.false_ne_true
  · rw [← List.isPrefixOf_iff_prefix, endMarker_not_header]; exact Bool.false_ne_true

theorem processLine_not_inside (st : ParseState) (raw : Str) (h0 : st.readDataStatus ≠ 1)
    (h1 : ¬ startMarker <+: TrimSpace raw) (h2 : ¬ endMarker <+: TrimSpace raw) :
    processLine st raw = .ok (.next st) := by
  rw [← Index_eq_zero_iff] at h1 h2
  simp only [processLine, h1, h2, h0, if_false]
  split_ifs <;> rfl

theorem processLine_header_label (st : ParseState) (raw : Str) (h1 : st.readDataStatus = 1)
    (hd : dateSectionTag <+: TrimSpace raw) :
    processLine st raw =
      .ok (.next { readDataStatus := 1, dateMap := mapSet st.dateMap (dateLabelOf raw) [],
                   dateStr := dateLabelOf raw }) := by
  obtain ⟨hs, he⟩ := header_not_marker _ hd
  rw [processLine_header st raw h1 hs he hd, Replace_of_header _ hd, ← h1]
  rfl

/-- What one line that does not end the loop does to the state. -/
theorem processLine_next_effect (st st' : ParseState) (raw : Str)
    (h : processLine st raw = .ok (.next st')) :
    (st'.readDataStatus = 1 ↔ st.readDataStatus = 1 ∨ startMarker <+: TrimSpace raw) ∧
    ¬ endMarker <+: TrimSpace raw ∧
    ((st'.dateStr = st.dateStr ∧
        ∀ k, k ∈ st'.dateMap.map Prod.fst ↔ k ∈ st.dateMap.map Prod.fst ∨
          (k = st.dateStr ∧ st'.dateMap ≠ st.dateMap)) ∨
      (st.readDataStatus = 1 ∧ dateSectionTag <+: TrimSpace raw ∧ st'.dateStr = dateLabelOf raw ∧
        ∀ k, k ∈ st'.dateMap.map Prod.fst ↔ k ∈ st.dateMap.map Prod.fst ∨ k = dateLabelOf raw)) := by
  by_cases hb : TrimSpace raw = []
  · rw [processLine_blank st raw hb] at h
    cases h
    have h1 : ¬ startMarker <+: TrimSpace raw := by rw [hb]; decide
    have h2 : ¬ endMarker <+: TrimSpace raw := by rw [hb]; decide
    exact ⟨by simp [h1], h2, Or.inl ⟨rfl, fun k => by simp⟩⟩
  by_cases hs : startMarker <+: TrimSpace raw
  · rw [processLine_start st raw hs] at h
    cases h
    exact ⟨by simp [hs], fun he => markers_disjoint _ hs he, Or.inl ⟨rfl, fun k => by simp⟩⟩
  by_cases he : endMarker <+: TrimSpace raw
  · rw [processLine_end st raw he] at h
    cases h
  by_cases h1 : st.readDataStatus = 1
  · by_cases hd : dateSectionTag <+: TrimSpace raw
    · rw [processLine_header_label st raw h1 hd] at h
      cases h
      refine ⟨by simp [h1], he, Or.inr ⟨h1, hd, rfl, fun k => ?_⟩⟩
      exact mem_keys_mapSet _ _ _ _
    · rw [processLine_row st raw h1 hb hs he hd] at h
      cases hr : readDateData ((mapGet st.dateMap st.dateStr).getD []) (TrimSpace raw)
          st.dateStr with
      | error e => rw [hr] at h; cases h
      | ok l =>
        rw [hr] at h
        cases h
        refine ⟨by simp [h1], he, Or.inl ⟨rfl, fun k => ?_⟩⟩
        simp only [mem_keys_mapSet]
        constructor
        · rintro (hk | hk)
          · exact Or.inl hk
          · by_cases hmem : k ∈ st.dateMap.map Prod.fst
            · exact Or.inl hmem
            · refine Or.inr ⟨hk, fun heq => hmem ?_⟩
              rw [← heq, mem_keys_mapSet]
              exact Or.inr hk
        · rintro (hk | ⟨hk, _⟩)
          · exact Or.inl hk
          · exact Or.inr hk
  · rw [processLine_not_inside st raw h1 hs he] at h
    cases h
    exact ⟨by simp [hs], he, Or.inl ⟨rfl, fun k => by simp⟩⟩


theorem parseLoop_cons_next (st st' : ParseState) (l : Str) (ls : List Str)
    (h : processLine st l = .ok (.next st')) : parseLoop st (l :: ls) = parseLoop st' ls := by
  simp only [parseLoop, h]

theorem processLine_stop_effect (st st' : ParseState) (raw : Str)
    (h : processLine st raw = .ok (.stop st')) :
    endMarker <+: TrimSpace raw ∧ st'.dateMap = st.dateMap ∧ st'.dateStr = st.dateStr := by
  by_cases he : endMarker <+: TrimSpace raw
  · rw [processLine_end st raw he] at h
    cases h
    exact ⟨he, rfl, rfl⟩
  · exfalso
    by_cases hb : TrimSpace raw = []
    · rw [processLine_blank st raw hb] at h; cases h
    by_cases hs : startMarker <+: TrimSpace raw
    · rw [processLine_start st raw hs] at h; cases h
    by_cases h1 : st.readDataStatus = 1
    · by_cases hd : dateSectionTag <+: TrimSpace raw
      · rw [processLine_header_label st raw h1 hd] at h; cases h
      · rw [processLine_row st raw h1 hb hs he hd] at h
        split at h <;> cases h
    · rw [processLine_not_inside st raw h1 hs he] at h; cases h

/-- Every key of the final map is a key of the first map, the first label, or the
label of a header line read inside the region. -/
theorem parseLoop_keys (lines : List Str) (st0 st : ParseState)
    (h : parseLoop st0 lines = .ok st) (k : Str) (hk : k ∈ st.dateMap.map Prod.fst) :
    k ∈ st0.dateMap.map Prod.fst ∨ k = st0.dateStr ∨
      ∃ pre l post st1, lines = pre ++ l :: post ∧ parseLoop st0 pre = .ok st1 ∧
        st1.readDataStatus = 1 ∧ dateSectionTag <+: TrimSpace l ∧ k = dateLabelOf l := by
  induction lines generalizing st0 with
  | nil =>
    simp only [parseLoop] at h
    cases h
    exact Or.inl hk
  | cons l ls ih =>
    cases hp : processLine st0 l with
    | error e => simp only [parseLoop, hp] at h; cases h
    | ok step =>
      cases step with
      | stop st' =>
        simp only [parseLoop, hp] at h
        cases h
        rw [(processLine_stop_effect _ _ _ hp).2.1] at hk
        exact Or.inl hk
      | next st' =>
        rw [parseLoop_cons_next _ _ _ _ hp] at h
        obtain ⟨_, _, heff⟩ := processLine_next_effect _ _ _ hp
        have lift : (∃ pre l' post st1, ls = pre ++ l' :: post ∧ parseLoop st' pre = .ok st1 ∧
            st1.readDataStatus = 1 ∧ dateSectionTag <+: TrimSpace l' ∧ k = dateLabelOf l') →
            ∃ pre l' post st1, l :: ls = pre ++ l' :: post ∧ parseLoop st0 pre = .ok st1 ∧
            st1.readDataStatus = 1 ∧ dateSectionTag <+: TrimSpace l' ∧ k = dateLabelOf l' := by
          rintro ⟨pre, l', post, st1, hl, hpre, h1, hd, hk'⟩
          exact ⟨l :: pre, l', post, st1, by rw [hl]; rfl,
            by rw [parseLoop_cons_next _ _ _ _ hp]; exact hpre, h1, hd, hk'⟩
        have here : ∀ (h1 : st0.readDataStatus = 1) (hd : dateSectionTag <+: TrimSpace l),
            k = dateLabelOf l →
            ∃ pre l' post st1, l :: ls = pre ++ l' :: post ∧ parseLoop st0 pre = .ok st1 ∧
            st1.readDataStatus = 1 ∧ dateSectionTag <+: TrimSpace l' ∧ k = dateLabelOf l' :=
          fun h1 hd hk' => ⟨[], l, ls, st0, rfl, rfl, h1, hd, hk'⟩
        rcases ih st' h with hin | hin | hin
        · rcases heff with ⟨_, hkeys⟩ | ⟨h1, hd, _, hkeys⟩
          · rcases (hkeys k).mp hin with h' | ⟨h', _⟩
            · exact Or.inl h'
            · exact Or.inr (Or.inl h')
          · rcases (hkeys k).mp hin with h' | h'
            · exact Or.inl h'
            · exact Or.inr (Or.inr (here h1 hd h'))
        · rcases heff with ⟨hds, _⟩ | ⟨h1, hd, hds, _⟩
          · exact Or.inr (Or.inl (hin.trans hds))
          · exact Or.inr (Or.inr (here h1 hd (hin.trans hds)))
        · exact Or.inr (Or.inr (lift hin))

/-- Keys are never removed. -/
theorem parseLoop_keys_mono (lines : List Str) (st0 st : ParseState)
    (h : parseLoop st0 lines = .ok st) (k : Str) (hk : k ∈ st0.dateMap.map Prod.fst) :
    k ∈ st.dateMap.map Prod.fst := by
  induction lines generalizing st0 with
  | nil =>
    simp only [parseLoop] at h
    cases h
    exact hk
  | cons l ls ih =>
    cases hp : processLine st0 l with
    | error e => simp only [parseLoop, hp] at h; cases h
    | ok step =>
      cases step with
      | stop st' =>
        simp only [parseLoop, hp] at h
        cases h
        rw [(processLine_stop_effect _ _ _ hp).2.1]
        exact hk
      | next st' =>
        rw [parseLoop_cons_next _ _ _ _ hp] at h
        obtain ⟨_, _, heff⟩ := processLine_next_effect _ _ _ hp
        apply ih st' h
        rcases heff with ⟨_, hkeys⟩ | ⟨_, _, _, hkeys⟩
        · exact (hkeys k).mpr (Or.inl hk)
        · exact (hkeys k).mpr (Or.inl hk)

/-- A loop that ends inside the region has read no end marker, and has read a
start marker unless it began inside the region. -/
theorem parseLoop_running_region (pre : List Str) (st0 st1 : ParseState)
    (h : parseLoop st0 pre = .ok st1) (h1 : st1.readDataStatus = 1) :
    (∀ l ∈ pre, ¬ endMarker <+: TrimSpace l) ∧
    (st0.readDataStatus = 1 ∨ ∃ l ∈ pre, startMarker <+: TrimSpace l) := by
  induction pre generalizing st0 with
  | nil =>
    simp only [parseLoop] at h
    cases h
    exact ⟨fun l hl => (by cases hl), Or.inl h1⟩
  | cons l ls ih =>
    cases hp : processLine st0 l with
    | error e => simp only [parseLoop, hp] at h; cases h
    | ok step =>
      cases step with
      | stop st' =>
        simp only [parseLoop, hp] at h
        cases h
        have := processLine_stop_status _ _ _ hp
        omega
      | next st' =>
        rw [parseLoop_cons_next _ _ _ _ hp] at h
        obtain ⟨hst, hne, _⟩ := processLine_next_effect _ _ _ hp
        obtain ⟨ih1, ih2⟩ := ih st' h
        constructor
        · intro l' hl'
          rcases List.mem_cons.mp hl' with e | e
          · rw [e]; exact hne
          · exact ih1 l' e
        · rcases ih2 with h' | ⟨l', hl', hs'⟩
          · rcases hst.mp h' with h'' | h''
            · exact Or.inl h''
            · exact Or.inr ⟨l, List.mem_cons_self _ _, h''⟩
          · exact Or.inr ⟨l', List.mem_cons_of_mem _ hl', hs'⟩

/-- A successful loop has read each of its lines before the first end marker. -/
theorem parseLoop_split (pre rest : List Str) (st0 st : ParseState)
    (h : parseLoop st0 (pre ++ rest) = .ok st)
    (hne : ∀ l ∈ pre, ¬ endMarker <+: TrimSpace l) :
    ∃ st1, parseLoop st0 pre = .ok st1 ∧ parseLoop st1 rest = .ok st ∧
      (st0.dateMap.map Prod.fst ⊆ st1.dateMap.map Prod.fst) ∧
      ((st0.readDataStatus = 1 ∨ ∃ l ∈ pre, startMarker <+: TrimSpace l) →
        st1.readDataStatus = 1) ∧
      ((∀ l ∈ pre, ¬ dateSectionTag <+: TrimSpace l) → st1.dateStr = st0.dateStr) := by
  induction pre generalizing st0 with
  | nil =>
    exact ⟨st0, rfl, h, fun _ hx => hx,
      fun h' => h'.elim id (fun ⟨l, hl, _⟩ => (by cases hl)), fun _ => rfl⟩
  | cons l ls ih =>
    have hl := hne l (List.mem_cons_self _ _)
    cases hp : processLine st0 l with
    | error e => simp only [List.cons_append, parseLoop, hp] at h; cases h
    | ok step =>
      cases step with
      | stop st' => exact absurd (processLine_stop_effect _ _ _ hp).1 hl
      | next st' =>
        rw [List.cons_append, parseLoop_cons_next _ _ _ _ hp] at h
        obtain ⟨hst, _, heff⟩ := processLine_next_effect _ _ _ hp
        obtain ⟨st1, h1, h2, h3, h4, h5⟩ := ih st' h (fun l' hl' => hne l' (List.mem_cons_of_mem _ hl'))
        refine ⟨st1, by rw [parseLoop_cons_next _ _ _ _ hp]; exact h1, h2, ?_, ?_, ?_⟩
        · intro k hk
          apply h3
          rcases heff with ⟨_, hkeys⟩ | ⟨_, _, _, hkeys⟩
          · exact (hkeys k).mpr (Or.inl hk)
          · exact (hkeys k).mpr (Or.inl hk)
        · intro h'
          apply h4
          rcases h' with h' | ⟨l', hl', hs'⟩
          · exact Or.inl (hst.mpr (Or.inl h'))
          · rcases List.mem_cons.mp hl' with e | e
            · rw [e] at hs'; exact Or.inl (hst.mpr (Or.inr hs'))
            · exact Or.inr ⟨l', e, hs'⟩
        · intro hnh
          rw [h5 (fun l' hl' => hnh l' (List.mem_cons_of_mem _ hl'))]
          rcases heff with ⟨hds, _⟩ | ⟨_, hd, _, _⟩
          · exact hds
          · exact absurd hd (hnh l (List.mem_cons_self _ _))


theorem parse_ok_iff (lines : List Str) (m : GoMap (List BillRecord)) :
    parse lines = .ok m ↔ ∃ st, parseLoop initState lines = .ok st ∧ st.dateMap = m := by
  unfold parse
  cases parseLoop initState lines with
  | error e => simp
  | ok st => simp

theorem sectionRecords_cons_stop (l : Str) (ls : List Str)
    (h : dateSectionTag <+: TrimSpace l ∨ endMarker <+: TrimSpace l) :
    sectionRecords (l :: ls) = [] := by
  have : decide (¬ dateSectionTag <+: TrimSpace l ∧ ¬ endMarker <+: TrimSpace l) = false := by
    rw [decide_eq_false_iff_not]; tauto
  simp only [sectionRecords, sectionRows, List.takeWhile_cons, this]
  rfl

theorem sectionRecords_cons_drop (l : Str) (ls : List Str)
    (h1 : ¬ dateSectionTag <+: TrimSpace l) (h2 : ¬ endMarker <+: TrimSpace l)
    (h : TrimSpace l = [] ∨ startMarker <+: TrimSpace l ∨ skipRow (TrimSpace l) = true) :
    sectionRecords (l :: ls) = sectionRecords ls := by
  have hc : decide (¬ dateSectionTag <+: TrimSpace l ∧ ¬ endMarker <+: TrimSpace l) = true := by
    rw [decide_eq_true_iff]; exact ⟨h1, h2⟩
  simp only [sectionRecords, sectionRows, List.takeWhile_cons, hc, if_true, List.map_cons,
    List.filter_cons]
  by_cases hk : TrimSpace l ≠ [] ∧ ¬ startMarker <+: TrimSpace l
  · have hs : skipRow (TrimSpace l) = true := by tauto
    simp only [hk, decide_True, if_true, List.filter_cons, hs, Bool.not_true, and_self,
      not_false_eq_true, ne_eq, Bool.false_eq_true, if_false]
  · simp only [hk, decide_False, Bool.false_eq_true, if_false]

theorem sectionRecords_cons_row (l : Str) (ls : List Str)
    (h1 : ¬ dateSectionTag <+: TrimSpace l) (h2 : ¬ endMarker <+: TrimSpace l)
    (h3 : TrimSpace l ≠ []) (h4 : ¬ startMarker <+: TrimSpace l)
    (h5 : skipRow (TrimSpace l) = false) :
    sectionRecords (l :: ls) = rowRecord (TrimSpace l) :: sectionRecords ls := by
  have hc : decide (¬ dateSectionTag <+: TrimSpace l ∧ ¬ endMarker <+: TrimSpace l) = true := by
    rw [decide_eq_true_iff]; exact ⟨h1, h2⟩
  have hk : decide (TrimSpace l ≠ [] ∧ ¬ startMarker <+: TrimSpace l) = true := by
    rw [decide_eq_true_iff]; exact ⟨h3, h4⟩
  simp only [sectionRecords, sectionRows, List.takeWhile_cons, hc, if_true, List.map_cons,
    List.filter_cons, hk, h5, Bool.not_false]

theorem dateLabelOf_eq (raw L : Str) (hd : dateSectionTag <+: TrimSpace raw) :
    dateLabelOf raw = L ↔ TrimSpace raw = dateSectionTag ++ L := by
  obtain ⟨r, hr⟩ := hd
  unfold dateLabelOf
  rw [← hr, List.drop_left]
  constructor
  · intro h; rw [h]
  · intro h; exact List.append_cancel_left h

/-- What one line that does not end the loop does to the sequences of the map. -/
theorem processLine_next_values (st st' : ParseState) (raw : Str)
    (h : processLine st raw = .ok (.next st')) :
    (st'.dateStr = st.dateStr ∧ ∀ k, k ≠ st.dateStr → mapGet st'.dateMap k = mapGet st.dateMap k) ∨
    (st.readDataStatus = 1 ∧ dateSectionTag <+: TrimSpace raw ∧ st'.dateStr = dateLabelOf raw ∧
      ∀ k, k ≠ dateLabelOf raw → mapGet st'.dateMap k = mapGet st.dateMap k) := by
  by_cases hb : TrimSpace raw = []
  · rw [processLine_blank st raw hb] at h
    cases h
    exact Or.inl ⟨rfl, fun _ _ => rfl⟩
  by_cases hs : startMarker <+: TrimSpace raw
  · rw [processLine_start st raw hs] at h
    cases h
    exact Or.inl ⟨rfl, fun _ _ => rfl⟩
  by_cases he : endMarker <+: TrimSpace raw
  · rw [processLine_end st raw he] at h
    cases h
  by_cases h1 : st.readDataStatus = 1
  · by_cases hd : dateSectionTag <+: TrimSpace raw
    · rw [processLine_header_label st raw h1 hd] at h
      cases h
      refine Or.inr ⟨h1, hd, rfl, fun k hk => ?_⟩
      simp only [mapGet_mapSet]
      rw [if_neg (fun e => hk e.symm)]
    · rw [processLine_row st raw h1 hb hs he hd] at h
      cases hr : readDateData ((mapGet st.dateMap st.dateStr).getD []) (TrimSpace raw)
          st.dateStr with
      | error e => rw [hr] at h; cases h
      | ok l =>
        rw [hr] at h
        cases h
        refine Or.inl ⟨rfl, fun k hk => ?_⟩
        simp only [mapGet_mapSet]
        rw [if_neg (fun e => hk e.symm)]
  · rw [processLine_not_inside st raw h1 hs he] at h
    cases h
    exact Or.inl ⟨rfl, fun _ _ => rfl⟩

/-- The sequence of a label that is not current is not touched before the next
header line of that label. -/
theorem parseLoop_frame (L : Str) (lines : List Str) (st0 final : ParseState)
    (hds : st0.dateStr ≠ L) (hno : ∀ l ∈ lines, TrimSpace l ≠ dateSectionTag ++ L)
    (h : parseLoop st0 lines = .ok final) :
    mapGet final.dateMap L = mapGet st0.dateMap L := by
  induction lines generalizing st0 with
  | nil =>
    simp only [parseLoop] at h
    cases h
    rfl
  | cons l ls ih =>
    have hl := hno l (List.mem_cons_self _ _)
    have hls := fun l' hl' => hno l' (List.mem_cons_of_mem l hl')
    cases hp : processLine st0 l with
    | error e => simp only [parseLoop, hp] at h; cases h
    | ok step =>
      cases step with
      | stop st' =>
        simp only [parseLoop, hp] at h
        cases h
        rw [(processLine_stop_effect _ _ _ hp).2.1]
      | next st' =>
        rw [parseLoop_cons_next _ _ _ _ hp] at h
        rcases processLine_next_values _ _ _ hp with ⟨hd1, hv⟩ | ⟨_, hd, hd1, hv⟩
        · rw [ih st' (by rw [hd1]; exact hds) hls h]
          exact hv L (fun e => hds e.symm)
        · have hne : dateLabelOf l ≠ L := fun e => hl ((dateLabelOf_eq l L hd).mp e)
          rw [ih st' (by rw [hd1]; exact hne) hls h]
          exact hv L (fun e => hne e.symm)

/-- The sequence of the current label grows by the records of the rows up to the
next header line or end marker. -/
theorem parseLoop_section (L : Str) (post : List Str) (st0 final : ParseState)
    (acc : List BillRecord) (h1 : st0.readDataStatus = 1) (hds : st0.dateStr = L)
    (hacc : mapGet st0.dateMap L = some acc)
    (hno : ∀ l ∈ post, TrimSpace l ≠ dateSectionTag ++ L)
    (h : parseLoop st0 post = .ok final) :
    mapGet final.dateMap L = some (acc ++ sectionRecords post) := by
  induction post generalizing st0 acc with
  | nil =>
    simp only [parseLoop] at h
    cases h
    rw [hacc]
    simp [sectionRecords, sectionRows]
  | cons l ls ih =>
    have hl := hno l (List.mem_cons_self _ _)
    have hls := fun l' hl' => hno l' (List.mem_cons_of_mem l hl')
    by_cases he : endMarker <+: TrimSpace l
    · simp only [parseLoop, processLine_end st0 l he] at h
      cases h
      rw [sectionRecords_cons_stop l ls (Or.inr he), List.append_nil]
      exact hacc
    by_cases hd : dateSectionTag <+: TrimSpace l
    · rw [parseLoop_cons_next _ _ _ _ (processLine_header_label st0 l h1 hd)] at h
      have hne : dateLabelOf l ≠ L := fun e => hl ((dateLabelOf_eq l L hd).mp e)
      rw [parseLoop_frame L ls _ final hne hls h, sectionRecords_cons_stop l ls (Or.inl hd),
        List.append_nil]
      simp only [mapGet_mapSet]
      rw [if_neg hne]
      exact hacc
    by_cases hb : TrimSpace l = []
    · rw [parseLoop_cons_next _ _ _ _ (processLine_blank st0 l hb)] at h
      rw [sectionRecords_cons_drop l ls hd he (Or.inl hb)]
      exact ih st0 acc h1 hds hacc hls h
    by_cases hs : startMarker <+: TrimSpace l
    · rw [parseLoop_cons_next _ _ _ _ (processLine_start st0 l hs)] at h
      rw [sectionRecords_cons_drop l ls hd he (Or.inr (Or.inl hs))]
      exact ih { st0 with readDataStatus := 1 } acc rfl hds hacc hls h
    have hget : (mapGet st0.dateMap st0.dateStr).getD [] = acc := by rw [hds, hacc]; rfl
    cases hsk : skipRow (TrimSpace l) with
    | true =>
      have hp : processLine st0 l =
          .ok (.next { st0 with dateMap := mapSet st0.dateMap st0.dateStr acc }) := by
        rw [processLine_row st0 l h1 hb hs he hd, hget, readDateData_skipRow _ _ _ hsk]
      rw [parseLoop_cons_next _ _ _ _ hp] at h
      rw [sectionRecords_cons_drop l ls hd he (Or.inr (Or.inr hsk))]
      exact ih { st0 with dateMap := mapSet st0.dateMap st0.dateStr acc } acc h1 hds
        (by simp only [mapGet_mapSet, hds, if_true]) hls h
    | false =>
      by_cases hlen : 6 ≤ (Split (TrimSpace l) fieldSep).length
      · have hp : processLine st0 l =
            .ok (.next { st0 with dateMap := mapSet st0.dateMap st0.dateStr
                                    (acc ++ [rowRecord (TrimSpace l)]) }) := by
          rw [processLine_row st0 l h1 hb hs he hd, hget, readDateData_long _ _ _ hsk hlen]
        rw [parseLoop_cons_next _ _ _ _ hp] at h
        rw [sectionRecords_cons_row l ls hd he hb hs hsk]
        rw [ih { st0 with dateMap := mapSet st0.dateMap st0.dateStr
                                    (acc ++ [rowRecord (TrimSpace l)]) }
          (acc ++ [rowRecord (TrimSpace l)]) h1 hds
          (by simp only [mapGet_mapSet, hds, if_true]) hls h]
        simp
      · exfalso
        simp only [parseLoop, processLine_row st0 l h1 hb hs he hd, hget,
          readDateData_short _ _ _ hsk (by omega)] at h
        cases h

theorem allRecords_append (A B : GoMap (List BillRecord)) :
    allRecords (A ++ B) = allRecords A ++ allRecords B := by
  simp [allRecords]

theorem allRecords_cons (d : Str) (xs : List BillRecord) (B : GoMap (List BillRecord)) :
    allRecords ((d, xs) :: B) = xs ++ allRecords B := by
  simp [allRecords]

theorem addRecord_other (acc : Summary) (r : BillRecord)
    (h1 : TrimSpace r.Category1 ≠ expenseLabel) (h2 : TrimSpace r.Category1 ≠ incomeLabel)
    (hnum : (ParseFloat (TrimSpace r.Number)).isSome) : addRecord acc r = .ok acc := by
  obtain ⟨v, hv⟩ := Option.isSome_iff_exists.mp hnum
  simp only [addRecord, hv, h1, h2, if_false]

theorem addRecords_insert_other (p q : List BillRecord) (acc : Summary) (r : BillRecord)
    (h1 : TrimSpace r.Category1 ≠ expenseLabel) (h2 : TrimSpace r.Category1 ≠ incomeLabel)
    (hnum : (ParseFloat (TrimSpace r.Number)).isSome) :
    addRecords acc (p ++ r :: q) = addRecords acc (p ++ q) := by
  rw [addRecords_append, addRecords_append]
  cases addRecords acc p with
  | error e => rfl
  | ok acc' => simp only [addRecords, addRecord_other acc' r h1 h2 hnum]

theorem aggregate_eq_addRecords (M : GoMap (List BillRecord)) :
    aggregate M = addRecords initSummary (allRecords M) := by
  rw [aggregate, aggregateLoop_eq]

/-- The failure of the aggregation, if any, is that of a bad amount. -/
theorem aggregate_error_iff (M : GoMap (List BillRecord)) (e : RunError) :
    aggregate M = .error e ↔ e = .invalidAmount ∧ ∃ r ∈ allRecords M, amountOf r = none := by
  rw [aggregate_eq_addRecords]
  constructor
  · intro h
    exact addRecords_error _ _ _ h
  · rintro ⟨he, r, hr, hn⟩
    obtain ⟨e', he'⟩ := addRecords_of_bad (allRecords M) initSummary r hr hn
    rw [he', he, (addRecords_error _ _ _ he').1]

/-- What a successful aggregation has computed. -/
theorem aggregate_ok_accumulated (M : GoMap (List BillRecord)) (res : Summary)
    (h : aggregate M = .ok res) :
    (∀ r ∈ allRecords M, (amountOf r).isSome) ∧
    Accumulated initSummary res (allRecords M) := by
  rw [aggregate_eq_addRecords] at h
  have hall : ∀ r ∈ allRecords M, (amountOf r).isSome := by
    intro r hr
    by_contra hn
    have hn' : amountOf r = none := by
      cases hv : amountOf r with
      | none => rfl
      | some v => rw [hv] at hn; exact absurd rfl hn
    obtain ⟨e, he⟩ := addRecords_of_bad (allRecords M) initSummary r hr hn'
    rw [he] at h
    cases h
  obtain ⟨res', hres', hacc⟩ := addRecords_ok (allRecords M) initSummary hall
  rw [hres'] at h
  cases h
  exact ⟨hall, hacc⟩

/-- The keys of a bucket map are the trimmed secondary categories of the label. -/
theorem bucket_keys (label : Str) (rs : List BillRecord) (m : GoMap F64)
    (hall : ∀ r ∈ rs, (amountOf r).isSome)
    (hget : ∀ k, mapGet m k = (amountsOfBucket label k rs).foldl bucketStep none) (k : Str) :
    k ∈ m.map Prod.fst ↔
      ∃ r ∈ rs, TrimSpace r.Category1 = label ∧ TrimSpace r.Category2 = k := by
  rw [← not_iff_not, ← mapGet_eq_none_iff, hget, foldl_bucketStep_none]
  have hb : ∀ vs : List F64, bucketSum vs = none ↔ vs = [] := by
    intro vs; cases vs <;> simp [bucketSum]
  rw [hb, amountsOfBucket, List.filterMap_eq_nil_iff]
  constructor
  · rintro hnone ⟨r, hr, h1, h2⟩
    have hmem : r ∈ rs.filter
        (fun r => TrimSpace r.Category1 = label ∧ TrimSpace r.Category2 = k) := by
      simp [List.mem_filter, hr, h1, h2]
    have := hnone r hmem
    have hs := hall r hr
    rw [this] at hs
    cases hs
  · intro hno r hr
    exfalso
    simp only [List.mem_filter, decide_eq_true_eq] at hr
    exact hno ⟨r, hr.1, hr.2⟩

theorem total_of_whole_amounts (label : Str) (rs : List BillRecord) (amt : BillRecord → Nat)
    (hamt : ∀ r ∈ rs, amountOf r = some (F64.ofNat (amt r)))
    (hsum : (rs.map amt).sum ≤ 2 ^ 53) :
    sumFrom F64.zero (amountsOfLabel label rs) =
      F64.ofNat ((rs.filter (fun r => TrimSpace r.Category1 = label)).map amt).sum := by
  have hlab : amountsOfLabel label rs =
      (((rs.filter (fun r => TrimSpace r.Category1 = label)).map amt).map F64.ofNat) :=
    filterMap_amountOf _ amt (fun r hr => hamt r (List.mem_of_mem_filter hr))
  have hle1 := sum_filter_le rs (fun r => TrimSpace r.Category1 = label) amt
  rw [hlab]
  have := sumFrom_ofNat ((rs.filter (fun r => TrimSpace r.Category1 = label)).map amt) 0
    (by omega)
  rw [Nat.zero_add] at this
  exact this

theorem bucket_of_whole_amounts (label k : Str) (rs : List BillRecord) (amt : BillRecord → Nat)
    (hamt : ∀ r ∈ rs, amountOf r = some (F64.ofNat (amt r)))
    (hsum : (rs.map amt).sum ≤ 2 ^ 53) :
    (amountsOfBucket label k rs).foldl bucketStep none =
      if (rs.filter (fun r => TrimSpace r.Category1 = label ∧ TrimSpace r.Category2 = k)).map amt
          = [] then none
      else some (F64.ofNat ((rs.filter
        (fun r => TrimSpace r.Category1 = label ∧ TrimSpace r.Category2 = k)).map amt).sum) := by
  have hb : amountsOfBucket label k rs = (((rs.filter
      (fun r => TrimSpace r.Category1 = label ∧ TrimSpace r.Category2 = k)).map amt).map
        F64.ofNat) :=
    filterMap_amountOf _ amt (fun r hr => hamt r (List.mem_of_mem_filter hr))
  rw [foldl_bucketStep_none, hb]
  exact bucketSum_ofNat _ (le_trans (sum_filter_le rs _ amt) hsum)

theorem perm_filter_map_amt (rs1 rs2 : List BillRecord) (h : rs1.Perm rs2)
    (q : BillRecord → Bool) (amt : BillRecord → Nat) :
    ((rs1.filter q).map amt = [] ↔ (rs2.filter q).map amt = []) ∧
    ((rs1.filter q).map amt).sum = ((rs2.filter q).map amt).sum := by
  have hp : ((rs1.filter q).map amt).Perm ((rs2.filter q).map amt) := (h.filter q).map amt
  exact ⟨⟨fun e => by rw [e] at hp; exact hp.symm.eq_nil, fun e => by rw [e] at hp; exact hp.eq_nil⟩,
    hp.sum_eq⟩

theorem TrimSpace_of_blank (l : Str) (h : isBlankLine l = true) : TrimSpace l = [] := by
  have hd : List.dropWhile isSpace l = [] := by
    rw [List.dropWhile_eq_nil_iff]
    intro x hx
    exact List.all_eq_true.mp h x hx
  unfold TrimSpace
  rw [hd]
  rfl

theorem TrimSpace_eq_nil_iff (l : Str) : TrimSpace l = [] ↔ isBlankLine l = true := by
  constructor
  · intro h
    unfold TrimSpace at h
    rw [List.rdropWhile_eq_nil_iff] at h
    have hd : List.dropWhile isSpace l = [] := by
      cases hl : List.dropWhile isSpace l with
      | nil => rfl
      | cons c t =>
        exfalso
        have hc : isSpace c = true := h c (by rw [hl]; exact List.mem_cons_self _ _)
        have hne : List.dropWhile isSpace l ≠ [] := by rw [hl]; exact List.cons_ne_nil _ _
        have hhead := List.head_dropWhile_not isSpace l hne
        simp only [hl, List.head_cons] at hhead
        rw [hc] at hhead
        cases hhead
    rw [List.dropWhile_eq_nil_iff] at hd
    exact List.all_eq_true.mpr hd
  · exact TrimSpace_of_blank l

theorem parseLoop_filter_blank (doc : List Str) (st : ParseState) :
    parseLoop st (doc.filter (fun l => !isBlankLine l)) = parseLoop st doc := by
  induction doc generalizing st with
  | nil => rfl
  | cons l ls ih =>
    cases hb : isBlankLine l with
    | true =>
      simp only [List.filter_cons, hb, Bool.not_true, Bool.false_eq_true, if_false]
      rw [parseLoop_cons_next st st l ls (processLine_blank st l (TrimSpace_of_blank l hb))]
      exact ih st
    | false =>
      simp only [List.filter_cons, hb, Bool.not_false, if_true, parseLoop]
      cases processLine st l with
      | error e => rfl
      | ok step =>
        cases step with
        | next st' => exact ih st'
        | stop st' => rfl

theorem dropWhile_append_of_all (w l : Str) (h : w.all isSpace = true) :
    List.dropWhile isSpace (w ++ l) = List.dropWhile isSpace l := by
  induction w with
  | nil => rfl
  | cons c t ih =>
    simp only [List.all_cons, Bool.and_eq_true] at h
    simp only [List.cons_append, List.dropWhile_cons, h.1, if_true]
    exact ih h.2

theorem rdropWhile_append_of_all (w l : Str) (h : w.all isSpace = true) :
    List.rdropWhile isSpace (l ++ w) = List.rdropWhile isSpace l := by
  unfold List.rdropWhile
  rw [List.reverse_append, dropWhile_append_of_all]
  rw [List.all_reverse]
  exact h

theorem dropWhile_append_of_ne_nil (s w : Str) (h : List.dropWhile isSpace s ≠ []) :
    List.dropWhile isSpace (s ++ w) = List.dropWhile isSpace s ++ w := by
  induction s with
  | nil => exact absurd rfl h
  | cons c t ih =>
    by_cases hc : isSpace c = true
    · simp only [List.cons_append, List.dropWhile_cons, hc, if_true] at h ⊢
      exact ih h
    · simp only [List.cons_append, List.dropWhile_cons, hc, Bool.false_eq_true, if_false]

theorem TrimSpace_pad (s w1 w2 : Str) (h1 : w1.all isSpace = true) (h2 : w2.all isSpace = true) :
    TrimSpace (w1 ++ s ++ w2) = TrimSpace s := by
  unfold TrimSpace
  rw [List.append_assoc, dropWhile_append_of_all _ _ h1]
  by_cases hs : List.dropWhile isSpace s = []
  · have hall : s.all isSpace = true := by
      rw [List.dropWhile_eq_nil_iff] at hs
      exact List.all_eq_true.mpr hs
    rw [dropWhile_append_of_all _ _ hall, hs]
    have : List.dropWhile isSpace w2 = [] := by
      rw [List.dropWhile_eq_nil_iff]
      exact fun x hx => List.all_eq_true.mp h2 x hx
    rw [this]
  · rw [dropWhile_append_of_ne_nil _ _ hs, rdropWhile_append_of_all _ _ h2]

theorem TrimSpace_idem (s : Str) : TrimSpace (TrimSpace s) = TrimSpace s := by
  by_cases hy : TrimSpace s = []
  · rw [hy]; rfl
  · have hpre : TrimSpace s <+: List.dropWhile isSpace s := List.rdropWhile_prefix _ _
    have hd : List.dropWhile isSpace (TrimSpace s) = TrimSpace s := by
      cases hts : TrimSpace s with
      | nil => exact absurd hts hy
      | cons c t =>
        rw [hts] at hpre
        obtain ⟨r, hr⟩ := hpre
        have hne : List.dropWhile isSpace s ≠ [] := by
          rw [← hr]; exact List.cons_ne_nil _ _
        have hhead := List.head_dropWhile_not isSpace s hne
        simp only [← hr, List.cons_append, List.head_cons] at hhead
        simp only [List.dropWhile_cons, hhead, Bool.false_eq_true, if_false]
    have : TrimSpace (TrimSpace s) = List.rdropWhile isSpace (TrimSpace s) := by
      conv_lhs => unfold TrimSpace
      rw [show List.dropWhile isSpace (List.rdropWhile isSpace (List.dropWhile isSpace s)) =
        TrimSpace s from hd]
    rw [this]
    exact List.rdropWhile_idempotent _ _

theorem addRecord_sameTrimmed (acc : Summary) (r1 r2 : BillRecord) (h : SameTrimmed r1 r2) :
    addRecord acc r1 = addRecord acc r2 := by
  obtain ⟨hn, h1, h2⟩ := h
  simp only [addRecord, hn, h1, h2]

theorem addRecords_sameTrimmed (rs1 rs2 : List BillRecord) (acc : Summary)
    (h : List.Forall₂ SameTrimmed rs1 rs2) : addRecords acc rs1 = addRecords acc rs2 := by
  induction h generalizing acc with
  | nil => rfl
  | cons hr _ ih =>
    simp only [addRecords, addRecord_sameTrimmed acc _ _ hr]
    cases addRecord acc _ with
    | error e => rfl
    | ok acc' => exact ih acc'

theorem aggregateLoop_sameTrimmed (M1 M2 : GoMap (List BillRecord)) (acc : Summary)
    (h : List.Forall₂ (fun e1 e2 => List.Forall₂ SameTrimmed e1.2 e2.2) M1 M2) :
    aggregateLoop acc M1 = aggregateLoop acc M2 := by
  induction M1 generalizing M2 acc with
  | nil =>
    rw [List.forall₂_nil_left_iff] at h
    rw [h]
  | cons e1 t1 ih =>
    cases M2 with
    | nil => cases h
    | cons e2 t2 =>
      rw [List.forall₂_cons] at h
      obtain ⟨d1, l1⟩ := e1
      obtain ⟨d2, l2⟩ := e2
      simp only [aggregateLoop, addRecords_sameTrimmed l1 l2 acc h.1]
      cases addRecords acc l2 with
      | error e => rfl
      | ok acc' => exact ih t2 acc' h.2

theorem splitAux_single_ne_nil (c : Char) (s cur : Str) : splitAux [c] 0 cur s ≠ [] := by
  induction s generalizing cur with
  | nil => simp [splitAux]
  | cons a t ih =>
    simp only [splitAux]
    split_ifs
    · exact List.cons_ne_nil _ _
    · exact ih _

theorem splitAux_single_not_mem (c : Char) (s cur : Str) (hcur : c ∉ cur) :
    ∀ seg ∈ splitAux [c] 0 cur s, c ∉ seg := by
  induction s generalizing cur with
  | nil =>
    intro seg hseg
    simp only [splitAux, List.mem_singleton] at hseg
    rw [hseg]; exact hcur
  | cons a t ih =>
    intro seg hseg
    simp only [splitAux, List.length_singleton, Nat.sub_self] at hseg
    split_ifs at hseg with h
    · rcases List.mem_cons.mp hseg with e | e
      · rw [e]; exact hcur
      · exact ih [] (by simp) seg e
    · have hne : ¬ c = a := by
        intro e
        apply h
        simp [List.isPrefixOf, e]
      exact ih (cur ++ [a]) (by simp [hcur, hne]) seg hseg

theorem splitAux_single_intercalate (c : Char) (s cur : Str) :
    List.intercalate [c] (splitAux [c] 0 cur s) = cur ++ s := by
  induction s generalizing cur with
  | nil => simp [splitAux, List.intercalate]
  | cons a t ih =>
    simp only [splitAux, List.length_singleton, Nat.sub_self]
    split_ifs with h
    · have hca : c = a := by
        simpa [List.isPrefixOf] using h
      have hne := splitAux_single_ne_nil c t []
      cases hs : splitAux [c] 0 [] t with
      | nil => exact absurd hs hne
      | cons x xs =>
        have := ih []
        rw [hs] at this
        simp only [List.intercalate, List.intersperse_cons_cons, List.flatten_cons,
          List.nil_append] at this ⊢
        rw [this, hca]
        simp
    · rw [ih]
      simp

theorem Split_single_ne_nil (c : Char) (s : Str) : Split s [c] ≠ [] :=
  splitAux_single_ne_nil c s []

theorem Split_single_not_mem (c : Char) (s : Str) : ∀ seg ∈ Split s [c], c ∉ seg :=
  splitAux_single_not_mem c s [] (by simp)

theorem Split_single_intercalate (c : Char) (s : Str) : List.intercalate [c] (Split s [c]) = s := by
  have := splitAux_single_intercalate c s []
  simpa [Split] using this

theorem readDateData_eq (L : List BillRecord) (line dataStr : Str) :
    readDateData L line dataStr =
      if headerLabel <:+: line ∨ separatorToken <:+: line then .ok L
      else
        match Split line fieldSep with
        | _ :: s1 :: s2 :: s3 :: s4 :: s5 :: _ =>
          .ok (L ++ [{ Category1 := s1, Category2 := s2, Tags := Split s3 tagSep, Number := s4,
                       Description := s5 }])
        | _ => .error .indexOutOfRange := by
  by_cases hsk : headerLabel <:+: line ∨ separatorToken <:+: line
  · rw [if_pos hsk]
    have : skipRow line = true := by
      simp only [skipRow, decide_eq_true_eq, Index_ne_neg_one_iff]; exact hsk
    exact readDateData_skipRow L line dataStr this
  · rw [if_neg hsk]
    have hskip : skipRow line = false := (skipRow_eq_false_iff line).mpr (not_or.mp hsk)
    by_cases hlen : 6 ≤ (Split line fieldSep).length
    · rw [readDateData_long L line dataStr hskip hlen]
      unfold rowRecord
      generalize Split line fieldSep = p at hlen
      match p, hlen with
      | x0 :: x1 :: x2 :: x3 :: x4 :: x5 :: rest, _ => rfl
    · rw [readDateData_short L line dataStr hskip (by omega)]
      generalize Split line fieldSep = p at hlen
      match p, hlen with
      | [], _ => rfl
      | [_], _ => rfl
      | [_, _], _ => rfl
      | [_, _, _], _ => rfl
      | [_, _, _, _], _ => rfl
      | [_, _, _, _, _], _ => rfl
      | _ :: _ :: _ :: _ :: _ :: _ :: _, h => simp only [List.length_cons] at h; omega

theorem not_mem_of_all_isSpace (s : Str) (h : s.all isSpace = true) : '、' ∉ s := by
  intro hm
  have := List.all_eq_true.mp h _ hm
  revert this
  decide

theorem readDateData_ok_append (L : List BillRecord) (line dataStr : Str) (r : BillRecord)
    (h : readDateData L line dataStr = .ok (L ++ [r])) :
    skipRow line = false ∧ 6 ≤ (Split line fieldSep).length ∧ r = rowRecord line := by
  cases hsk : skipRow line with
  | true =>
    rw [readDateData_skipRow L line dataStr hsk] at h
    have h1 : L = L ++ [r] := by injection h
    have h2 := congrArg List.length h1
    simp at h2
  | false =>
    by_cases hlen : 6 ≤ (Split line fieldSep).length
    · rw [readDateData_long L line dataStr hsk hlen] at h
      have h1 : L ++ [rowRecord line] = L ++ [r] := by injection h
      have h2 := List.append_cancel_left h1
      refine ⟨rfl, hlen, ?_⟩
      simpa using h2.symm
    · rw [readDateData_short L line dataStr hsk (by omega)] at h
      cases h

namespace F64

theorem floorLog2_spec (num den : Nat) (hn : 0 < num) (hd : 0 < den) :
    ∃ a b : Nat, floorLog2 num den = (a : Int) - b ∧ 2 ^ a * den ≤ num * 2 ^ b ∧
      num * 2 ^ b < 2 ^ (a + 1) * den := by
  unfold floorLog2
  by_cases h : den ≤ num
  · rw [if_pos h]
    have hq : 0 < num / den := Nat.div_pos h hd
    have h1 := two_pow_bitLen_le (num / den) hq
    have h2 := lt_two_pow_bitLen (num / den)
    have hb := bitLen_pos (num / den) hq
    refine ⟨bitLen (num / den) - 1, 0, by omega, ?_, ?_⟩
    · rw [pow_zero, mul_one]
      calc 2 ^ (bitLen (num / den) - 1) * den ≤ (num / den) * den := Nat.mul_le_mul_right _ h1
        _ ≤ num := Nat.div_mul_le_self _ _
    · rw [pow_zero, mul_one]
      have h3 : bitLen (num / den) - 1 + 1 = bitLen (num / den) := by omega
      rw [h3]
      have h4 : num < (num / den + 1) * den := by
        have := Nat.lt_div_mul_add (a := num) hd
        rw [Nat.add_mul, Nat.one_mul]; exact this
      calc num < (num / den + 1) * den := h4
        _ ≤ 2 ^ bitLen (num / den) * den := Nat.mul_le_mul_right _ h2
  · rw [if_neg h]
    have hlt : num < den := by omega
    have hq : 0 < (den - 1) / num := Nat.div_pos (by omega) hn
    have h1 := two_pow_bitLen_le ((den - 1) / num) hq
    have h2 := lt_two_pow_bitLen ((den - 1) / num)
    have hb := bitLen_pos ((den - 1) / num) hq
    refine ⟨0, bitLen ((den - 1) / num), by omega, ?_, ?_⟩
    · rw [pow_zero, one_mul]
      have h4 : den - 1 < ((den - 1) / num + 1) * num := by
        have := Nat.lt_div_mul_add (a := den - 1) hn
        rw [Nat.add_mul, Nat.one_mul]; exact this
      have h5 : ((den - 1) / num + 1) * num ≤ 2 ^ bitLen ((den - 1) / num) * num :=
        Nat.mul_le_mul_right _ h2
      rw [Nat.mul_comm num]
      omega
    · have h3 : 2 ^ bitLen ((den - 1) / num) = 2 * 2 ^ (bitLen ((den - 1) / num) - 1) := by
        rw [← Nat.pow_succ']; congr 1; omega
      have h4 : 2 ^ (bitLen ((den - 1) / num) - 1) * num ≤ den - 1 :=
        le_trans (Nat.mul_le_mul_right _ h1) (Nat.div_mul_le_self _ _)
      rw [h3]
      have : num * (2 * 2 ^ (bitLen ((den - 1) / num) - 1)) =
          2 * (2 ^ (bitLen ((den - 1) / num) - 1) * num) := by ring
      rw [this]
      simp only [zero_add, pow_one]
      omega

theorem floorLog2_bounds (num den : Nat) (hn : 0 < num) (hd : 0 < den) :
    (2 : ℚ) ^ floorLog2 num den * den ≤ num ∧ (num : ℚ) < (2 : ℚ) ^ (floorLog2 num den + 1) * den := by
  obtain ⟨a, b, hL, h1, h2⟩ := floorLog2_spec num den hn hd
  have h2ne : (2 : ℚ) ≠ 0 := by norm_num
  have hb : (0 : ℚ) < 2 ^ b := by positivity
  have h1q : (2 : ℚ) ^ a * den ≤ num * 2 ^ b := by exact_mod_cast h1
  have h2q : (num : ℚ) * 2 ^ b < 2 ^ (a + 1) * den := by exact_mod_cast h2
  rw [hL]
  constructor
  · rw [zpow_sub₀ h2ne, zpow_natCast, zpow_natCast, div_mul_eq_mul_div, div_le_iff₀ hb]
    exact h1q
  · have : ((a : Int) - b + 1) = ((a + 1 : Nat) : Int) - b := by push_cast; ring
    rw [this, zpow_sub₀ h2ne, zpow_natCast, zpow_natCast, div_mul_eq_mul_div, lt_div_iff₀ hb]
    exact h2q

theorem two_zpow_toNat (e : Int) (h : 0 ≤ e) : ((2 ^ e.toNat : Nat) : ℚ) = (2 : ℚ) ^ e := by
  have : (2 : ℚ) ^ e = (2 : ℚ) ^ ((e.toNat : Nat) : Int) := by rw [Int.toNat_of_nonneg h]
  rw [this, zpow_natCast]
  push_cast
  rfl

theorem roundRatio_quot_bounds (num den : Nat) (hn : 0 < num) (hd : 0 < den) (e : Int)
    (he : e = max (floorLog2 num den - 52) (-1074)) :
    (if 0 ≤ e then num else num * 2 ^ (-e).toNat) /
        (if 0 ≤ e then den * 2 ^ e.toNat else den) < 2 ^ 53 ∧
    (e ≠ -1074 → 2 ^ 52 ≤ (if 0 ≤ e then num else num * 2 ^ (-e).toNat) /
        (if 0 ≤ e then den * 2 ^ e.toNat else den)) := by
  obtain ⟨hlo, hhi⟩ := floorLog2_bounds num den hn hd
  have h2ne : (2 : ℚ) ≠ 0 := by norm_num
  have h12 : (1 : ℚ) ≤ 2 := by norm_num
  have hdq : (0 : ℚ) < den := by exact_mod_cast hd
  have hup : (2 : ℚ) ^ (floorLog2 num den + 1) ≤ 2 ^ (53 + e) :=
    zpow_le_zpow_right₀ h12 (by omega)
  have hdn : e ≠ -1074 → (2 : ℚ) ^ (52 + e) = 2 ^ floorLog2 num den := by
    intro hne
    congr 1
    omega
  have h53 : (2 : ℚ) ^ (53 + e) = 2 ^ 53 * 2 ^ e := by
    rw [zpow_add₀ h2ne]; norm_num
  have h52 : (2 : ℚ) ^ (52 + e) = 2 ^ 52 * 2 ^ e := by
    rw [zpow_add₀ h2ne]; norm_num
  by_cases h0 : 0 ≤ e
  · simp only [h0, if_true]
    have hE := two_zpow_toNat e h0
    have hpos : 0 < den * 2 ^ e.toNat := Nat.mul_pos hd (Nat.pow_pos (by decide))
    constructor
    · rw [Nat.div_lt_iff_lt_mul hpos]
      have : (num : ℚ) < 2 ^ 53 * ((den : ℚ) * ((2 ^ e.toNat : Nat) : ℚ)) := by
        rw [hE]
        calc (num : ℚ) < 2 ^ (floorLog2 num den + 1) * den := hhi
          _ ≤ 2 ^ (53 + e) * den := mul_le_mul_of_nonneg_right hup hdq.le
          _ = 2 ^ 53 * (den * 2 ^ e) := by rw [h53]; ring
      exact_mod_cast this
    · intro hne
      rw [Nat.le_div_iff_mul_le hpos]
      have : (2 : ℚ) ^ 52 * ((den : ℚ) * ((2 ^ e.toNat : Nat) : ℚ)) ≤ num := by
        rw [hE]
        calc (2 : ℚ) ^ 52 * (den * 2 ^ e) = 2 ^ (52 + e) * den := by rw [h52]; ring
          _ = 2 ^ floorLog2 num den * den := by rw [hdn hne]
          _ ≤ num := hlo
      exact_mod_cast this
  · simp only [h0, if_false]
    have hF : ((2 ^ (-e).toNat : Nat) : ℚ) = (2 : ℚ) ^ (-e) := two_zpow_toNat (-e) (by omega)
    have hinv : (2 : ℚ) ^ (-e) * 2 ^ e = 1 := by
      rw [← zpow_add₀ h2ne]; simp
    have hepos : (0 : ℚ) < 2 ^ (-e) := zpow_pos (by norm_num) _
    constructor
    · rw [Nat.div_lt_iff_lt_mul hd]
      have : (num : ℚ) * ((2 ^ (-e).toNat : Nat) : ℚ) < 2 ^ 53 * den := by
        rw [hF]
        calc (num : ℚ) * 2 ^ (-e) < (2 ^ (floorLog2 num den + 1) * den) * 2 ^ (-e) :=
              mul_lt_mul_of_pos_right hhi hepos
          _ ≤ ((2 : ℚ) ^ (53 + e) * (den : ℚ)) * (2 : ℚ) ^ (-e) :=
              mul_le_mul_of_nonneg_right (mul_le_mul_of_nonneg_right hup hdq.le) hepos.le
          _ = (2 : ℚ) ^ 53 * (den : ℚ) * ((2 : ℚ) ^ (-e) * (2 : ℚ) ^ e) := by rw [h53]; ring
          _ = (2 : ℚ) ^ 53 * (den : ℚ) := by rw [hinv, mul_one]
      exact_mod_cast this
    · intro hne
      rw [Nat.le_div_iff_mul_le hd]
      have : (2 : ℚ) ^ 52 * den ≤ (num : ℚ) * ((2 ^ (-e).toNat : Nat) : ℚ) := by
        rw [hF]
        calc (2 : ℚ) ^ 52 * (den : ℚ) = 2 ^ 52 * (den : ℚ) * ((2 : ℚ) ^ (-e) * (2 : ℚ) ^ e) := by
              rw [hinv, mul_one]
          _ = ((2 : ℚ) ^ (52 + e) * (den : ℚ)) * (2 : ℚ) ^ (-e) := by rw [h52]; ring
          _ = ((2 : ℚ) ^ floorLog2 num den * (den : ℚ)) * (2 : ℚ) ^ (-e) := by rw [hdn hne]
          _ ≤ (num : ℚ) * (2 : ℚ) ^ (-e) := mul_le_mul_of_nonneg_right hlo hepos.le
      exact_mod_cast this

theorem roundRatio_canonical (neg : Bool) (num den : Nat) (hd : 0 < den) :
    Canonical (roundRatio neg num den) := by
  by_cases hnum : num = 0
  · simp [roundRatio, hnum, Canonical]
  · obtain ⟨hq1, hq2⟩ := roundRatio_quot_bounds num den (Nat.pos_of_ne_zero hnum) hd _ rfl
    have hemin : -1074 ≤ max (floorLog2 num den - 52) (-1074) := le_max_right _ _
    unfold roundRatio
    rw [if_neg hnum]
    simp only []
    generalize max (floorLog2 num den - 52) (-1074) = e at hq1 hq2 hemin ⊢
    generalize hn : (if 0 ≤ e then num else num * 2 ^ (-e).toNat) = n at hq1 hq2 ⊢
    generalize hdd : (if 0 ≤ e then den * 2 ^ e.toNat else den) = d at hq1 hq2 ⊢
    generalize n / d = q at hq1 hq2 ⊢
    generalize n % d = r
    split_ifs <;> simp only [Canonical] <;> omega

theorem roundScaled_canonical (neg : Bool) (x : Nat) (k : Int) :
    Canonical (roundScaled neg x 2 k) := by
  unfold roundScaled
  split_ifs
  · exact roundRatio_canonical _ _ _ (by decide)
  · exact roundRatio_canonical _ _ _ (Nat.pow_pos (by decide))

theorem add_fin_eq (s1 s2 : Bool) (m1 m2 : Nat) (e1 e2 : Int) :
    add (fin s1 m1 e1) (fin s2 m2 e2) =
      if (if s1 then -1 else 1) * ((m1 * 2 ^ (e1 - min e1 e2).toNat : Nat) : Int) +
          (if s2 then -1 else 1) * ((m2 * 2 ^ (e2 - min e1 e2).toNat : Nat) : Int) = 0 then
        fin (s1 && s2) 0 (-1074)
      else roundScaled
        (decide ((if s1 then -1 else 1) * ((m1 * 2 ^ (e1 - min e1 e2).toNat : Nat) : Int) +
          (if s2 then -1 else 1) * ((m2 * 2 ^ (e2 - min e1 e2).toNat : Nat) : Int) < 0))
        ((if s1 then -1 else 1) * ((m1 * 2 ^ (e1 - min e1 e2).toNat : Nat) : Int) +
          (if s2 then -1 else 1) * ((m2 * 2 ^ (e2 - min e1 e2).toNat : Nat) : Int)).natAbs 2
        (min e1 e2) := rfl

theorem add_canonical (x y : F64) : Canonical (add x y) := by
  cases x with
  | nan => cases y <;> simp [add, Canonical]
  | inf a =>
    cases y with
    | nan => simp [add, Canonical]
    | inf b => simp only [add]; split_ifs <;> simp [Canonical]
    | fin _ _ _ => simp [add, Canonical]
  | fin s1 m1 e1 =>
    cases y with
    | nan => simp [add, Canonical]
    | inf b => simp [add, Canonical]
    | fin s2 m2 e2 =>
      rw [add_fin_eq]
      generalize (if s1 then (-1 : Int) else 1) * ((m1 * 2 ^ (e1 - min e1 e2).toNat : Nat) : Int) +
          (if s2 then -1 else 1) * ((m2 * 2 ^ (e2 - min e1 e2).toNat : Nat) : Int) = X
      by_cases hX : X = 0
      · rw [if_pos hX]; simp [Canonical]
      · rw [if_neg hX]; exact roundScaled_canonical _ _ _

theorem toRat_fin (s : Bool) (m : Nat) (e : Int) :
    toRat (fin s m e) = (if s then -1 else 1) * (m : ℚ) * (2 : ℚ) ^ e := rfl

theorem toRat_fin_scaled (s : Bool) (m : Nat) (e1 e : Int) (h : e ≤ e1) :
    toRat (fin s m e1) =
      (((if s then -1 else 1) * ((m * 2 ^ (e1 - e).toNat : Nat) : Int) : Int) : ℚ) * (2 : ℚ) ^ e := by
  have h2ne : (2 : ℚ) ≠ 0 := by norm_num
  have hp : ((2 ^ (e1 - e).toNat : Nat) : ℚ) = (2 : ℚ) ^ (e1 - e) := two_zpow_toNat _ (by omega)
  have he : (2 : ℚ) ^ e1 = (2 : ℚ) ^ (e1 - e) * 2 ^ e := by
    rw [← zpow_add₀ h2ne]; congr 1; omega
  rw [toRat_fin, he, ← hp]
  cases s
  · simp only [Bool.false_eq_true, if_false]
    push_cast
    ring
  · simp only [if_true]
    push_cast
    ring

/-- The sum of the values of two finite operands, over the integer that `add` rounds. -/
theorem toRat_add_operands (s1 s2 : Bool) (m1 m2 : Nat) (e1 e2 : Int) :
    toRat (fin s1 m1 e1) + toRat (fin s2 m2 e2) =
      (((if s1 then -1 else 1) * ((m1 * 2 ^ (e1 - min e1 e2).toNat : Nat) : Int) +
          (if s2 then -1 else 1) * ((m2 * 2 ^ (e2 - min e1 e2).toNat : Nat) : Int) : Int) : ℚ) *
        (2 : ℚ) ^ (min e1 e2) := by
  rw [toRat_fin_scaled s1 m1 e1 (min e1 e2) (min_le_left _ _),
    toRat_fin_scaled s2 m2 e2 (min e1 e2) (min_le_right _ _)]
  push_cast
  ring

theorem isFinite_iff (x : F64) : x.isFinite = true ↔ ∃ s m e, x = fin s m e := by
  cases x <;> simp [isFinite]

theorem toRat_eq_zero_iff (s : Bool) (m : Nat) (e : Int) : toRat (fin s m e) = 0 ↔ m = 0 := by
  have hp : (2 : ℚ) ^ e ≠ 0 := zpow_ne_zero _ (by norm_num)
  rw [toRat_fin]
  cases s <;> simp [hp]

theorem exactAdd_isNegZero (x y : F64) (h : ExactAdd x y) :
    isNegZero (add x y) = (isNegZero x && isNegZero y) := by
  obtain ⟨hx, hy, hr, hv⟩ := h
  obtain ⟨s1, m1, e1, rfl⟩ := (isFinite_iff x).mp hx
  obtain ⟨s2, m2, e2, rfl⟩ := (isFinite_iff y).mp hy
  have hpow1 : 0 < 2 ^ (e1 - min e1 e2).toNat := Nat.pow_pos (by decide)
  have hpow2 : 0 < 2 ^ (e2 - min e1 e2).toNat := Nat.pow_pos (by decide)
  rw [toRat_add_operands] at hv
  rw [add_fin_eq] at hv hr ⊢
  generalize hXd : (if s1 then (-1 : Int) else 1) * ((m1 * 2 ^ (e1 - min e1 e2).toNat : Nat) : Int) +
      (if s2 then -1 else 1) * ((m2 * 2 ^ (e2 - min e1 e2).toNat : Nat) : Int) = X at hv hr ⊢
  by_cases hX : X = 0
  · -- the sum is zero
    rw [if_pos hX]
    rw [hX] at hXd
    simp only [isNegZero, decide_True, Bool.and_true]
    cases s1
    · simp
    cases s2
    · simp
    simp only [if_true] at hXd
    have h1 : m1 * 2 ^ (e1 - min e1 e2).toNat = 0 := by omega
    have h2 : m2 * 2 ^ (e2 - min e1 e2).toNat = 0 := by omega
    have h1' : m1 = 0 := by
      rcases Nat.mul_eq_zero.mp h1 with h | h
      · exact h
      · omega
    have h2' : m2 = 0 := by
      rcases Nat.mul_eq_zero.mp h2 with h | h
      · exact h
      · omega
    simp [h1', h2']
  · -- the sum is not zero
    rw [if_neg hX] at hv hr ⊢
    have hne : (isNegZero (fin s1 m1 e1) && isNegZero (fin s2 m2 e2)) = false := by
      by_contra hc
      simp only [isNegZero, Bool.not_eq_false, Bool.and_eq_true, decide_eq_true_eq] at hc
      obtain ⟨⟨_, h1⟩, ⟨_, h2⟩⟩ := hc
      apply hX
      rw [← hXd, h1, h2]
      simp
    rw [hne]
    obtain ⟨s, m, e, hres⟩ := (isFinite_iff _).mp hr
    rw [hres] at hv ⊢
    have hnz : toRat (fin s m e) ≠ 0 := by
      rw [hv]
      apply mul_ne_zero
      · exact_mod_cast hX
      · exact zpow_ne_zero _ (by norm_num)
    have hm : m ≠ 0 := fun h0 => hnz ((toRat_eq_zero_iff s m e).mpr h0)
    simp [isNegZero, hm]

theorem toRat_pos_iff (s : Bool) (m : Nat) (e : Int) (hm : m ≠ 0) :
    0 < toRat (fin s m e) ↔ s = false := by
  have hp : (0 : ℚ) < (2 : ℚ) ^ e := zpow_pos (by norm_num) _
  have hmq : (0 : ℚ) < m := by exact_mod_cast Nat.pos_of_ne_zero hm
  rw [toRat_fin]
  cases s
  · simp only [Bool.false_eq_true, if_false, one_mul, iff_true]
    positivity
  · simp only [if_true, Bool.true_eq_false, iff_false, not_lt]
    have : (-1 : ℚ) * m * 2 ^ e = -(m * 2 ^ e) := by ring
    rw [this]
    have : (0 : ℚ) < m * 2 ^ e := by positivity
    linarith

theorem mantissa_eq_of_lt (m1 m2 : Nat) (e1 e2 : Int)
    (h : (m1 : ℚ) * (2 : ℚ) ^ e1 = (m2 : ℚ) * (2 : ℚ) ^ e2) (hlt : e1 < e2) :
    m1 = m2 * 2 ^ (e2 - e1).toNat := by
  have h2ne : (2 : ℚ) ≠ 0 := by norm_num
  have hp : ((2 ^ (e2 - e1).toNat : Nat) : ℚ) = (2 : ℚ) ^ (e2 - e1) := two_zpow_toNat _ (by omega)
  have he : (2 : ℚ) ^ e2 = (2 : ℚ) ^ (e2 - e1) * 2 ^ e1 := by
    rw [← zpow_add₀ h2ne]; congr 1; omega
  have hpos : (2 : ℚ) ^ e1 ≠ 0 := zpow_ne_zero _ h2ne
  rw [he, ← mul_assoc] at h
  have h' := mul_right_cancel₀ hpos h
  rw [← hp] at h'
  exact_mod_cast h'

/-- Two canonical finite values that stand for the same number and agree on being
the negative zero are the same value. -/
theorem eq_of_toRat_eq (x y : F64) (hx : Canonical x) (hy : Canonical y)
    (hfx : x.isFinite = true) (hfy : y.isFinite = true) (h : x.toRat = y.toRat)
    (hz : isNegZero x = isNegZero y) : x = y := by
  obtain ⟨s1, m1, e1, rfl⟩ := (isFinite_iff x).mp hfx
  obtain ⟨s2, m2, e2, rfl⟩ := (isFinite_iff y).mp hfy
  simp only [Canonical] at hx hy
  by_cases hm1 : m1 = 0
  · have hm2 : m2 = 0 := by
      rw [(toRat_eq_zero_iff s1 m1 e1).mpr hm1] at h
      exact (toRat_eq_zero_iff s2 m2 e2).mp h.symm
    subst hm1 hm2
    have he1 : e1 = -1074 := by omega
    have he2 : e2 = -1074 := by omega
    simp only [isNegZero, decide_True, Bool.and_true] at hz
    rw [he1, he2, hz]
  · have hm2 : m2 ≠ 0 := by
      intro h0
      rw [(toRat_eq_zero_iff s2 m2 e2).mpr h0] at h
      exact hm1 ((toRat_eq_zero_iff s1 m1 e1).mp h)
    have hs : s1 = s2 := by
      have h1 := toRat_pos_iff s1 m1 e1 hm1
      have h2 := toRat_pos_iff s2 m2 e2 hm2
      rw [h] at h1
      cases s1 <;> cases s2 <;> simp_all
    subst hs
    have hmag : (m1 : ℚ) * (2 : ℚ) ^ e1 = (m2 : ℚ) * (2 : ℚ) ^ e2 := by
      rw [toRat_fin, toRat_fin] at h
      cases s1
      · simpa using h
      · simp only [if_true] at h
        have : (-1 : ℚ) ≠ 0 := by norm_num
        rw [mul_assoc, mul_assoc] at h
        exact mul_left_cancel₀ this h
    rcases lt_trichotomy e1 e2 with hlt | heq | hgt
    · exfalso
      have := mantissa_eq_of_lt m1 m2 e1 e2 hmag hlt
      have hk : (e2 - e1).toNat = ((e2 - e1).toNat - 1) + 1 := by omega
      rw [hk, Nat.pow_succ] at this
      have hp : 0 < 2 ^ ((e2 - e1).toNat - 1) := Nat.pow_pos (by decide)
      have h52 : 2 ^ 52 ≤ m2 := by omega
      have : m2 * 2 ≤ m1 := by
        rw [this, ← Nat.mul_assoc, Nat.mul_right_comm]
        exact Nat.le_mul_of_pos_right _ hp
      omega
    · subst heq
      have hpos : (2 : ℚ) ^ e1 ≠ 0 := zpow_ne_zero _ (by norm_num)
      have := mul_right_cancel₀ hpos hmag
      have : m1 = m2 := by exact_mod_cast this
      rw [this]
    · exfalso
      have := mantissa_eq_of_lt m2 m1 e2 e1 hmag.symm hgt
      have hk : (e1 - e2).toNat = ((e1 - e2).toNat - 1) + 1 := by omega
      rw [hk, Nat.pow_succ] at this
      have hp : 0 < 2 ^ ((e1 - e2).toNat - 1) := Nat.pow_pos (by decide)
      have h52 : 2 ^ 52 ≤ m1 := by omega
      have : m1 * 2 ≤ m2 := by
        rw [this, ← Nat.mul_assoc, Nat.mul_right_comm]
        exact Nat.le_mul_of_pos_right _ hp
      omega

end F64

theorem toRat_zero : F64.zero.toRat = 0 := by simp [F64.zero, F64.toRat]

theorem sumFrom_cons (init v : F64) (vs : List F64) :
    sumFrom init (v :: vs) = sumFrom (F64.add init v) vs := rfl

theorem exactSum_toRat (init : F64) (vs : List F64) (h : ExactSum init vs) :
    (sumFrom init vs).toRat = init.toRat + (vs.map F64.toRat).sum := by
  induction vs generalizing init with
  | nil => simp [sumFrom]
  | cons v vs ih =>
    obtain ⟨h1, h2⟩ := h
    rw [sumFrom_cons, ih _ h2, h1.2.2.2, List.map_cons, List.sum_cons]
    ring

theorem exactSum_props (init : F64) (vs : List F64) (h : ExactSum init vs) (hne : vs ≠ []) :
    (sumFrom init vs).Canonical ∧ (sumFrom init vs).isFinite = true ∧
      (sumFrom init vs).isNegZero = (init.isNegZero && vs.all F64.isNegZero) := by
  induction vs generalizing init with
  | nil => exact absurd rfl hne
  | cons v vs ih =>
    obtain ⟨h1, h2⟩ := h
    rw [sumFrom_cons]
    by_cases hvs : vs = []
    · subst hvs
      refine ⟨F64.add_canonical _ _, h1.2.2.1, ?_⟩
      simp only [sumFrom, List.foldl_nil, List.all_cons, List.all_nil, Bool.and_true]
      exact F64.exactAdd_isNegZero _ _ h1
    · obtain ⟨ih1, ih2, ih3⟩ := ih _ h2 hvs
      refine ⟨ih1, ih2, ?_⟩
      rw [ih3, F64.exactAdd_isNegZero _ _ h1, List.all_cons, Bool.and_assoc]

/-- Two sums without rounding that stand for the same number are the same value. -/
theorem sumFrom_eq_of_exact (i1 i2 : F64) (vs ws : List F64) (h1 : ExactSum i1 vs)
    (h2 : ExactSum i2 ws) (hv : vs ≠ []) (hw : ws ≠ [])
    (hr : i1.toRat + (vs.map F64.toRat).sum = i2.toRat + (ws.map F64.toRat).sum)
    (hz : (i1.isNegZero && vs.all F64.isNegZero) = (i2.isNegZero && ws.all F64.isNegZero)) :
    sumFrom i1 vs = sumFrom i2 ws := by
  obtain ⟨a1, a2, a3⟩ := exactSum_props i1 vs h1 hv
  obtain ⟨b1, b2, b3⟩ := exactSum_props i2 ws h2 hw
  apply F64.eq_of_toRat_eq _ _ a1 b1 a2 b2
  · rw [exactSum_toRat _ _ h1, exactSum_toRat _ _ h2, hr]
  · rw [a3, b3, hz]

theorem sumFrom_zero_eq_of_exact (vs ws : List F64) (h1 : ExactSum F64.zero vs)
    (h2 : ExactSum F64.zero ws) (hr : (vs.map F64.toRat).sum = (ws.map F64.toRat).sum)
    (hnil : vs = [] ↔ ws = []) : sumFrom F64.zero vs = sumFrom F64.zero ws := by
  by_cases hv : vs = []
  · rw [hv, hnil.mp hv]
  · have hw : ws ≠ [] := fun e => hv (hnil.mpr e)
    apply sumFrom_eq_of_exact _ _ _ _ h1 h2 hv hw
    · rw [hr]
    · rfl

theorem perm_all_eq {α : Type} (p : α → Bool) (l1 l2 : List α) (h : l1.Perm l2) :
    l1.all p = l2.all p := by
  rw [Bool.eq_iff_iff, List.all_eq_true, List.all_eq_true]
  constructor
  · intro h' x hx; exact h' x (h.mem_iff.mpr hx)
  · intro h' x hx; exact h' x (h.mem_iff.mp hx)

/-- The bucket of the same amounts in another order, when no addition rounds. -/
theorem bucketSum_eq_of_exact (l1 l2 : List F64) (hp : l1.Perm l2) (h1 : ExactBucket l1)
    (h2 : ExactBucket l2) : bucketSum l1 = bucketSum l2 := by
  cases l1 with
  | nil => rw [hp.symm.eq_nil]
  | cons v vs =>
    cases l2 with
    | nil => exact absurd hp.eq_nil (List.cons_ne_nil _ _)
    | cons w ws =>
      have hlen := hp.length_eq
      simp only [List.length_cons, Nat.add_right_cancel_iff] at hlen
      simp only [bucketSum, Option.some.injEq]
      by_cases hvs : vs = []
      · subst hvs
        have hws : ws = [] := List.length_eq_zero.mp hlen.symm
        subst hws
        have := hp.mem_iff.mp (List.mem_singleton.mpr rfl)
        rw [List.mem_singleton] at this
        rw [this]
      · have hws : ws ≠ [] := by
          intro e
          rw [e] at hlen
          exact hvs (List.length_eq_zero.mp hlen)
        apply sumFrom_eq_of_exact v w vs ws h1 h2 hvs hws
        · have := (hp.map F64.toRat).sum_eq
          simpa using this
        · have := perm_all_eq F64.isNegZero _ _ hp
          simpa using this

theorem bucketSum_toRat (l : List F64) (h : ExactBucket l) (v : F64) (hv : bucketSum l = some v) :
    v.toRat = (l.map F64.toRat).sum := by
  cases l with
  | nil => cases hv
  | cons a as =>
    simp only [bucketSum, Option.some.injEq] at hv
    rw [← hv, exactSum_toRat a as h, List.map_cons, List.sum_cons]

theorem sum_indicator_rat (keys : List Str) (hnd : keys.Nodup) (k0 : Str) (hk : k0 ∈ keys)
    (a : ℚ) : (keys.map (fun k => if k0 = k then a else 0)).sum = a := by
  induction keys with
  | nil => cases hk
  | cons k ks ih =>
    simp only [List.nodup_cons] at hnd
    simp only [List.map_cons, List.sum_cons]
    by_cases h : k0 = k
    · subst h
      have hz : (ks.map (fun k => if k0 = k then a else 0)).sum = 0 := by
        apply List.sum_eq_zero
        intro x hx
        simp only [List.mem_map] at hx
        obtain ⟨k', hk', rfl⟩ := hx
        have : ¬ k0 = k' := fun e => hnd.1 (e ▸ hk')
        simp [this]
      simp [hz]
    · have hk' : k0 ∈ ks := by
        rcases List.mem_cons.mp hk with h' | h'
        · exact absurd h' h
        · exact h'
      simp [h, ih hnd.2 hk']

theorem sum_buckets_rat (keys : List Str) (hnd : keys.Nodup) (label : Str) (rs : List BillRecord)
    (amt : BillRecord → ℚ)
    (hcov : ∀ r ∈ rs, TrimSpace r.Category1 = label → TrimSpace r.Category2 ∈ keys) :
    (keys.map (fun k => ((rs.filter
      (fun r => TrimSpace r.Category1 = label ∧ TrimSpace r.Category2 = k)).map amt).sum)).sum =
    ((rs.filter (fun r => TrimSpace r.Category1 = label)).map amt).sum := by
  induction rs with
  | nil => simp
  | cons r rs ih =>
    have ih' := ih (fun r' hr' => hcov r' (List.mem_cons_of_mem _ hr'))
    by_cases hp : TrimSpace r.Category1 = label
    · have hk := hcov r (List.mem_cons_self _ _) hp
      have hfun : (fun k => ((List.filter
          (fun r => decide (TrimSpace r.Category1 = label ∧ TrimSpace r.Category2 = k))
          (r :: rs)).map amt).sum) =
          (fun k => (if TrimSpace r.Category2 = k then amt r else 0) +
            ((List.filter
              (fun r => decide (TrimSpace r.Category1 = label ∧ TrimSpace r.Category2 = k))
              rs).map amt).sum) := by
        funext k
        by_cases hk2 : TrimSpace r.Category2 = k <;> simp [List.filter_cons, hp, hk2]
      rw [hfun, List.sum_map_add, ih', sum_indicator_rat keys hnd _ hk]
      simp [List.filter_cons, hp]
    · have hfun : (fun k => ((List.filter
          (fun r => decide (TrimSpace r.Category1 = label ∧ TrimSpace r.Category2 = k))
          (r :: rs)).map amt).sum) =
          (fun k => ((List.filter
              (fun r => decide (TrimSpace r.Category1 = label ∧ TrimSpace r.Category2 = k))
              rs).map amt).sum) := by
        funext k
        simp [List.filter_cons, hp]
      rw [hfun, ih']
      simp [List.filter_cons, hp]

theorem sum_toRat_filterMap (l : List BillRecord) :
    ((l.filterMap amountOf).map F64.toRat).sum = (l.map amountRat).sum := by
  induction l with
  | nil => rfl
  | cons r rs ih =>
    cases hr : amountOf r with
    | none =>
      rw [List.filterMap_cons_none hr, ih, List.map_cons, List.sum_cons]
      simp [amountRat, hr]
    | some v =>
      rw [List.filterMap_cons_some hr, List.map_cons, List.sum_cons, ih, List.map_cons,
        List.sum_cons]
      simp [amountRat, hr]

/-- The additions to every bucket are exact when those to the buckets of the
records are. -/
theorem noRounding_bucket (label : Str) (rs : List BillRecord) (h : NoRounding label rs)
    (k : Str) : ExactBucket (amountsOfBucket label k rs) := by
  cases hb : amountsOfBucket label k rs with
  | nil => trivial
  | cons v vs =>
    have hv : v ∈ amountsOfBucket label k rs := by rw [hb]; exact List.mem_cons_self _ _
    simp only [amountsOfBucket, List.mem_filterMap, List.mem_filter, decide_eq_true_eq] at hv
    obtain ⟨r, ⟨hr, _, hk⟩, _⟩ := hv
    have := h.2 r hr
    rw [hk, hb] at this
    exact this

theorem amountsOfLabel_eq_nil_iff (label : Str) (rs : List BillRecord)
    (hall : ∀ r ∈ rs, (amountOf r).isSome) :
    amountsOfLabel label rs = [] ↔ ∀ r ∈ rs, TrimSpace r.Category1 ≠ label := by
  rw [amountsOfLabel, List.filterMap_eq_nil_iff]
  constructor
  · intro h r hr hc
    have hmem : r ∈ rs.filter (fun r => TrimSpace r.Category1 = label) := by
      simp [List.mem_filter, hr, hc]
    have hs := hall r hr
    rw [h r hmem] at hs
    cases hs
  · intro h r hr
    simp only [List.mem_filter, decide_eq_true_eq] at hr
    exact absurd hr.2 (h r hr.1)

/-- Additivity for one primary category when no addition rounds. -/
theorem bucket_total_exact (label : Str) (rs : List BillRecord) (m : GoMap F64) (total : F64)
    (hall : ∀ r ∈ rs, (amountOf r).isSome)
    (hnd : (m.map Prod.fst).Nodup)
    (hget : ∀ k, mapGet m k = (amountsOfBucket label k rs).foldl bucketStep none)
    (htotal : total = sumFrom F64.zero (amountsOfLabel label rs))
    (hex : NoRounding label rs) :
    (m.map (fun p => p.2.toRat)).sum = total.toRat ∧
    ∀ vs, vs.Perm (m.map Prod.snd) → ExactSum F64.zero vs → sumFrom F64.zero vs = total := by
  have hkeys := bucket_keys label rs m hall hget
  -- the total stands for the sum of the amounts of the label
  have htot : total.toRat =
      ((rs.filter (fun r => TrimSpace r.Category1 = label)).map amountRat).sum := by
    rw [htotal, exactSum_toRat _ _ hex.1, toRat_zero, zero_add, amountsOfLabel,
      sum_toRat_filterMap]
  -- each value of the map stands for the sum of the amounts of its bucket
  have hvals : m.map (fun p => p.2.toRat) = (m.map Prod.fst).map (fun k => ((rs.filter
      (fun r => TrimSpace r.Category1 = label ∧ TrimSpace r.Category2 = k)).map amountRat).sum) := by
    rw [List.map_map]
    apply List.map_congr_left
    intro p hp
    obtain ⟨k, v⟩ := p
    have h1 := mapGet_of_mem m hnd k v hp
    rw [hget k, foldl_bucketStep_none] at h1
    have := bucketSum_toRat _ (noRounding_bucket label rs hex k) v h1
    simp only [Function.comp_apply]
    rw [this, amountsOfBucket, sum_toRat_filterMap]
  have hsum : (m.map (fun p => p.2.toRat)).sum = total.toRat := by
    rw [hvals, htot]
    exact sum_buckets_rat _ hnd label rs amountRat
      (fun r hr hc => (hkeys _).mpr ⟨r, hr, hc, rfl⟩)
  refine ⟨hsum, ?_⟩
  intro vs hvs hexvs
  rw [htotal]
  apply sumFrom_zero_eq_of_exact vs _ hexvs hex.1
  · have h1 := exactSum_toRat _ _ hex.1
    rw [toRat_zero, zero_add, ← htotal] at h1
    rw [← h1, ← hsum, (hvs.map F64.toRat).sum_eq, List.map_map]
    rfl
  · rw [amountsOfLabel_eq_nil_iff label rs hall]
    constructor
    · intro hv r hr hc
      have hm : m = [] := by
        rw [hv] at hvs
        simpa using hvs.symm.eq_nil
      have := (hkeys (TrimSpace r.Category2)).mpr ⟨r, hr, hc, rfl⟩
      rw [hm] at this
      cases this
    · intro hno
      have hm : m = [] := by
        cases m with
        | nil => rfl
        | cons p t =>
          exfalso
          obtain ⟨r, hr, hc, _⟩ := (hkeys p.1).mp (List.mem_cons_self _ _)
          exact hno r hr hc
      rw [hm] at hvs
      simpa using hvs.eq_nil

theorem perm_amountsOfLabel (label : Str) (rs1 rs2 : List BillRecord) (h : rs1.Perm rs2) :
    (amountsOfLabel label rs1).Perm (amountsOfLabel label rs2) :=
  (h.filter _).filterMap _

theorem perm_amountsOfBucket (label k : Str) (rs1 rs2 : List BillRecord) (h : rs1.Perm rs2) :
    (amountsOfBucket label k rs1).Perm (amountsOfBucket label k rs2) :=
  (h.filter _).filterMap _

theorem total_eq_of_exact (label : Str) (rs1 rs2 : List BillRecord) (h : rs1.Perm rs2)
    (h1 : ExactSum F64.zero (amountsOfLabel label rs1))
    (h2 : ExactSum F64.zero (amountsOfLabel label rs2)) :
    sumFrom F64.zero (amountsOfLabel label rs1) = sumFrom F64.zero (amountsOfLabel label rs2) := by
  have hp := perm_amountsOfLabel label rs1 rs2 h
  apply sumFrom_zero_eq_of_exact _ _ h1 h2 (hp.map F64.toRat).sum_eq
  constructor
  · intro e; rw [e] at hp; exact hp.symm.eq_nil
  · intro e; rw [e] at hp; exact hp.eq_nil

theorem TrimSpace_ne_tag (l : Str) : TrimSpace l ≠ dateSectionTag ++ [] := by
  intro h
  have h1 := TrimSpace_idem l
  rw [h] at h1
  revert h1
  decide

theorem sectionRows_cons_stop (l : Str) (ls : List Str)
    (h : dateSectionTag <+: TrimSpace l ∨ endMarker <+: TrimSpace l) :
    sectionRows (l :: ls) = [] := by
  have : decide (¬ dateSectionTag <+: TrimSpace l ∧ ¬ endMarker <+: TrimSpace l) = false := by
    rw [decide_eq_false_iff_not]; tauto
  simp only [sectionRows, List.takeWhile_cons, this]
  rfl

theorem sectionRows_cons_drop (l : Str) (ls : List Str)
    (h1 : ¬ dateSectionTag <+: TrimSpace l) (h2 : ¬ endMarker <+: TrimSpace l)
    (h : TrimSpace l = [] ∨ startMarker <+: TrimSpace l) :
    sectionRows (l :: ls) = sectionRows ls := by
  have hc : decide (¬ dateSectionTag <+: TrimSpace l ∧ ¬ endMarker <+: TrimSpace l) = true := by
    rw [decide_eq_true_iff]; exact ⟨h1, h2⟩
  have hk : decide (TrimSpace l ≠ [] ∧ ¬ startMarker <+: TrimSpace l) = false := by
    rw [decide_eq_false_iff_not]; tauto
  simp only [sectionRows, List.takeWhile_cons, hc, if_true, List.map_cons, List.filter_cons, hk,
    Bool.false_eq_true, if_false]

theorem sectionRows_cons_row (l : Str) (ls : List Str)
    (h1 : ¬ dateSectionTag <+: TrimSpace l) (h2 : ¬ endMarker <+: TrimSpace l)
    (h3 : TrimSpace l ≠ []) (h4 : ¬ startMarker <+: TrimSpace l) :
    sectionRows (l :: ls) = TrimSpace l :: sectionRows ls := by
  have hc : decide (¬ dateSectionTag <+: TrimSpace l ∧ ¬ endMarker <+: TrimSpace l) = true := by
    rw [decide_eq_true_iff]; exact ⟨h1, h2⟩
  have hk : decide (TrimSpace l ≠ [] ∧ ¬ startMarker <+: TrimSpace l) = true := by
    rw [decide_eq_true_iff]; exact ⟨h3, h4⟩
  simp only [sectionRows, List.takeWhile_cons, hc, if_true, List.map_cons, List.filter_cons, hk]

/-- A label without a sequence gets one with the first row read under it: the
records of the rows up to the next header line or end marker. -/
theorem parseLoop_section_none (L : Str) (post : List Str) (st0 final : ParseState)
    (h1 : st0.readDataStatus = 1) (hds : st0.dateStr = L)
    (hnone : mapGet st0.dateMap L = none)
    (hno : ∀ l ∈ post, TrimSpace l ≠ dateSectionTag ++ L)
    (h : parseLoop st0 post = .ok final) :
    mapGet final.dateMap L =
      if sectionRows post = [] then none else some (sectionRecords post) := by
  induction post generalizing st0 with
  | nil =>
    simp only [parseLoop] at h
    cases h
    rw [hnone]
    rfl
  | cons l ls ih =>
    have hl := hno l (List.mem_cons_self _ _)
    have hls := fun l' hl' => hno l' (List.mem_cons_of_mem l hl')
    by_cases he : endMarker <+: TrimSpace l
    · simp only [parseLoop, processLine_end st0 l he] at h
      cases h
      rw [sectionRows_cons_stop l ls (Or.inr he), if_pos rfl]
      exact hnone
    by_cases hd : dateSectionTag <+: TrimSpace l
    · rw [parseLoop_cons_next _ _ _ _ (processLine_header_label st0 l h1 hd)] at h
      have hne : dateLabelOf l ≠ L := fun e => hl ((dateLabelOf_eq l L hd).mp e)
      rw [parseLoop_frame L ls _ final hne hls h, sectionRows_cons_stop l ls (Or.inl hd),
        if_pos rfl]
      simp only [mapGet_mapSet]
      rw [if_neg hne]
      exact hnone
    by_cases hb : TrimSpace l = []
    · rw [parseLoop_cons_next _ _ _ _ (processLine_blank st0 l hb)] at h
      rw [sectionRows_cons_drop l ls hd he (Or.inl hb),
        sectionRecords_cons_drop l ls hd he (Or.inl hb)]
      exact ih st0 h1 hds hnone hls h
    by_cases hs : startMarker <+: TrimSpace l
    · rw [parseLoop_cons_next _ _ _ _ (processLine_start st0 l hs)] at h
      rw [sectionRows_cons_drop l ls hd he (Or.inr hs),
        sectionRecords_cons_drop l ls hd he (Or.inr (Or.inl hs))]
      exact ih { st0 with readDataStatus := 1 } rfl hds hnone hls h
    have hget : (mapGet st0.dateMap st0.dateStr).getD [] = [] := by rw [hds, hnone]; rfl
    rw [sectionRows_cons_row l ls hd he hb hs, if_neg (List.cons_ne_nil _ _)]
    cases hsk : skipRow (TrimSpace l) with
    | true =>
      have hp : processLine st0 l =
          .ok (.next { st0 with dateMap := mapSet st0.dateMap st0.dateStr [] }) := by
        rw [processLine_row st0 l h1 hb hs he hd, hget, readDateData_skipRow _ _ _ hsk]
      rw [parseLoop_cons_next _ _ _ _ hp] at h
      rw [sectionRecords_cons_drop l ls hd he (Or.inr (Or.inr hsk))]
      have := parseLoop_section L ls { st0 with dateMap := mapSet st0.dateMap st0.dateStr [] }
        final [] h1 hds (by simp only [mapGet_mapSet, hds, if_true]) hls h
      rw [this, List.nil_append]
    | false =>
      by_cases hlen : 6 ≤ (Split (TrimSpace l) fieldSep).length
      · have hp : processLine st0 l =
            .ok (.next { st0 with dateMap := mapSet st0.dateMap st0.dateStr
                                    ([] ++ [rowRecord (TrimSpace l)]) }) := by
          rw [processLine_row st0 l h1 hb hs he hd, hget, readDateData_long _ _ _ hsk hlen]
        rw [parseLoop_cons_next _ _ _ _ hp] at h
        rw [sectionRecords_cons_row l ls hd he hb hs hsk]
        have := parseLoop_section L ls
          { st0 with dateMap := mapSet st0.dateMap st0.dateStr ([] ++ [rowRecord (TrimSpace l)]) }
          final ([] ++ [rowRecord (TrimSpace l)]) h1 hds
          (by simp only [mapGet_mapSet, hds, if_true]) hls h
        rw [this]
        simp
      · exfalso
        simp only [parseLoop, processLine_row st0 l h1 hb hs he hd, hget,
          readDateData_short _ _ _ hsk (by omega)] at h
        cases h

/-- The sequence under the empty label after a successful parse: the records
of the rows between the first start marker and the first date header. -/
theorem parse_headless_section (pre post : List Str) (s : Str) (m : GoMap (List BillRecord))
    (h : parse (pre ++ s :: post) = .ok m)
    (hpre : ∀ l ∈ pre, ¬ startMarker <+: TrimSpace l ∧ ¬ endMarker <+: TrimSpace l)
    (hs : startMarker <+: TrimSpace s) :
    mapGet m [] = if sectionRows post = [] then none else some (sectionRecords post) := by
  obtain ⟨st, hst, rfl⟩ := (parse_ok_iff _ m).mp h
  rw [parseLoop_outside_no_end pre (s :: post) initState rfl hpre,
    parseLoop_cons_next _ _ _ _ (processLine_start initState s hs)] at hst
  exact parseLoop_section_none [] post { initState with readDataStatus := 1 } st rfl rfl rfl
    (fun l _ => TrimSpace_ne_tag l) hst

/-! ## The claims -/

/-- Claim C1 (aggregator functional correctness).  When the trimmed amount of
every record parses, the aggregation succeeds and: the keys of `outMap` are
exactly the trimmed secondary categories of the records whose trimmed primary
category is "支出", without repetition; each key holds the float64 sum, in
visiting order, of the amounts of the records of that category; `totalOut` is
the float64 sum, in visiting order from `0`, of the amounts of all records of
primary category "支出"; and the same holds for "收入", `inMap` and `totalIn`. -/
theorem aggregate_correct (dateMap : GoMap (List BillRecord))
    (h : ∀ e ∈ dateMap, ∀ r ∈ e.2, (ParseFloat (TrimSpace r.Number)).isSome) :
    ∃ res, aggregate dateMap = .ok res ∧
      (∀ k, k ∈ res.outMap.map Prod.fst ↔
        ∃ r ∈ allRecords dateMap, TrimSpace r.Category1 = expenseLabel ∧ TrimSpace r.Category2 = k) ∧
      (res.outMap.map Prod.fst).Nodup ∧
      (∀ k, mapGet res.outMap k = bucketSum (amountsOfBucket expenseLabel k (allRecords dateMap))) ∧
      res.totalOut = sumFrom F64.zero (amountsOfLabel expenseLabel (allRecords dateMap)) ∧
      (∀ k, k ∈ res.inMap.map Prod.fst ↔
        ∃ r ∈ allRecords dateMap, TrimSpace r.Category1 = incomeLabel ∧ TrimSpace r.Category2 = k) ∧
      (res.inMap.map Prod.fst).Nodup ∧
      (∀ k, mapGet res.inMap k = bucketSum (amountsOfBucket incomeLabel k (allRecords dateMap))) ∧
      res.totalIn = sumFrom F64.zero (amountsOfLabel incomeLabel (allRecords dateMap)) := by
  have hall : ∀ r ∈ allRecords dateMap, (amountOf r).isSome := by
    intro r hr
    simp only [allRecords, List.mem_flatten, List.mem_map] at hr
    obtain ⟨l, ⟨e, he, hl⟩, hrl⟩ := hr
    subst hl
    exact h e he r hrl
  obtain ⟨res, hres, hacc⟩ := addRecords_ok (allRecords dateMap) initSummary hall
  have hkey : ∀ (label k : Str) (m : GoMap F64),
      mapGet m k = bucketSum (amountsOfBucket label k (allRecords dateMap)) →
      (k ∈ m.map Prod.fst ↔ ∃ r ∈ allRecords dateMap,
        TrimSpace r.Category1 = label ∧ TrimSpace r.Category2 = k) := by
    intro label k m hm
    rw [← not_iff_not, ← mapGet_eq_none_iff, hm]
    have hb : ∀ vs : List F64, bucketSum vs = none ↔ vs = [] := by
      intro vs; cases vs <;> simp [bucketSum]
    rw [hb, amountsOfBucket, List.filterMap_eq_nil_iff]
    constructor
    · rintro hnone ⟨r, hr, h1, h2⟩
      have hmem : r ∈ (allRecords dateMap).filter
          (fun r => TrimSpace r.Category1 = label ∧ TrimSpace r.Category2 = k) := by
        simp [List.mem_filter, hr, h1, h2]
      have := hnone r hmem
      have hs := hall r hr
      rw [this] at hs
      cases hs
    · intro hno r hr
      exfalso
      simp only [List.mem_filter, decide_eq_true_eq] at hr
      exact hno ⟨r, hr.1, hr.2⟩
  have hout : ∀ k, mapGet res.outMap k =
      bucketSum (amountsOfBucket expenseLabel k (allRecords dateMap)) := by
    intro k; rw [hacc.outMap k]; exact foldl_bucketStep_none _
  have hin : ∀ k, mapGet res.inMap k =
      bucketSum (amountsOfBucket incomeLabel k (allRecords dateMap)) := by
    intro k; rw [hacc.inMap k]; exact foldl_bucketStep_none _
  refine ⟨res, ?_, fun k => hkey _ k _ (hout k), hacc.outKeys List.nodup_nil, hout, hacc.totalOut,
    fun k => hkey _ k _ (hin k), hacc.inKeys List.nodup_nil, hin, hacc.totalIn⟩
  rw [aggregate, aggregateLoop_eq]
  exact hres

/-- Claim C1 at the date map of the sample ledger. -/
theorem aggregate_correct_witness :
    ∃ res, aggregate sampleMap = .ok res ∧
      (∀ k, k ∈ res.outMap.map Prod.fst ↔
        ∃ r ∈ allRecords sampleMap, TrimSpace r.Category1 = expenseLabel ∧ TrimSpace r.Category2 = k) ∧
      (res.outMap.map Prod.fst).Nodup ∧
      (∀ k, mapGet res.outMap k = bucketSum (amountsOfBucket expenseLabel k (allRecords sampleMap))) ∧
      res.totalOut = sumFrom F64.zero (amountsOfLabel expenseLabel (allRecords sampleMap)) ∧
      (∀ k, k ∈ res.inMap.map Prod.fst ↔
        ∃ r ∈ allRecords sampleMap, TrimSpace r.Category1 = incomeLabel ∧ TrimSpace r.Category2 = k) ∧
      (res.inMap.map Prod.fst).Nodup ∧
      (∀ k, mapGet res.inMap k = bucketSum (amountsOfBucket incomeLabel k (allRecords sampleMap))) ∧
      res.totalIn = sumFrom F64.zero (amountsOfLabel incomeLabel (allRecords sampleMap)) :=
  aggregate_correct sampleMap (by decide)

/-- Claim C2 fails as stated: for the expenses 0.1 (food), 0.2 (bus) and 0.4
(food) the program computes the total 0.7000000000000001 and the buckets 0.5 and
0.2.  The float64 sum of the two buckets, in either order, is 0.7 and not the
total; the sum of the two numbers that the buckets stand for is not the number
that the total stands for; and an addition of this run rounds. -/
theorem additivity_fails_by_rounding :
    aggregate roundingMap = .ok roundingSummary ∧
    (∀ vs, vs.Perm (roundingSummary.outMap.map Prod.snd) →
      sumFrom F64.zero vs ≠ roundingSummary.totalOut) ∧
    (roundingSummary.outMap.map (fun p => p.2.toRat)).sum ≠ roundingSummary.totalOut.toRat ∧
    ¬ NoRounding expenseLabel (allRecords roundingMap) := by
  refine ⟨by decide!, ?_, by decide!, by decide!⟩
  intro vs hvs
  have hlen := hvs.length_eq
  have hmem := fun v => hvs.mem_iff (a := v)
  match vs, hlen with
  | [a, b], _ =>
    have ha := (hmem a).mp (by simp)
    have hb := (hmem b).mp (by simp)
    have hc := hvs.nodup_iff.mpr (by decide)
    simp only [roundingSummary, List.map_cons, List.map_nil, List.mem_cons, List.mem_singleton,
      List.not_mem_nil, or_false] at ha hb
    rcases ha with rfl | rfl <;> rcases hb with rfl | rfl
    · simp at hc
    · decide!
    · decide!
    · simp at hc

/-- Claim C2, amended (additivity when no addition rounds).  For every date
map on which the aggregation succeeds, and for each of the two primary
categories: when none of the float64 additions that the aggregation performs for
the category rounds, that is, the operands and the result of each are numbers
and the result stands for the exact sum, then the numbers that the values of the
category map stand for add up to the number that the category total stands for;
and the values added as float64 from `0`, in any order in which again no
addition rounds, give the category total itself. -/
theorem additivity_without_rounding (dateMap : GoMap (List BillRecord)) (res : Summary)
    (h : aggregate dateMap = .ok res) :
    (NoRounding expenseLabel (allRecords dateMap) →
      (res.outMap.map (fun p => p.2.toRat)).sum = res.totalOut.toRat ∧
      ∀ vs, vs.Perm (res.outMap.map Prod.snd) → ExactSum F64.zero vs →
        sumFrom F64.zero vs = res.totalOut) ∧
    (NoRounding incomeLabel (allRecords dateMap) →
      (res.inMap.map (fun p => p.2.toRat)).sum = res.totalIn.toRat ∧
      ∀ vs, vs.Perm (res.inMap.map Prod.snd) → ExactSum F64.zero vs →
        sumFrom F64.zero vs = res.totalIn) := by
  obtain ⟨hall, hacc⟩ := aggregate_ok_accumulated dateMap res h
  constructor
  · intro hex
    exact bucket_total_exact expenseLabel (allRecords dateMap) res.outMap res.totalOut hall
      (hacc.outKeys List.nodup_nil) hacc.outMap hacc.totalOut hex
  · intro hex
    exact bucket_total_exact incomeLabel (allRecords dateMap) res.inMap res.totalIn hall
      (hacc.inKeys List.nodup_nil) hacc.inMap hacc.totalIn hex

/-- Claim C2, amended, at a date map with the expenses 15.50, -5, 3 and 0.25
in two buckets and the income 3000.00: no addition rounds, the expense buckets
18.5 and -4.75 add up to the expense total 13.75, and the income bucket is the
income total. -/
theorem additivity_without_rounding_witness :
    aggregate exactMap = .ok exactSummary ∧
    NoRounding expenseLabel (allRecords exactMap) ∧
    NoRounding incomeLabel (allRecords exactMap) ∧
    ExactSum F64.zero (exactSummary.outMap.map Prod.snd) ∧
    ((exactSummary.outMap.map (fun p => p.2.toRat)).sum = exactSummary.totalOut.toRat ∧
      ∀ vs, vs.Perm (exactSummary.outMap.map Prod.snd) → ExactSum F64.zero vs →
        sumFrom F64.zero vs = exactSummary.totalOut) ∧
    ((exactSummary.inMap.map (fun p => p.2.toRat)).sum = exactSummary.totalIn.toRat ∧
      ∀ vs, vs.Perm (exactSummary.inMap.map Prod.snd) → ExactSum F64.zero vs →
        sumFrom F64.zero vs = exactSummary.totalIn) :=
  ⟨by decide!, by decide!, by decide!, by decide!,
    (additivity_without_rounding exactMap exactSummary (by decide!)).1 (by decide!),
    (additivity_without_rounding exactMap exactSummary (by decide!)).2 (by decide!)⟩

/-- Claim C3 (row parser functional correctness).  For a row
`|a|b|c|d|e|` whose five fields hold no `|` and which holds neither skip token,
`readDateData` returns the record list with one record appended, of primary
category `a`, secondary category `b`, tags `c` split on "、", amount `d` and
description `e`, whatever the date label is. -/
theorem readDateData_row (L : List BillRecord) (a b c d e dataStr : Str)
    (ha : '|' ∉ a) (hb : '|' ∉ b) (hc : '|' ∉ c) (hd : '|' ∉ d) (he : '|' ∉ e)
    (h1 : ¬ headerLabel <:+:
      fieldSep ++ a ++ fieldSep ++ b ++ fieldSep ++ c ++ fieldSep ++ d ++ fieldSep ++ e ++ fieldSep)
    (h2 : ¬ separatorToken <:+:
      fieldSep ++ a ++ fieldSep ++ b ++ fieldSep ++ c ++ fieldSep ++ d ++ fieldSep ++ e ++ fieldSep) :
    readDateData L
      (fieldSep ++ a ++ fieldSep ++ b ++ fieldSep ++ c ++ fieldSep ++ d ++ fieldSep ++ e ++ fieldSep)
      dataStr =
    .ok (L ++ [{ Category1 := a, Category2 := b, Tags := Split c tagSep, Number := d,
                 Description := e }]) := by
  have hsplit : Split
      (fieldSep ++ a ++ fieldSep ++ b ++ fieldSep ++ c ++ fieldSep ++ d ++ fieldSep ++ e ++ fieldSep)
      fieldSep = [[], a, b, c, d, e, []] := by
    have hf : fieldSep = ['|'] := rfl
    rw [hf]
    have : (['|'] ++ a ++ ['|'] ++ b ++ ['|'] ++ c ++ ['|'] ++ d ++ ['|'] ++ e ++ ['|'] : Str) =
        [] ++ '|' :: (a ++ '|' :: (b ++ '|' :: (c ++ '|' :: (d ++ '|' :: (e ++ '|' :: []))))) := by
      simp
    rw [this, Split_append_sep _ _ _ (by simp), Split_append_sep _ _ _ ha,
      Split_append_sep _ _ _ hb, Split_append_sep _ _ _ hc, Split_append_sep _ _ _ hd,
      Split_append_sep _ _ _ he, Split_of_not_mem _ _ (by simp)]
  generalize
    fieldSep ++ a ++ fieldSep ++ b ++ fieldSep ++ c ++ fieldSep ++ d ++ fieldSep ++ e ++ fieldSep
      = row at h1 h2 hsplit
  have h' : ¬ (Index row headerLabel ≠ -1 ∨ Index row separatorToken ≠ -1) := by
    rw [Index_ne_neg_one_iff, Index_ne_neg_one_iff]; tauto
  unfold readDateData
  rw [if_neg h']
  simp only [hsplit, elemAt]
  rfl

/-- Claim C3 at the row `| 支出 | food | a、b | 15.50 | lunch |`. -/
theorem readDateData_row_witness :
    readDateData [sampleIncome]
      (fieldSep ++ " 支出 ".toList ++ fieldSep ++ " food ".toList ++ fieldSep ++ " a、b ".toList ++
        fieldSep ++ " 15.50 ".toList ++ fieldSep ++ " lunch ".toList ++ fieldSep) sampleLabel =
    .ok ([sampleIncome] ++ [{ Category1 := " 支出 ".toList, Category2 := " food ".toList,
                              Tags := Split " a、b ".toList tagSep, Number := " 15.50 ".toList,
                              Description := " lunch ".toList }]) :=
  readDateData_row [sampleIncome] " 支出 ".toList " food ".toList " a、b ".toList " 15.50 ".toList
    " lunch ".toList sampleLabel (by decide) (by decide) (by decide) (by decide) (by decide)
    (by decide) (by decide)

/-- Claim C4 fails as stated, because every line is trimmed before it is
matched: for the empty label the header line `### ` is trimmed to `###`, is read
as a data row, and the parse panics; a label with a trailing blank is stored
without the blank. -/
theorem parse_blank_date_label_fails :
    parse ([startMarker, dateSectionTag ++ []] ++ [] ++ [endMarker]) = .error .indexOutOfRange ∧
    parse ([startMarker, dateSectionTag ++ "2023-03-01 ".toList] ++ [sampleExpenseRow] ++
        [endMarker]) = .ok [(sampleLabel, [sampleExpense])] := by
  decide

/-- Claim C4, amended (sectioned parse in ledger order).  For a label `L` that
is not empty and has no trailing white space, and rows whose trimmed text is not
empty, begins with neither marker nor with the date-header mark, and either
holds a skip token or splits into at least six `|`-segments, the document made
of the start marker, the header `### L`, the rows and the end marker parses to
the map with the single key `L`, which holds the records of the trimmed rows
without skip token, in the order of the rows. -/
theorem parse_section (L : Str) (rows : List Str)
    (hL : L ≠ []) (hsp : List.rdropWhile isSpace L = L)
    (hrows : ∀ r ∈ rows, TrimSpace r ≠ [] ∧ ¬ startMarker <+: TrimSpace r ∧
      ¬ endMarker <+: TrimSpace r ∧ ¬ dateSectionTag <+: TrimSpace r ∧
      (skipRow (TrimSpace r) = true ∨ 6 ≤ (Split (TrimSpace r) fieldSep).length)) :
    parse ([startMarker, dateSectionTag ++ L] ++ rows ++ [endMarker]) =
      .ok [(L, ((rows.map TrimSpace).filter (fun t => !skipRow t)).map rowRecord)] := by
  have hstart : processLine initState startMarker =
      .ok (.next { readDataStatus := 1, dateMap := [], dateStr := [] }) := by decide
  have hT := TrimSpace_header L hL hsp
  have hhead : processLine { readDataStatus := 1, dateMap := [], dateStr := [] }
      (dateSectionTag ++ L) =
      .ok (.next { readDataStatus := 1, dateMap := [(L, [])], dateStr := L }) := by
    rw [processLine_header _ _ rfl]
    · rw [hT, Replace_header]; rfl
    · rw [hT, ← List.isPrefixOf_iff_prefix, startMarker_not_header]; exact Bool.false_ne_true
    · rw [hT, ← List.isPrefixOf_iff_prefix, endMarker_not_header]; exact Bool.false_ne_true
    · rw [hT]; exact List.prefix_append _ _
  have hend : ∀ st : ParseState, parseLoop st [endMarker] =
      .ok { st with readDataStatus := 0 } := by
    intro st
    have : endMarker <+: TrimSpace endMarker := by decide
    simp only [parseLoop, processLine_end st endMarker this]
  unfold parse
  have hdoc : [startMarker, dateSectionTag ++ L] ++ rows ++ [endMarker] =
      startMarker :: (dateSectionTag ++ L) :: (rows ++ [endMarker]) := by simp
  rw [hdoc]
  simp only [parseLoop, hstart, hhead]
  rw [parseLoop_rows rows [endMarker] L [] hrows, hend]
  simp

/-- Claim C4, amended, at a section with the table header, the separator row
and two data rows. -/
theorem parse_section_witness :
    parse ([startMarker, dateSectionTag ++ sampleLabel] ++
        [tableHeaderRow, tableSeparatorRow, sampleExpenseRow, sampleIncomeRow] ++ [endMarker]) =
      .ok [(sampleLabel,
        (([tableHeaderRow, tableSeparatorRow, sampleExpenseRow, sampleIncomeRow].map
          TrimSpace).filter (fun t => !skipRow t)).map rowRecord)] :=
  parse_section sampleLabel [tableHeaderRow, tableSeparatorRow, sampleExpenseRow, sampleIncomeRow]
    (by decide) (by decide) (by decide)

/-- Claim C5 fails as stated: the row `| 支出 | 餐饮 | 零食 | 12 |` has four
fields, fewer than the five required, yet it splits into six segments, the row
parser builds a record with an empty description, and the parse succeeds. -/
theorem four_field_row_is_parsed :
    Split fourFieldRow fieldSep =
      [[], " 支出 ".toList, " 餐饮 ".toList, " 零食 ".toList, " 12 ".toList, []] ∧
    parse [startMarker, sampleHeader, fourFieldRow, endMarker] =
      .ok [(sampleLabel, [{ Category1 := " 支出 ".toList, Category2 := " 餐饮 ".toList,
                            Tags := [" 零食 ".toList], Number := " 12 ".toList,
                            Description := [] }])] := by
  decide

/-- Claim C5, amended (malformed rows abort the parse).  When the scan loop
has read the lines `pre` and is inside the active region, and the trimmed next
line is not empty, begins with neither marker nor with the date-header mark,
holds neither skip token and splits into fewer than six `|`-segments, then the
row parser fails with the index panic on that line and so does the whole parse,
whatever follows. -/
theorem parse_short_row_fails (pre post : List Str) (line : Str) (st : ParseState)
    (hpre : parseLoop initState pre = .ok st) (hst : st.readDataStatus = 1)
    (hne : TrimSpace line ≠ []) (hs : ¬ startMarker <+: TrimSpace line)
    (he : ¬ endMarker <+: TrimSpace line) (hd : ¬ dateSectionTag <+: TrimSpace line)
    (hskip : ¬ headerLabel <:+: TrimSpace line ∧ ¬ separatorToken <:+: TrimSpace line)
    (hlen : (Split (TrimSpace line) fieldSep).length < 6) :
    (∀ L d, readDateData L (TrimSpace line) d = .error .indexOutOfRange) ∧
    parse (pre ++ line :: post) = .error .indexOutOfRange := by
  have hsk := (skipRow_eq_false_iff _).mpr hskip
  have hrow : ∀ L d, readDateData L (TrimSpace line) d = .error .indexOutOfRange :=
    fun L d => readDateData_short L _ d hsk hlen
  refine ⟨hrow, ?_⟩
  rw [parse_append_running pre (line :: post) st hpre hst]
  simp only [parseLoop, processLine_row st line hst hne hs he hd, hrow]

/-- Claim C5, amended, at the three-field row `| 支出 | 餐饮 | 零食 |`. -/
theorem parse_short_row_fails_witness :
    (∀ L d, readDateData L (TrimSpace shortRow) d = .error .indexOutOfRange) ∧
    parse ([startMarker, sampleHeader] ++ shortRow :: [sampleExpenseRow, endMarker]) =
      .error .indexOutOfRange :=
  parse_short_row_fails [startMarker, sampleHeader] [sampleExpenseRow, endMarker] shortRow
    sampleState (by decide) (by decide) (by decide) (by decide) (by decide) (by decide)
    (by decide) (by decide)

/-- Claim C6 (invalid amounts abort the aggregation).  The aggregation fails,
with the amount panic, exactly when some record of the map, of whatever date and
primary category, has a trimmed amount that `ParseFloat` rejects; it returns
totals and buckets exactly when there is no such record. -/
theorem aggregate_invalidAmount_iff (dateMap : GoMap (List BillRecord)) :
    (aggregate dateMap = .error .invalidAmount ↔
      ∃ e ∈ dateMap, ∃ r ∈ e.2, ParseFloat (TrimSpace r.Number) = none) ∧
    ((∃ res, aggregate dateMap = .ok res) ↔
      ∀ e ∈ dateMap, ∀ r ∈ e.2, ParseFloat (TrimSpace r.Number) ≠ none) := by
  have hmem : ∀ r, r ∈ allRecords dateMap ↔ ∃ e ∈ dateMap, r ∈ e.2 := by
    intro r
    simp only [allRecords, List.mem_flatten, List.mem_map]
    constructor
    · rintro ⟨l, ⟨e, he, hl⟩, hrl⟩
      subst hl
      exact ⟨e, he, hrl⟩
    · rintro ⟨e, he, hr⟩
      exact ⟨e.2, ⟨e, he, rfl⟩, hr⟩
  have hok : (∀ e ∈ dateMap, ∀ r ∈ e.2, ParseFloat (TrimSpace r.Number) ≠ none) →
      ∃ res, aggregate dateMap = .ok res := by
    intro h
    obtain ⟨res, hres, _⟩ := addRecords_ok (allRecords dateMap) initSummary (by
      intro r hr
      obtain ⟨e, he, hre⟩ := (hmem r).mp hr
      exact Option.ne_none_iff_isSome.mp (h e he r hre))
    exact ⟨res, by rw [aggregate, aggregateLoop_eq]; exact hres⟩
  have herr : ∀ e, aggregate dateMap = .error e →
      e = .invalidAmount ∧ ∃ e ∈ dateMap, ∃ r ∈ e.2, ParseFloat (TrimSpace r.Number) = none := by
    intro e h
    rw [aggregate, aggregateLoop_eq] at h
    obtain ⟨he, r, hr, hn⟩ := addRecords_error _ _ _ h
    obtain ⟨d, hd, hrd⟩ := (hmem r).mp hr
    exact ⟨he, d, hd, r, hrd, hn⟩
  constructor
  · constructor
    · intro h; exact (herr _ h).2
    · rintro ⟨d, hd, r, hr, hn⟩
      obtain ⟨e, he⟩ := addRecords_of_bad (allRecords dateMap) initSummary r
        ((hmem r).mpr ⟨d, hd, hr⟩) hn
      have hagg : aggregate dateMap = .error e := by rw [aggregate, aggregateLoop_eq]; exact he
      rw [hagg, (herr e hagg).1]
  · constructor
    · rintro ⟨res, hres⟩ d hd r hr hn
      obtain ⟨e, he⟩ := addRecords_of_bad (allRecords dateMap) initSummary r
        ((hmem r).mpr ⟨d, hd, hr⟩) hn
      rw [aggregate, aggregateLoop_eq, he] at hres
      cases hres
    · exact hok

/-- Claim C7 (skip rule).  For a line that holds the header label "分类 1" or
the separator token ":----:" anywhere, `readDateData` returns the record list
unchanged, whatever the list, the date label and the rest of the line are. -/
theorem readDateData_skip (L : List BillRecord) (line dataStr : Str)
    (h : headerLabel <:+: line ∨ separatorToken <:+: line) :
    readDateData L line dataStr = .ok L := by
  have h' : Index line headerLabel ≠ -1 ∨ Index line separatorToken ≠ -1 := by
    rw [Index_ne_neg_one_iff, Index_ne_neg_one_iff]; exact h
  unfold readDateData
  rw [if_pos h']

/-- Claim C7 at the header row of the table. -/
theorem readDateData_skip_witness :
    (headerLabel <:+: tableHeaderRow ∨ separatorToken <:+: tableHeaderRow) ∧
    readDateData [sampleExpense] tableHeaderRow sampleLabel = .ok [sampleExpense] :=
  ⟨by decide, readDateData_skip [sampleExpense] tableHeaderRow sampleLabel (by decide)⟩

/-- Claim C8 (the end marker halts parsing).  When the trimmed text of the
line `e` begins with the end marker, the lines that follow `e` do not change the
result of the parse. -/
theorem parse_end_suffix (pre : List Str) (e : Str) (s1 s2 : List Str)
    (he : endMarker <+: TrimSpace e) :
    parse (pre ++ e :: s1) = parse (pre ++ e :: s2) := by
  unfold parse
  rw [parseLoop_end_suffix pre e s1 s2 initState he]

/-- Claim C8 at an end-marker line followed by a malformed row, a start marker
and a data row. -/
theorem parse_end_suffix_witness :
    endMarker <+: TrimSpace ("  ## 2. 收支汇总 (三月)".toList) ∧
    parse ([startMarker, sampleHeader, sampleExpenseRow] ++
        "  ## 2. 收支汇总 (三月)".toList :: [shortRow, startMarker, sampleIncomeRow]) =
      parse ([startMarker, sampleHeader, sampleExpenseRow] ++
        "  ## 2. 收支汇总 (三月)".toList :: []) :=
  ⟨by decide, parse_end_suffix _ _ _ _ (by decide)⟩

/-- Claim C9 (lines outside the active region never contribute).  Lines none
of whose trimmed texts begins with the start marker parse to the empty map; put
before further lines `rest` they add nothing to the result, which is the result
of `rest` or, when one of them is an end marker, the empty map. -/
theorem outside_lines_ignored (pre rest : List Str)
    (h : ∀ l ∈ pre, ¬ startMarker <+: TrimSpace l) :
    parse pre = .ok [] ∧
    (parse (pre ++ rest) = parse rest ∨ parse (pre ++ rest) = .ok []) := by
  refine ⟨parse_no_start pre h, ?_⟩
  unfold parse
  rcases parseLoop_outside pre rest initState rfl h with h1 | h1
  · left; rw [h1]
  · right; rw [h1]; rfl

/-- Claim C9 at a date header, a data row and a malformed row put before the
sample ledger. -/
theorem outside_lines_ignored_witness :
    (∀ l ∈ [sampleHeader, sampleExpenseRow, shortRow], ¬ startMarker <+: TrimSpace l) ∧
    parse [sampleHeader, sampleExpenseRow, shortRow] = .ok [] ∧
    (parse ([sampleHeader, sampleExpenseRow, shortRow] ++ sampleDoc) = parse sampleDoc ∨
      parse ([sampleHeader, sampleExpenseRow, shortRow] ++ sampleDoc) = .ok []) :=
  ⟨by decide, outside_lines_ignored [sampleHeader, sampleExpenseRow, shortRow] sampleDoc (by decide)⟩

/-- Claim C10 fails as stated: the end-marker line does not begin with the
start marker, yet in the initial state it ends the scan loop, so that put before
the sample ledger it changes the result to the empty map. -/
theorem end_marker_halts_outside :
    initState.readDataStatus = 0 ∧ ¬ startMarker <+: endMarker ∧
    processLine initState endMarker = .ok (.stop initState) ∧
    parse ([endMarker] ++ sampleDoc) = .ok [] ∧
    parse sampleDoc = .ok sampleMap := by
  decide

/-- Claim C10, amended (the state outside the region ignores all but the
markers).  Outside the active region a line whose trimmed text begins with
neither the start marker nor the end marker leaves the state unchanged and the
loop running; hence lines of this kind put before `rest` do not change the
result of the parse. -/
theorem outside_ignores_non_markers (st : ParseState) (line : Str) (pre rest : List Str)
    (h0 : st.readDataStatus = 0)
    (hline : ¬ startMarker <+: TrimSpace line ∧ ¬ endMarker <+: TrimSpace line)
    (hpre : ∀ l ∈ pre, ¬ startMarker <+: TrimSpace l ∧ ¬ endMarker <+: TrimSpace l) :
    processLine st line = .ok (.next st) ∧ parse (pre ++ rest) = parse rest := by
  refine ⟨processLine_outside st line h0 hline.1 hline.2, ?_⟩
  unfold parse
  rw [parseLoop_outside_no_end pre rest initState rfl hpre]

/-- Claim C10, amended, at a date header, a data row and a malformed row put
before the sample ledger. -/
theorem outside_ignores_non_markers_witness :
    processLine initState sampleExpenseRow = .ok (.next initState) ∧
    parse ([sampleHeader, sampleExpenseRow, shortRow] ++ sampleDoc) = parse sampleDoc :=
  outside_ignores_non_markers initState sampleExpenseRow [sampleHeader, sampleExpenseRow, shortRow]
    sampleDoc (by decide) (by decide) (by decide)

/-- Claim C11 fails as stated: a data row between the start marker and the
end marker, with no date header line in the document, is passed to the row
parser, and its record is stored under the empty label. -/
theorem row_before_header_is_parsed :
    parse [startMarker, sampleExpenseRow, endMarker] = .ok [([], [sampleExpense])] ∧
    ¬ dateSectionTag <+: TrimSpace startMarker ∧
    ¬ dateSectionTag <+: TrimSpace sampleExpenseRow ∧
    ¬ dateSectionTag <+: TrimSpace endMarker := by
  decide

/-- Claim C11, amended (keys of the date map).  In every successful parse
each key of the map is the label of a date header line of the active region or
the empty label, and every label of a date header line of the active region is a
key.  A line of the active region that comes before every date header and is
not blank, not a marker and not a date header is passed to the row parser with
the empty label, which thereby becomes a key; and the sequence stored under the
empty label is exactly that of the records of the rows between the first
start-marker line and the first date header line or end marker after it: no
sequence when there is no such row. -/
theorem keys_are_region_labels (lines : List Str) (m : GoMap (List BillRecord))
    (h : parse lines = .ok m) :
    (∀ k ∈ m.map Prod.fst, k = [] ∨ IsRegionLabel lines k) ∧
    (∀ k, IsRegionLabel lines k → k ∈ m.map Prod.fst) ∧
    (∀ pre row post, lines = pre ++ row :: post → InActiveRegion pre →
      (∀ l ∈ pre, ¬ dateSectionTag <+: TrimSpace l) → TrimSpace row ≠ [] →
      ¬ startMarker <+: TrimSpace row → ¬ endMarker <+: TrimSpace row →
      ¬ dateSectionTag <+: TrimSpace row → [] ∈ m.map Prod.fst) ∧
    (∀ pre s post, lines = pre ++ s :: post →
      (∀ l ∈ pre, ¬ startMarker <+: TrimSpace l ∧ ¬ endMarker <+: TrimSpace l) →
      startMarker <+: TrimSpace s →
      mapGet m [] = if sectionRows post = [] then none else some (sectionRecords post)) := by
  have h0 := h
  obtain ⟨st, hst, rfl⟩ := (parse_ok_iff lines m).mp h
  refine ⟨?_, ?_, ?_, ?_⟩
  · intro k hk
    rcases parseLoop_keys lines initState st hst k hk with h' | h' | ⟨pre, l, post, st1, hl, hpre, h1, hd, hk'⟩
    · cases h'
    · exact Or.inl h'
    · right
      obtain ⟨hne, hs⟩ := parseLoop_running_region pre initState st1 hpre h1
      refine ⟨pre, l, post, hl, ⟨?_, hne⟩, hd, hk'⟩
      rcases hs with h0 | h0
      · cases h0
      · exact h0
  · rintro k ⟨pre, l, post, hl, ⟨hs, hne⟩, hd, hk⟩
    subst hl
    obtain ⟨st1, _, h2, _, h4, _⟩ := parseLoop_split pre (l :: post) initState st hst hne
    have h1 := h4 (Or.inr hs)
    rw [parseLoop_cons_next _ _ _ _ (processLine_header_label st1 l h1 hd)] at h2
    apply parseLoop_keys_mono _ _ _ h2
    rw [hk]
    exact (mem_keys_mapSet _ _ _ _).mpr (Or.inr rfl)
  · intro pre row post hl hreg hnh hb hs he hd
    subst hl
    obtain ⟨st1, _, h2, _, h4, h5⟩ := parseLoop_split pre (row :: post) initState st hst hreg.2
    have h1 := h4 (Or.inr hreg.1)
    have hds : st1.dateStr = [] := h5 hnh
    cases hr : readDateData ((mapGet st1.dateMap st1.dateStr).getD []) (TrimSpace row)
        st1.dateStr with
    | error e =>
      simp only [parseLoop, processLine_row st1 row h1 hb hs he hd, hr] at h2
      cases h2
    | ok recs =>
      have hp : processLine st1 row =
          .ok (.next { st1 with dateMap := mapSet st1.dateMap st1.dateStr recs }) := by
        rw [processLine_row st1 row h1 hb hs he hd, hr]
      rw [parseLoop_cons_next _ _ _ _ hp] at h2
      apply parseLoop_keys_mono _ _ _ h2
      exact (mem_keys_mapSet _ _ _ _).mpr (Or.inr hds.symm)
  · intro pre s post hl hpre hs
    subst hl
    exact parse_headless_section pre post s _ h0 hpre hs

/-- Claim C11, amended, at a ledger with one row before and one row after the
date header: the record of the first row is stored under the empty label. -/
theorem keys_are_region_labels_witness :
    parse headlessDoc = .ok headlessMap ∧
    (∀ k ∈ headlessMap.map Prod.fst, k = [] ∨ IsRegionLabel headlessDoc k) ∧
    (∀ k, IsRegionLabel headlessDoc k → k ∈ headlessMap.map Prod.fst) ∧
    (∀ pre row post, headlessDoc = pre ++ row :: post → InActiveRegion pre →
      (∀ l ∈ pre, ¬ dateSectionTag <+: TrimSpace l) → TrimSpace row ≠ [] →
      ¬ startMarker <+: TrimSpace row → ¬ endMarker <+: TrimSpace row →
      ¬ dateSectionTag <+: TrimSpace row → [] ∈ headlessMap.map Prod.fst) ∧
    (∀ pre s post, headlessDoc = pre ++ s :: post →
      (∀ l ∈ pre, ¬ startMarker <+: TrimSpace l ∧ ¬ endMarker <+: TrimSpace l) →
      startMarker <+: TrimSpace s →
      mapGet headlessMap [] =
        if sectionRows post = [] then none else some (sectionRecords post)) ∧
    sectionRecords [sampleExpenseRow, sampleHeader, sampleIncomeRow, endMarker] = [sampleExpense] ∧
    mapGet headlessMap [] = some [sampleExpense] :=
  ⟨by decide, (keys_are_region_labels headlessDoc headlessMap (by decide)).1,
    (keys_are_region_labels headlessDoc headlessMap (by decide)).2.1,
    (keys_are_region_labels headlessDoc headlessMap (by decide)).2.2.1,
    (keys_are_region_labels headlessDoc headlessMap (by decide)).2.2.2,
    by decide,
    ((keys_are_region_labels headlessDoc headlessMap (by decide)).2.2.2 [] startMarker
      [sampleExpenseRow, sampleHeader, sampleIncomeRow, endMarker] rfl
      (fun _ hl => (by cases hl)) (by decide)).trans (by decide)⟩

/-- Claim C12 fails as stated, because the line is trimmed before it is
matched: after the start marker and one data row the map holds a record under
the empty label, and the header line `### ` for that label is trimmed to `###`,
read as a data row, and panics instead of resetting the sequence. -/
theorem blank_header_does_not_reset :
    parseLoop initState [startMarker, sampleExpenseRow] = .ok headlessState ∧
    headlessState.readDataStatus = 1 ∧
    mapGet headlessState.dateMap [] = some [sampleExpense] ∧
    processLine headlessState (dateSectionTag ++ []) = .error .indexOutOfRange := by
  decide

/-- Claim C12, amended (a duplicate date header resets the section).  Inside
the active region a line whose trimmed text is `### L` leaves the loop running
with `L` as the current label, replaces the sequence under `L` by the empty
sequence and leaves the sequences of all other labels unchanged; hence, when no
later line is a header for `L` and the parse succeeds, the final sequence under
`L` holds exactly the records of the rows that follow this header up to the next
date header or end marker. -/
theorem header_resets_label (st : ParseState) (raw L : Str) (h1 : st.readDataStatus = 1)
    (hraw : TrimSpace raw = dateSectionTag ++ L) :
    ∃ st', processLine st raw = .ok (.next st') ∧ st'.readDataStatus = 1 ∧ st'.dateStr = L ∧
      mapGet st'.dateMap L = some [] ∧
      (∀ k, k ≠ L → mapGet st'.dateMap k = mapGet st.dateMap k) ∧
      (∀ post final, (∀ l ∈ post, TrimSpace l ≠ dateSectionTag ++ L) →
        parseLoop st (raw :: post) = .ok final →
        mapGet final.dateMap L = some (sectionRecords post)) := by
  have hd : dateSectionTag <+: TrimSpace raw := by rw [hraw]; exact List.prefix_append _ _
  have hlab : dateLabelOf raw = L := (dateLabelOf_eq raw L hd).mpr hraw
  have hp := processLine_header_label st raw h1 hd
  rw [hlab] at hp
  refine ⟨_, hp, rfl, rfl, ?_, ?_, ?_⟩
  · simp only [mapGet_mapSet, if_true]
  · intro k hk
    simp only [mapGet_mapSet]
    rw [if_neg (fun e => hk e.symm)]
  · intro post final hno h
    rw [parseLoop_cons_next _ _ _ _ hp] at h
    have := parseLoop_section L post _ final [] rfl rfl
      (by simp only [mapGet_mapSet, if_true]) hno h
    simpa using this

/-- Claim C12, amended, at a state that holds a record under the label of the
header line `### 2023-03-01`. -/
theorem header_resets_label_witness :
    ∃ st', processLine filledState sampleHeader = .ok (.next st') ∧ st'.readDataStatus = 1 ∧
      st'.dateStr = sampleLabel ∧
      mapGet st'.dateMap sampleLabel = some [] ∧
      (∀ k, k ≠ sampleLabel → mapGet st'.dateMap k = mapGet filledState.dateMap k) ∧
      (∀ post final, (∀ l ∈ post, TrimSpace l ≠ dateSectionTag ++ sampleLabel) →
        parseLoop filledState (sampleHeader :: post) = .ok final →
        mapGet final.dateMap sampleLabel = some (sectionRecords post)) :=
  header_resets_label filledState sampleHeader sampleLabel (by decide) (by decide)

/-- Claim C13 (date label extraction).  Inside the active region a line whose
trimmed text `t` begins with `### ` makes `t` without its first four characters
the current label, whatever the rest of `t` holds, and starts an empty sequence
under it; the line is not passed to the row parser, so it adds no record and
cannot fail. -/
theorem header_label_verbatim (st : ParseState) (raw : Str) (h1 : st.readDataStatus = 1)
    (hd : dateSectionTag <+: TrimSpace raw) :
    processLine st raw =
      .ok (.next { readDataStatus := 1,
                   dateMap := mapSet st.dateMap ((TrimSpace raw).drop 4) [],
                   dateStr := (TrimSpace raw).drop 4 }) :=
  processLine_header_label st raw h1 hd

/-- Claim C13 at a header line whose label holds a second mark `### `. -/
theorem header_label_verbatim_witness :
    (TrimSpace nestedHeader).drop 4 = "周一 ### 2023-03-01".toList ∧
    processLine filledState nestedHeader =
      .ok (.next { readDataStatus := 1,
                   dateMap := mapSet filledState.dateMap ((TrimSpace nestedHeader).drop 4) [],
                   dateStr := (TrimSpace nestedHeader).drop 4 }) :=
  ⟨by decide, header_label_verbatim filledState nestedHeader (by decide) (by decide)⟩

/-- Claim C14 (records of other primary categories are dropped without
error).  A record whose trimmed primary category is neither "支出" nor "收入"
and whose trimmed amount parses can be added to the records of any date, at any
place, or under a new date, without changing the outcome of the aggregation; so
when the aggregation of the map succeeds, that of the extended map succeeds with
the same totals and buckets. -/
theorem other_category_dropped (A B : GoMap (List BillRecord)) (d : Str)
    (xs ys : List BillRecord) (r : BillRecord)
    (h1 : TrimSpace r.Category1 ≠ expenseLabel) (h2 : TrimSpace r.Category1 ≠ incomeLabel)
    (hnum : (ParseFloat (TrimSpace r.Number)).isSome) :
    aggregate (A ++ (d, xs ++ r :: ys) :: B) = aggregate (A ++ (d, xs ++ ys) :: B) ∧
    aggregate (A ++ (d, [r]) :: B) = aggregate (A ++ B) ∧
    (∀ res, aggregate (A ++ (d, xs ++ ys) :: B) = .ok res →
      aggregate (A ++ (d, xs ++ r :: ys) :: B) = .ok res) ∧
    (∀ res, aggregate (A ++ B) = .ok res → aggregate (A ++ (d, [r]) :: B) = .ok res) := by
  have e1 : aggregate (A ++ (d, xs ++ r :: ys) :: B) = aggregate (A ++ (d, xs ++ ys) :: B) := by
    simp only [aggregate, aggregateLoop_eq, allRecords_append, allRecords_cons]
    have := addRecords_insert_other (allRecords A ++ xs) (ys ++ allRecords B) initSummary r h1 h2
      hnum
    simpa [List.append_assoc] using this
  have e2 : aggregate (A ++ (d, [r]) :: B) = aggregate (A ++ B) := by
    simp only [aggregate, aggregateLoop_eq, allRecords_append, allRecords_cons]
    exact addRecords_insert_other (allRecords A) (allRecords B) initSummary r h1 h2 hnum
  exact ⟨e1, e2, fun res h => e1.trans h, fun res h => e2.trans h⟩

/-- Claim C14 at the sample map, with a transfer of 200 added between the two
records of a date and under a date of its own. -/
theorem other_category_dropped_witness :
    aggregate ([] ++ (sampleLabel, [sampleExpense] ++ transferRecord :: [sampleIncome]) ::
        sampleMap) =
      aggregate ([] ++ (sampleLabel, [sampleExpense] ++ [sampleIncome]) :: sampleMap) ∧
    aggregate ([] ++ (sampleLabel, [transferRecord]) :: sampleMap) =
      aggregate ([] ++ sampleMap) ∧
    (∀ res,
      aggregate ([] ++ (sampleLabel, [sampleExpense] ++ [sampleIncome]) :: sampleMap) = .ok res →
      aggregate ([] ++ (sampleLabel, [sampleExpense] ++ transferRecord :: [sampleIncome]) ::
        sampleMap) = .ok res) ∧
    (∀ res, aggregate ([] ++ sampleMap) = .ok res →
      aggregate ([] ++ (sampleLabel, [transferRecord]) :: sampleMap) = .ok res) :=
  other_category_dropped [] sampleMap sampleLabel [sampleExpense] [sampleIncome] transferRecord
    (by decide) (by decide) (by decide)

/-- Claim C15 fails as stated: the same Go map, with the expenses 0.1 (food)
and 0.2 (bus) under one date and 0.4 (food) under another, gives the total
0.7000000000000001 when the first date is visited first and the total 0.7 when
the second date is visited first. -/
theorem aggregate_depends_on_order :
    (allRecords twoDatesMap).Perm (allRecords twoDatesMapSwapped) ∧
    twoDatesMap.Perm twoDatesMapSwapped ∧
    aggregate twoDatesMap = .ok roundingSummary ∧
    aggregate twoDatesMapSwapped = .ok swappedSummary ∧
    roundingSummary.totalOut ≠ swappedSummary.totalOut ∧
    some roundingSummary.totalOut = ParseFloat "0.7000000000000001".toList ∧
    some swappedSummary.totalOut = ParseFloat "0.7".toList := by
  refine ⟨?_, List.Perm.swap _ _ _, by decide!, by decide!, by decide, by decide!, by decide!⟩
  have h1 : allRecords twoDatesMap = firstDate.2 ++ secondDate.2 := rfl
  have h2 : allRecords twoDatesMapSwapped = secondDate.2 ++ firstDate.2 := rfl
  rw [h1, h2]
  exact List.perm_append_comm

/-- Claim C15, amended (order of the records).  For two date maps that hold
the same records, regrouped and reordered in any way: the aggregation of one
fails exactly when that of the other fails, with the same failure; when both
succeed, the buckets have the same keys; each of the two totals is the same
value in both results when none of the float64 additions that produce it rounds,
in the one order and in the other; and so is the value under each key when none
of the additions to that bucket rounds in either order. -/
theorem aggregate_order_independent (M1 M2 : GoMap (List BillRecord))
    (hperm : (allRecords M1).Perm (allRecords M2)) :
    (∀ e, aggregate M1 = .error e ↔ aggregate M2 = .error e) ∧
    (∀ res1 res2, aggregate M1 = .ok res1 → aggregate M2 = .ok res2 →
      (∀ k, k ∈ res1.outMap.map Prod.fst ↔ k ∈ res2.outMap.map Prod.fst) ∧
      (∀ k, k ∈ res1.inMap.map Prod.fst ↔ k ∈ res2.inMap.map Prod.fst) ∧
      (ExactSum F64.zero (amountsOfLabel expenseLabel (allRecords M1)) →
        ExactSum F64.zero (amountsOfLabel expenseLabel (allRecords M2)) →
        res1.totalOut = res2.totalOut) ∧
      (ExactSum F64.zero (amountsOfLabel incomeLabel (allRecords M1)) →
        ExactSum F64.zero (amountsOfLabel incomeLabel (allRecords M2)) →
        res1.totalIn = res2.totalIn) ∧
      (∀ k, ExactBucket (amountsOfBucket expenseLabel k (allRecords M1)) →
        ExactBucket (amountsOfBucket expenseLabel k (allRecords M2)) →
        mapGet res1.outMap k = mapGet res2.outMap k) ∧
      (∀ k, ExactBucket (amountsOfBucket incomeLabel k (allRecords M1)) →
        ExactBucket (amountsOfBucket incomeLabel k (allRecords M2)) →
        mapGet res1.inMap k = mapGet res2.inMap k)) := by
  refine ⟨?_, ?_⟩
  · intro e
    rw [aggregate_error_iff, aggregate_error_iff]
    constructor
    · rintro ⟨he, r, hr, hn⟩
      exact ⟨he, r, hperm.mem_iff.mp hr, hn⟩
    · rintro ⟨he, r, hr, hn⟩
      exact ⟨he, r, hperm.mem_iff.mpr hr, hn⟩
  · intro res1 res2 h1 h2
    obtain ⟨hall1, hacc1⟩ := aggregate_ok_accumulated M1 res1 h1
    obtain ⟨hall2, hacc2⟩ := aggregate_ok_accumulated M2 res2 h2
    refine ⟨?_, ?_, ?_, ?_, ?_, ?_⟩
    · intro k
      rw [bucket_keys expenseLabel _ _ hall1 hacc1.outMap k,
        bucket_keys expenseLabel _ _ hall2 hacc2.outMap k]
      constructor
      · rintro ⟨r, hr, hc⟩; exact ⟨r, hperm.mem_iff.mp hr, hc⟩
      · rintro ⟨r, hr, hc⟩; exact ⟨r, hperm.mem_iff.mpr hr, hc⟩
    · intro k
      rw [bucket_keys incomeLabel _ _ hall1 hacc1.inMap k,
        bucket_keys incomeLabel _ _ hall2 hacc2.inMap k]
      constructor
      · rintro ⟨r, hr, hc⟩; exact ⟨r, hperm.mem_iff.mp hr, hc⟩
      · rintro ⟨r, hr, hc⟩; exact ⟨r, hperm.mem_iff.mpr hr, hc⟩
    · intro e1 e2
      rw [hacc1.totalOut, hacc2.totalOut]
      exact total_eq_of_exact expenseLabel _ _ hperm e1 e2
    · intro e1 e2
      rw [hacc1.totalIn, hacc2.totalIn]
      exact total_eq_of_exact incomeLabel _ _ hperm e1 e2
    · intro k e1 e2
      rw [hacc1.outMap, hacc2.outMap]
      show List.foldl bucketStep none _ = List.foldl bucketStep none _
      rw [foldl_bucketStep_none, foldl_bucketStep_none]
      exact bucketSum_eq_of_exact _ _ (perm_amountsOfBucket expenseLabel k _ _ hperm) e1 e2
    · intro k e1 e2
      rw [hacc1.inMap, hacc2.inMap]
      show List.foldl bucketStep none _ = List.foldl bucketStep none _
      rw [foldl_bucketStep_none, foldl_bucketStep_none]
      exact bucketSum_eq_of_exact _ _ (perm_amountsOfBucket incomeLabel k _ _ hperm) e1 e2

/-- Claim C15, amended, at the map with the amounts 15.50, -5, 3000.00, 3 and
0.25 under two dates and the same records under one date in another order: no
addition rounds in either order, and the totals and the values under every key
are the same. -/
theorem aggregate_order_independent_witness :
    (allRecords exactMap).Perm (allRecords exactMapRegrouped) ∧
    aggregate exactMap = .ok exactSummary ∧
    aggregate exactMapRegrouped = .ok exactSummaryRegrouped ∧
    NoRounding expenseLabel (allRecords exactMap) ∧
    NoRounding incomeLabel (allRecords exactMap) ∧
    NoRounding expenseLabel (allRecords exactMapRegrouped) ∧
    NoRounding incomeLabel (allRecords exactMapRegrouped) ∧
    exactSummary.totalOut = exactSummaryRegrouped.totalOut ∧
    exactSummary.totalIn = exactSummaryRegrouped.totalIn ∧
    (∀ k, mapGet exactSummary.outMap k = mapGet exactSummaryRegrouped.outMap k) ∧
    (∀ k, mapGet exactSummary.inMap k = mapGet exactSummaryRegrouped.inMap k) :=
  have hp : (allRecords exactMap).Perm (allRecords exactMapRegrouped) := by decide
  have a1 : NoRounding expenseLabel (allRecords exactMap) := by decide!
  have a2 : NoRounding incomeLabel (allRecords exactMap) := by decide!
  have b1 : NoRounding expenseLabel (allRecords exactMapRegrouped) := by decide!
  have b2 : NoRounding incomeLabel (allRecords exactMapRegrouped) := by decide!
  have t := (aggregate_order_independent exactMap exactMapRegrouped hp).2 exactSummary
    exactSummaryRegrouped (by decide!) (by decide!)
  ⟨hp, by decide!, by decide!, a1, a2, b1, b2, t.2.2.1 a1.1 b1.1, t.2.2.2.1 a2.1 b2.1,
    fun k => t.2.2.2.2.1 k (noRounding_bucket _ _ a1 k) (noRounding_bucket _ _ b1 k),
    fun k => t.2.2.2.2.2 k (noRounding_bucket _ _ a2 k) (noRounding_bucket _ _ b2 k)⟩

/-- Claim C16 (blank lines are skipped in every state).  Two documents that
have the same lines apart from lines that are empty or hold white space only,
that is, documents obtained from one another by inserting and deleting such
lines at any places, have the same parse result: the same map or the same
failure. -/
theorem blank_lines_skipped (doc doc' : List Str)
    (h : doc.filter (fun l => !isBlankLine l) = doc'.filter (fun l => !isBlankLine l)) :
    parse doc = parse doc' := by
  unfold parse
  rw [← parseLoop_filter_blank doc, ← parseLoop_filter_blank doc', h]

/-- Claim C16 at the sample ledger with seven blank lines inserted before,
inside and after the active region. -/
theorem blank_lines_skipped_witness :
    parse paddedDoc = parse sampleDoc :=
  blank_lines_skipped paddedDoc sampleDoc (by decide)

/-- Claim C17 (end-to-end scenario).  The five lines of the sample ledger parse
to one date with two records, and their aggregation succeeds with the expense
total 15.50, the expense bucket "food" of 15.50, the income total 3000, the
income bucket "salary" of 3000, and the net balance, income total minus expense
total, of 2984.50; every value is the float64 of the decimal text given. -/
theorem end_to_end_scenario :
    sampleDoc = ["## 1. 日常收支".toList, "### 2023-03-01".toList,
      "| 支出 | food | snack | 15.50 | lunch |".toList,
      "| 收入 | salary |  | 3000 | pay |".toList, "## 2. 收支汇总".toList] ∧
    parse sampleDoc = .ok sampleMap ∧
    aggregate sampleMap = .ok sampleSummary ∧
    some sampleSummary.totalOut = ParseFloat "15.50".toList ∧
    sampleSummary.outMap.map (fun p => (p.1, some p.2)) =
      [("food".toList, ParseFloat "15.50".toList)] ∧
    some sampleSummary.totalIn = ParseFloat "3000.00".toList ∧
    sampleSummary.inMap.map (fun p => (p.1, some p.2)) =
      [("salary".toList, ParseFloat "3000.00".toList)] ∧
    some (F64.sub sampleSummary.totalIn sampleSummary.totalOut) =
      ParseFloat "2984.50".toList := by
  decide!

/-- Claim C18 (the aggregation ignores white space around the fields).  Text
with white space added before and after it has the same trimmed text; two maps
whose records agree, one by one, in the trimmed amount, the trimmed primary
category and the trimmed secondary category have the same aggregation outcome;
and in a successful aggregation every key of the two bucket maps is free of
white space at both ends, and the bucket under the trimmed secondary category of
a record holds the sum of the amounts of all records of the same primary
category whose secondary category has that trimmed text. -/
theorem aggregate_ignores_surrounding_space (M1 M2 : GoMap (List BillRecord))
    (h : List.Forall₂ (fun e1 e2 => List.Forall₂ SameTrimmed e1.2 e2.2) M1 M2) :
    (∀ s w1 w2 : Str, w1.all isSpace = true → w2.all isSpace = true →
      TrimSpace (w1 ++ s ++ w2) = TrimSpace s) ∧
    aggregate M1 = aggregate M2 ∧
    (∀ res, aggregate M1 = .ok res →
      (∀ k ∈ res.outMap.map Prod.fst, TrimSpace k = k) ∧
      (∀ k ∈ res.inMap.map Prod.fst, TrimSpace k = k) ∧
      (∀ r ∈ allRecords M1, TrimSpace r.Category1 = expenseLabel →
        mapGet res.outMap (TrimSpace r.Category2) =
          bucketSum (amountsOfBucket expenseLabel (TrimSpace r.Category2) (allRecords M1))) ∧
      (∀ r ∈ allRecords M1, TrimSpace r.Category1 = incomeLabel →
        mapGet res.inMap (TrimSpace r.Category2) =
          bucketSum (amountsOfBucket incomeLabel (TrimSpace r.Category2) (allRecords M1)))) := by
  refine ⟨TrimSpace_pad, aggregateLoop_sameTrimmed M1 M2 initSummary h, ?_⟩
  intro res hres
  obtain ⟨hall, hacc⟩ := aggregate_ok_accumulated M1 res hres
  refine ⟨?_, ?_, ?_, ?_⟩
  · intro k hk
    obtain ⟨r, _, _, hr⟩ := (bucket_keys expenseLabel _ _ hall hacc.outMap k).mp hk
    rw [← hr, TrimSpace_idem]
  · intro k hk
    obtain ⟨r, _, _, hr⟩ := (bucket_keys incomeLabel _ _ hall hacc.inMap k).mp hk
    rw [← hr, TrimSpace_idem]
  · intro r _ _
    rw [hacc.outMap]
    exact foldl_bucketStep_none _
  · intro r _ _
    rw [hacc.inMap]
    exact foldl_bucketStep_none _

/-- Claim C18 at the sample map and the same records with the white space
around their fields removed or changed. -/
theorem aggregate_ignores_surrounding_space_witness :
    (∀ s w1 w2 : Str, w1.all isSpace = true → w2.all isSpace = true →
      TrimSpace (w1 ++ s ++ w2) = TrimSpace s) ∧
    aggregate sampleMap = aggregate trimmedSampleMap ∧
    (∀ res, aggregate sampleMap = .ok res →
      (∀ k ∈ res.outMap.map Prod.fst, TrimSpace k = k) ∧
      (∀ k ∈ res.inMap.map Prod.fst, TrimSpace k = k) ∧
      (∀ r ∈ allRecords sampleMap, TrimSpace r.Category1 = expenseLabel →
        mapGet res.outMap (TrimSpace r.Category2) =
          bucketSum (amountsOfBucket expenseLabel (TrimSpace r.Category2)
            (allRecords sampleMap))) ∧
      (∀ r ∈ allRecords sampleMap, TrimSpace r.Category1 = incomeLabel →
        mapGet res.inMap (TrimSpace r.Category2) =
          bucketSum (amountsOfBucket incomeLabel (TrimSpace r.Category2)
            (allRecords sampleMap)))) :=
  aggregate_ignores_surrounding_space sampleMap trimmedSampleMap
    (List.Forall₂.cons
      (List.Forall₂.cons ⟨by decide, by decide, by decide⟩
        (List.Forall₂.cons ⟨by decide, by decide, by decide⟩ List.Forall₂.nil))
      List.Forall₂.nil)

/-- Claim C19 (exact failure condition of the row parser).  For every record
list, line and date label, `readDateData` fails with the index panic exactly
when the line holds neither "分类 1" nor ":----:" and splits on "|" into fewer
than six segments.  In every case its result is: the list unchanged when a skip
token is present; otherwise the list with one record appended, built from
segments 1 to 5 alone (segment 0 and the segments after the sixth do not enter
it), when there are six segments or more; otherwise the index panic. -/
theorem readDateData_exact (L : List BillRecord) (line dataStr : Str) :
    (readDateData L line dataStr = .error .indexOutOfRange ↔
      (¬ headerLabel <:+: line ∧ ¬ separatorToken <:+: line) ∧
        (Split line fieldSep).length < 6) ∧
    readDateData L line dataStr =
      (if headerLabel <:+: line ∨ separatorToken <:+: line then .ok L
       else
        match Split line fieldSep with
        | _ :: s1 :: s2 :: s3 :: s4 :: s5 :: _ =>
          .ok (L ++ [{ Category1 := s1, Category2 := s2, Tags := Split s3 tagSep, Number := s4,
                       Description := s5 }])
        | _ => .error .indexOutOfRange) := by
  refine ⟨?_, readDateData_eq L line dataStr⟩
  constructor
  · intro h
    cases hsk : skipRow line with
    | true =>
      rw [readDateData_skipRow L line dataStr hsk] at h
      cases h
    | false =>
      refine ⟨(skipRow_eq_false_iff line).mp hsk, ?_⟩
      by_contra hlen
      rw [readDateData_long L line dataStr hsk (by omega)] at h
      cases h
  · rintro ⟨hsk, hlen⟩
    exact readDateData_short L line dataStr ((skipRow_eq_false_iff line).mpr hsk) hlen

/-- Claim C20 (tags round trip).  For every record `r` that `readDateData`
appends for a line, the tags of `r` are the split on "、" of segment 3 of the
line; they are not the empty sequence; no tag holds "、"; joined with "、" they
give segment 3 back exactly; and when segment 3 is empty or all white space the
tags are that one segment alone. -/
theorem tags_round_trip (L : List BillRecord) (line dataStr : Str) (r : BillRecord)
    (h : readDateData L line dataStr = .ok (L ++ [r])) :
    r.Tags = Split ((Split line fieldSep).getD 3 []) tagSep ∧
    r.Tags ≠ [] ∧
    (∀ t ∈ r.Tags, ¬ tagSep <:+: t) ∧
    Join r.Tags tagSep = (Split line fieldSep).getD 3 [] ∧
    (((Split line fieldSep).getD 3 []).all isSpace = true →
      r.Tags = [(Split line fieldSep).getD 3 []]) := by
  obtain ⟨_, _, hr⟩ := readDateData_ok_append L line dataStr r h
  have ht : r.Tags = Split ((Split line fieldSep).getD 3 []) tagSep := by rw [hr]; rfl
  have hsep : tagSep = ['、'] := rfl
  rw [ht, hsep]
  refine ⟨rfl, Split_single_ne_nil _ _, ?_, Split_single_intercalate _ _, ?_⟩
  · intro t htm hinf
    apply Split_single_not_mem _ _ t htm
    exact (List.singleton_sublist.mp hinf.sublist)
  · intro hb
    exact Split_of_not_mem _ _ (not_mem_of_all_isSpace _ hb)

/-- Claim C20 at a row of eight segments with the tag list `a、b`, stored with
its surrounding blanks. -/
theorem tags_round_trip_witness :
    readDateData [sampleExpense] longRow sampleLabel =
      .ok ([sampleExpense] ++ [rowRecord longRow]) ∧
    (rowRecord longRow).Tags = Split ((Split longRow fieldSep).getD 3 []) tagSep ∧
    (rowRecord longRow).Tags ≠ [] ∧
    (∀ t ∈ (rowRecord longRow).Tags, ¬ tagSep <:+: t) ∧
    Join (rowRecord longRow).Tags tagSep = (Split longRow fieldSep).getD 3 [] ∧
    (((Split longRow fieldSep).getD 3 []).all isSpace = true →
      (rowRecord longRow).Tags = [(Split longRow fieldSep).getD 3 []]) :=
  ⟨by decide, tags_round_trip [sampleExpense] longRow sampleLabel (rowRecord longRow) (by decide)⟩

end Bill
